import Mathlib

/-!
# Chained hash table (`hashcore.c`, `hashitem.c`)

A shallow embedding of the table engine and of its entry functions.

Conventions of the embedding
* A byte buffer `(pointer, size)` is the list of the bytes at the pointer; a
  byte is a natural number.
* A collision chain (entries linked through `pnext`) is the list of its
  entries, head first; the empty chain is the `NULL` bucket.
* `unsigned int` fields are natural numbers, every increment, decrement and
  doubling reduced modulo `2 ^ 32`.
* `double` values are rationals; the rounding of a quotient to a `double` is a
  parameter (`Env.round_double`).
* A function that can crash (call through a `NULL` function pointer, `% 0`) or
  whose recursion runs out of fuel returns `none`.
* `malloc` is assumed to succeed.
-/

namespace Hashtable

/-- The digest function type of `hashfunc.h` (the header is not part of the
sources; the shape is the one of the call in `ht_index_ui`): key bytes, key
length and seed give the digest written to the output word. -/
abbrev HashFunc := List Nat → Nat → Nat → Nat

/-- Range of `unsigned int` and of `uint32_t`. -/
def UINT_RANGE : Nat := 4294967296

/-- The constant `HT_INITIAL_SIZE` of `hashcore.h`. -/
def HT_INITIAL_SIZE : Nat := 64

/-- The flag `HT_KEY_CONST` of `hash_flags_t`. -/
def HT_KEY_CONST : Nat := 1

/-- The flag `HT_VALUE_CONST` of `hash_flags_t`. -/
def HT_VALUE_CONST : Nat := 2

/-- The flag `HT_NO_AUTORESIZE` of `hash_flags_t`. -/
def HT_NO_AUTORESIZE : Nat := 4

/-- What the two translation units take from outside: the build switch
`__WITH_MURMUR`, the three MurmurHash3 functions linked in under that switch
(their source is not part of the sources), the rounding of an exact quotient to
a `double`, and the file-level variable `global_seed`. -/
structure Env where
  with_murmur : Bool
  MurmurHash3_x86_32 : HashFunc
  MurmurHash3_x86_128 : HashFunc
  MurmurHash3_x64_128 : HashFunc
  round_double : ℚ → ℚ
  global_seed : Nat

/-- The `struct hash_entry` without its `pnext` link (the chain is a list). -/
structure hash_entry where
  pkey : List Nat
  value_size : Nat
  pvalue : List Nat
  key_size : Nat
deriving DecidableEq, Repr

/-- The `struct hash_table`. A `NULL` function pointer is `none`; `pparray` is the
list of the chains, `NULL` being the empty list. -/
structure hash_table where
  phashfunc_x86_32 : Option HashFunc
  phashfunc_x86_128 : Option HashFunc
  phashfunc_x64_128 : Option HashFunc
  key_count : Nat
  pparray : List (List hash_entry)
  array_size : Nat
  collisions : Nat
  flags : Nat
  max_load_factor : ℚ
  current_load_factor : ℚ

/-! ## hashitem.c -/

/-- The function `he_create_p`: the key is kept by reference under
`HT_KEY_CONST` and copied (`key_size` bytes) otherwise; the same for the value
under `HT_VALUE_CONST`. -/
def he_create_p (flags : Nat) (pkey : List Nat) (key_size : Nat) (pvalue : List Nat)
    (value_size : Nat) : hash_entry :=
  { key_size := key_size
    pkey := if flags &&& HT_KEY_CONST ≠ 0 then pkey else pkey.take key_size
    value_size := value_size
    pvalue := if flags &&& HT_VALUE_CONST ≠ 0 then pvalue else pvalue.take value_size }

/-- The function `memcmp` on the first `n` bytes: zero exactly when they
agree. -/
def memcmp : List Nat → List Nat → Nat → Int
  | _, _, 0 => 0
  | [], [], _ + 1 => 0
  | [], _ :: _, _ + 1 => -1
  | _ :: _, [], _ + 1 => 1
  | a :: as, b :: bs, n + 1 => if a = b then memcmp as bs n else (a : Int) - (b : Int)

/-- The function `he_key_compare_i`: 1 when the key sizes are equal and the
keys agree on that many bytes, 0 otherwise. -/
def he_key_compare_i (pe1 pe2 : hash_entry) : Nat :=
  if pe1.key_size ≠ pe2.key_size then 0
  else if memcmp pe1.pkey pe2.pkey pe1.key_size = 0 then 1 else 0

/-- The function `he_set_value`: replaces the value (copying `value_size`
bytes unless `HT_VALUE_CONST`) and records the new size. -/
def he_set_value (flags : Nat) (pentry : hash_entry) (pvalue : List Nat) (value_size : Nat) :
    hash_entry :=
  { pentry with
    pvalue := if ¬ (flags &&& HT_VALUE_CONST ≠ 0) then pvalue.take value_size else pvalue
    value_size := value_size }

/-! ## hashcore.c -/

/-- The function `ht_init`. Under `__WITH_MURMUR` the function takes no digest
arguments and binds the MurmurHash3 functions; otherwise it binds its three
arguments. -/
def ht_init (E : Env) (flags : Nat) (max_load_factor : ℚ)
    (for_x86_32 for_x86_128 for_x64_128 : Option HashFunc) : hash_table :=
  { phashfunc_x86_32 := if E.with_murmur then some E.MurmurHash3_x86_32 else for_x86_32
    phashfunc_x86_128 := if E.with_murmur then some E.MurmurHash3_x86_128 else for_x86_128
    phashfunc_x64_128 := if E.with_murmur then some E.MurmurHash3_x64_128 else for_x64_128
    array_size := HT_INITIAL_SIZE
    pparray := List.replicate HT_INITIAL_SIZE []
    key_count := 0
    collisions := 0
    flags := flags
    max_load_factor := max_load_factor
    current_load_factor := 0 }

/-- The function `ht_destroy`: the entries are freed, the digest bindings, the
counters and the array are reset. -/
def ht_destroy (t : hash_table) : hash_table :=
  { t with
    phashfunc_x86_32 := none
    phashfunc_x86_128 := none
    phashfunc_x64_128 := none
    array_size := 0
    key_count := 0
    collisions := 0
    pparray := [] }

/-- The function `ht_clear`: `ht_destroy`, then `ht_init` with the fields read
back from the destroyed table. -/
def ht_clear (E : Env) (t : hash_table) : hash_table :=
  let d := ht_destroy t
  ht_init E d.flags d.max_load_factor d.phashfunc_x86_32 d.phashfunc_x86_128 d.phashfunc_x64_128

/-- The function `ht_index_ui`: the 32-bit digest of the key under
`global_seed`, reduced modulo `array_size`. -/
def ht_index_ui (E : Env) (t : hash_table) (pkey : List Nat) (key_size : Nat) : Option Nat :=
  match t.phashfunc_x86_32 with
  | none => none
  | some f =>
    if t.array_size = 0 then none
    else some ((f pkey key_size E.global_seed % UINT_RANGE) % t.array_size)

/-- The chains `pparray[0]`, ..., `pparray[array_size - 1]` in index order, as
the loops over the array read them. -/
def chains (t : hash_table) : List (List hash_entry) :=
  (List.range t.array_size).map (fun i => t.pparray.getD i [])

/-- The chain walk of `ht_he_insert` from the node `ptmp` (followed by `rest`)
together with the test after the loop: the chain afterwards, and whether
`pentry` was linked at the tail (`true`) or absorbed into a node with the same
key (`false`). -/
def he_insert_chain (flags : Nat) (pentry : hash_entry) :
    hash_entry → List hash_entry → List hash_entry × Bool
  | ptmp, [] =>
    if he_key_compare_i ptmp pentry ≠ 0 then
      ([he_set_value flags ptmp pentry.pvalue pentry.value_size], false)
    else ([ptmp, pentry], true)
  | ptmp, nxt :: rest =>
    if he_key_compare_i ptmp pentry ≠ 0 then
      (he_set_value flags ptmp pentry.pvalue pentry.value_size :: nxt :: rest, false)
    else
      let r := he_insert_chain flags pentry nxt rest
      (ptmp :: r.1, r.2)

/-- The table of `ht_he_insert` once `pentry` is tacked onto the end of the
chain of bucket `index` (the chain is then `chain`): both counters are
incremented and the load factor is recomputed. -/
def ht_he_insert_linked (E : Env) (t : hash_table) (index : Nat) (chain : List hash_entry) :
    hash_table :=
  { t with
    pparray := t.pparray.set index chain
    collisions := (t.collisions + 1) % UINT_RANGE
    key_count := (t.key_count + 1) % UINT_RANGE
    current_load_factor :=
      E.round_double (((t.collisions + 1) % UINT_RANGE : Nat) / (t.array_size : ℚ)) }

/-- The body of `ht_he_insert`, the call to `ht_resize` passed in as `resize`. -/
def ht_he_insert_body (E : Env) (resize : hash_table → Nat → Option hash_table)
    (t : hash_table) (pentry : hash_entry) : Option hash_table :=
  match ht_index_ui E t pentry.pkey pentry.key_size with
  | none => none
  | some index =>
    match t.pparray.getD index [] with
    | [] =>
      some { t with
        pparray := t.pparray.set index [pentry]
        key_count := (t.key_count + 1) % UINT_RANGE }
    | ptmp :: rest =>
      let r := he_insert_chain t.flags pentry ptmp rest
      if r.2 = false then
        some { t with pparray := t.pparray.set index r.1 }
      else
        let t1 := ht_he_insert_linked E t index r.1
        if t1.flags &&& HT_NO_AUTORESIZE = 0 ∧ t1.current_load_factor > t1.max_load_factor then
          match resize t1 ((t1.array_size * 2) % UINT_RANGE) with
          | none => none
          | some t2 =>
            some { t2 with
              current_load_factor :=
                E.round_double ((t2.collisions : ℚ) / (t2.array_size : ℚ)) }
        else some t1

/-- The local `new_table` of `ht_resize` before the entries are moved. Its
field `current_load_factor` is not initialised in the source (it is written
before it is read); it is 0 here. -/
def ht_resize_new_table (t : hash_table) (new_size : Nat) : hash_table :=
  { phashfunc_x86_32 := t.phashfunc_x86_32
    phashfunc_x86_128 := t.phashfunc_x86_128
    phashfunc_x64_128 := t.phashfunc_x64_128
    array_size := new_size
    pparray := List.replicate new_size []
    key_count := 0
    collisions := 0
    flags := t.flags
    max_load_factor := t.max_load_factor
    current_load_factor := 0 }

/-- The body of `ht_resize`, the calls to `ht_he_insert` passed in as `insert`:
every chain of the old array is walked head to tail and its entries are
inserted into `new_table`, whose array and counters then replace the old
ones. -/
def ht_resize_body (insert : hash_table → hash_entry → Option hash_table)
    (t : hash_table) (new_size : Nat) : Option hash_table :=
  match (List.range t.array_size).foldlM
      (fun nt i => (t.pparray.getD i []).foldlM insert nt) (ht_resize_new_table t new_size) with
  | none => none
  | some nt =>
    some { t with
      phashfunc_x86_32 := nt.phashfunc_x86_32
      phashfunc_x86_128 := nt.phashfunc_x86_128
      phashfunc_x64_128 := nt.phashfunc_x64_128
      array_size := nt.array_size
      pparray := nt.pparray
      key_count := nt.key_count
      collisions := nt.collisions }

/-- The function `ht_he_insert`. The fuel bounds the depth of the recursion
`ht_he_insert → ht_resize → ht_he_insert`. -/
def ht_he_insert (E : Env) : Nat → hash_table → hash_entry → Option hash_table
  | 0 => fun _ _ => none
  | fuel + 1 => ht_he_insert_body E (ht_resize_body (ht_he_insert E fuel))

/-- The function `ht_resize`. -/
def ht_resize (E : Env) (fuel : Nat) (t : hash_table) (new_size : Nat) : Option hash_table :=
  ht_resize_body (ht_he_insert E fuel) t new_size

/-- The local `tmp` of `ht_get_p`, `ht_contains_i` and `ht_remove`: only the
key fields are set. -/
def tmp_entry (pkey : List Nat) (key_size : Nat) : hash_entry :=
  { pkey := pkey, key_size := key_size, pvalue := [], value_size := 0 }

/-- The chain walk of `ht_get_p`. -/
def ht_get_walk (tmp : hash_entry) : List hash_entry → Option (List Nat × Nat)
  | [] => none
  | pentry :: rest =>
    if he_key_compare_i pentry tmp ≠ 0 then some (pentry.pvalue, pentry.value_size)
    else ht_get_walk tmp rest

/-- The function `ht_get_p`: the value and the size written to `*pvalue_size`,
or the not-found result (`some none`, the `NULL` return). -/
def ht_get_p (E : Env) (t : hash_table) (pkey : List Nat) (key_size : Nat) :
    Option (Option (List Nat × Nat)) :=
  match ht_index_ui E t pkey key_size with
  | none => none
  | some index => some (ht_get_walk (tmp_entry pkey key_size) (t.pparray.getD index []))

/-- The chain walk of `ht_contains_i`. -/
def ht_contains_walk (tmp : hash_entry) : List hash_entry → Nat
  | [] => 0
  | pentry :: rest =>
    if he_key_compare_i pentry tmp ≠ 0 then 1 else ht_contains_walk tmp rest

/-- The function `ht_contains_i`. -/
def ht_contains_i (E : Env) (t : hash_table) (pkey : List Nat) (key_size : Nat) : Option Nat :=
  match ht_index_ui E t pkey key_size with
  | none => none
  | some index => some (ht_contains_walk (tmp_entry pkey key_size) (t.pparray.getD index []))

/-- The function `ht_insert`. -/
def ht_insert (E : Env) (fuel : Nat) (t : hash_table) (pkey : List Nat) (key_size : Nat)
    (pvalue : List Nat) (value_size : Nat) : Option hash_table :=
  ht_he_insert E fuel t (he_create_p t.flags pkey key_size pvalue value_size)

/-- The chain walk of `ht_remove`: `none` when no node matches, otherwise the
chain without the first matching node and whether `pprev` was not `NULL` at
the match (the matching node was not the head). -/
def ht_remove_walk (tmp : hash_entry) :
    Bool → List hash_entry → Option (List hash_entry × Bool)
  | _, [] => none
  | has_prev, pentry :: rest =>
    if he_key_compare_i pentry tmp ≠ 0 then some (rest, has_prev)
    else
      match ht_remove_walk tmp true rest with
      | none => none
      | some r => some (pentry :: r.1, r.2)

/-- The function `ht_remove`. -/
def ht_remove (E : Env) (t : hash_table) (pkey : List Nat) (key_size : Nat) : Option hash_table :=
  match ht_index_ui E t pkey key_size with
  | none => none
  | some index =>
    match ht_remove_walk (tmp_entry pkey key_size) false (t.pparray.getD index []) with
    | none => some t
    | some r =>
      some { t with
        pparray := t.pparray.set index r.1
        key_count := (t.key_count + UINT_RANGE - 1) % UINT_RANGE
        collisions :=
          if r.2 then (t.collisions + UINT_RANGE - 1) % UINT_RANGE else t.collisions }

/-- The function `ht_set_seed`. -/
def ht_set_seed (E : Env) (seed : Nat) : Env :=
  { E with global_seed := seed }

/-- The function `ht_size_ui`. -/
def ht_size_ui (t : hash_table) : Nat :=
  t.key_count

/-- The function `ht_keys_pp`: the key pointers in bucket-then-chain order and
the count written to `*pkey_count`. The result array has `key_count` slots; a
write at a position not below `key_count` is out of bounds (`none`). -/
def ht_keys_pp (t : hash_table) : Option (List (List Nat) × Nat) :=
  if t.key_count = 0 then some ([], 0)
  else
    (List.range t.array_size).foldlM
      (fun acc index =>
        (t.pparray.getD index []).foldlM
          (fun (a : List (List Nat) × Nat) (ptmp : hash_entry) =>
            if a.2 < t.key_count then some (a.1 ++ [ptmp.pkey], (a.2 + 1) % UINT_RANGE)
            else none)
          acc)
      ([], 0)

/-! ## Specification-level notions -/

/-- An entry whose size fields are the sizes of its two buffers. -/
def wf_entry (e : hash_entry) : Prop :=
  e.key_size = e.pkey.length ∧ e.value_size = e.pvalue.length

/-- Sum of the chain lengths over all buckets. -/
def total (t : hash_table) : Nat :=
  ((chains t).map List.length).sum

/-- The table can compute bucket indices: a digest function is bound and the
capacity is not zero. -/
def usable (t : hash_table) : Prop :=
  t.phashfunc_x86_32 ≠ none ∧ t.array_size ≠ 0

/-- Well-formed table: the array has `array_size` slots, every entry is
well-formed and sits in the bucket its key is hashed to, no chain holds a key
twice, and `key_count` counts the entries (as an `unsigned int`). -/
structure WF (E : Env) (t : hash_table) : Prop where
  size : t.pparray.length = t.array_size
  entries : ∀ i, ∀ e ∈ t.pparray.getD i [], wf_entry e
  placed : ∀ i, ∀ e ∈ t.pparray.getD i [], ht_index_ui E t e.pkey e.pkey.length = some i
  nodup : ∀ i, ((t.pparray.getD i []).map hash_entry.pkey).Nodup
  count : t.key_count = total t % UINT_RANGE

/-- First entry of a chain whose key is `k`. -/
def cfind (k : List Nat) (c : List hash_entry) : Option hash_entry :=
  c.find? (fun e => decide (e.pkey = k))

/-- What a lookup reports of an entry: the value pointer and the value size. -/
def entry_val (e : hash_entry) : List Nat × Nat :=
  (e.pvalue, e.value_size)

/-- The value found for the key `k` (with `key_size = k.length`), if any; a
table that cannot compute indices finds nothing. -/
def lookup (E : Env) (t : hash_table) (k : List Nat) : Option (List Nat × Nat) :=
  match ht_index_ui E t k k.length with
  | none => none
  | some i => (cfind k (t.pparray.getD i [])).map entry_val

/-- The configuration of a table is kept: flags, threshold and the three
digest bindings. -/
def frame (t t' : hash_table) : Prop :=
  t'.flags = t.flags ∧ t'.max_load_factor = t.max_load_factor ∧
  t'.phashfunc_x86_32 = t.phashfunc_x86_32 ∧
  t'.phashfunc_x86_128 = t.phashfunc_x86_128 ∧
  t'.phashfunc_x64_128 = t.phashfunc_x64_128

/-- What an insertion function must do on a well-formed table: keep it
well-formed, keep the configuration, bind the entry's key to the entry's value
and leave every other key alone, and add one entry exactly when the key was
absent. -/
def InsSpec (E : Env) (ins : hash_table → hash_entry → Option hash_table) : Prop :=
  ∀ t e t', WF E t → wf_entry e → ins t e = some t' →
    WF E t' ∧ frame t t' ∧ usable t' ∧
    (∀ k, lookup E t' k = if k = e.pkey then some (e.pvalue, e.value_size) else lookup E t k) ∧
    total t' = total t + (if lookup E t e.pkey = none then 1 else 0)

/-- What a resize function must do on a well-formed table: keep it
well-formed, keep the configuration, every binding and the number of entries;
an empty table gets the requested capacity. -/
def ResizeSpec (E : Env) (resize : hash_table → Nat → Option hash_table) : Prop :=
  ∀ t n t', WF E t → resize t n = some t' →
    WF E t' ∧ frame t t' ∧ (∀ k, lookup E t' k = lookup E t k) ∧ total t' = total t ∧
    (0 < total t → usable t') ∧ (total t = 0 → t'.array_size = n)

/-- Number of entries that are not the head of their chain. -/
def non_head (t : hash_table) : Nat :=
  ((chains t).map (fun c => c.length - 1)).sum

/-- The insertion loops of `main_test4`: every pair (key, value) is inserted
in turn. -/
def ht_insert_all (E : Env) (fuel : Nat) (t : hash_table) (pairs : List (List Nat × List Nat)) :
    Option hash_table :=
  pairs.foldlM (fun t p => ht_insert E fuel t p.1 p.1.length p.2 p.2.length) t

/-- The removal loop of `main_test4`: every key is removed in turn. -/
def ht_remove_all (E : Env) (t : hash_table) (keys : List (List Nat)) : Option hash_table :=
  keys.foldlM (fun t k => ht_remove E t k k.length) t

/-- The tables a program can build: `ht_init`, then any calls of `ht_insert`,
`ht_he_insert` (with a well-formed entry), `ht_remove`, `ht_resize` and
`ht_clear` that return, the seed and the digest functions being those of `E`
throughout. -/
inductive Reachable (E : Env) : hash_table → Prop
  | init (flags : Nat) (max_load_factor : ℚ) (f32 f128 f64 : Option HashFunc) :
      Reachable E (ht_init E flags max_load_factor f32 f128 f64)
  | insert {t t' : hash_table} (fuel : Nat) (k v : List Nat) :
      Reachable E t → ht_insert E fuel t k k.length v v.length = some t' → Reachable E t'
  | he_insert {t t' : hash_table} (fuel : Nat) (e : hash_entry) :
      Reachable E t → wf_entry e → ht_he_insert E fuel t e = some t' → Reachable E t'
  | remove {t t' : hash_table} (k : List Nat) :
      Reachable E t → ht_remove E t k k.length = some t' → Reachable E t'
  | resize {t t' : hash_table} (fuel : Nat) (n : Nat) :
      Reachable E t → ht_resize E fuel t n = some t' → Reachable E t'
  | clear {t : hash_table} :
      Reachable E t → Reachable E (ht_clear E t)

/-- A table with one bucket, autoresize disabled. -/
def one_bucket (g : HashFunc) (g2 g3 : Option HashFunc) (mlf clf : ℚ) (kc col : Nat)
    (c : List hash_entry) : hash_table :=
  { phashfunc_x86_32 := some g
    phashfunc_x86_128 := g2
    phashfunc_x64_128 := g3
    key_count := kc
    pparray := [c]
    array_size := 1
    collisions := col
    flags := HT_NO_AUTORESIZE
    max_load_factor := mlf
    current_load_factor := clf }

/-- The entry `ht_insert` builds for the pair `p` (key, value), whatever the
flags. -/
def pair_entry (p : List Nat × List Nat) : hash_entry :=
  { pkey := p.1, key_size := p.1.length, pvalue := p.2, value_size := p.2.length }

/-! ## A concrete environment for the examples -/

/-- A stand-in digest: the sum of the key bytes plus the seed. -/
def demo_digest : HashFunc :=
  fun pkey _ seed => pkey.sum + seed

/-- The `__WITH_MURMUR` build with the stand-in digest, exact quotients and the
initial value of `global_seed`. -/
def demo_env : Env :=
  { with_murmur := true
    MurmurHash3_x86_32 := demo_digest
    MurmurHash3_x86_128 := demo_digest
    MurmurHash3_x64_128 := demo_digest
    round_double := fun q => q
    global_seed := 2976579765 }

/-- A fresh table with autoresize enabled and threshold 1/100. -/
def demo_t0 : hash_table :=
  ht_init demo_env 0 (1 / 100) none none none

/-- The table `demo_t0` after the key `[0]` is inserted with value `[7]`. -/
def demo_t1 : hash_table :=
  (ht_insert demo_env 1 demo_t0 [0] 1 [7] 1).getD demo_t0

/-- The table `demo_t1` after the key `[64]` is inserted with value `[8]`: the
two keys share bucket 53 of 64, and the insertion doubles the capacity. -/
def demo_t2 : hash_table :=
  (ht_insert demo_env 2 demo_t1 [64] 1 [8] 1).getD demo_t1

/-- The table `demo_t2` (128 buckets, two keys) shrunk to 3 buckets. -/
def demo_shrunk : hash_table :=
  (ht_resize demo_env 1 demo_t2 3).getD demo_t2

/-- Two pairs whose keys share bucket 53 of a fresh table. -/
def demo_pairs : List (List Nat × List Nat) :=
  [([0], [7]), ([64], [8])]

/-- The fresh table `demo_t0` after the pairs of `demo_pairs` are inserted. -/
def demo_bulk : hash_table :=
  (ht_insert_all demo_env 2 demo_t0 demo_pairs).getD demo_t0

/-- Three pairs, the key `[0]` twice. -/
def demo_pairs3 : List (List Nat × List Nat) :=
  [([0], [7]), ([64], [8]), ([0], [9])]

/-- The table `demo_t2` cleared and resized to 2 buckets. -/
def demo_small : hash_table :=
  (ht_resize demo_env 1 (ht_clear demo_env demo_t2) 2).getD demo_t0

/-- The table `demo_small` after the pairs of `demo_pairs3` are inserted: the
keys `[0]` and `[64]` collide at every capacity from 2 to 64, so the second
insertion resizes six times, each resize inside the previous one. -/
def demo_filled : hash_table :=
  (ht_insert_all demo_env 8 demo_small demo_pairs3).getD demo_t0

/-! ## Capacity -/

/-- The capacity `m` is the capacity `n` doubled zero or more times, every
doubling reduced to an `unsigned int` as in `ht_he_insert`. -/
inductive Doubled (n : Nat) : Nat → Prop
  | refl : Doubled n n
  | step {m : Nat} : Doubled n m → Doubled n ((m * 2) % UINT_RANGE)

/-- Whether the call `ht_he_insert(t, pentry)` reaches its call of `ht_resize`:
the bucket of the key is not empty, the walk of its chain links `pentry` at the
end, `HT_NO_AUTORESIZE` is not set, and the load factor recomputed from the
incremented `collisions` exceeds `max_load_factor`. -/
def autoresize_fires (E : Env) (t : hash_table) (pentry : hash_entry) : Bool :=
  match ht_index_ui E t pentry.pkey pentry.key_size with
  | none => false
  | some index =>
    match t.pparray.getD index [] with
    | [] => false
    | ptmp :: rest =>
      (he_insert_chain t.flags pentry ptmp rest).2 &&
        decide (t.flags &&& HT_NO_AUTORESIZE = 0 ∧
          E.round_double (((t.collisions + 1) % UINT_RANGE : Nat) / (t.array_size : ℚ))
            > t.max_load_factor)

/-- What the contract of capacity says of a function that behaves as
`ht_he_insert`: flags and threshold are kept, the capacity is the old one
doubled zero or more times, and it is the old one when `HT_NO_AUTORESIZE` is
set. -/
def InsCap (ins : hash_table → hash_entry → Option hash_table) : Prop :=
  ∀ t e t', ins t e = some t' →
    t'.flags = t.flags ∧ t'.max_load_factor = t.max_load_factor ∧
    Doubled t.array_size t'.array_size ∧
    (t.flags &&& HT_NO_AUTORESIZE ≠ 0 → t'.array_size = t.array_size)

/-- What the contract of capacity says of a function that behaves as
`ht_resize`. -/
def ResizeCap (resize : hash_table → Nat → Option hash_table) : Prop :=
  ∀ t n t', resize t n = some t' →
    t'.flags = t.flags ∧ t'.max_load_factor = t.max_load_factor ∧
    Doubled n t'.array_size ∧
    (t.flags &&& HT_NO_AUTORESIZE ≠ 0 → t'.array_size = n)

/-- One call of the public interface that changes the entries: `ht_insert` of
a key and a value, or `ht_remove` of a key. -/
inductive table_op
  | insert (k v : List Nat)
  | remove (k : List Nat)

/-- The call `op` applied to the table `t`. -/
def apply_op (E : Env) (fuel : Nat) (t : hash_table) : table_op → Option hash_table
  | table_op.insert k v => ht_insert E fuel t k k.length v v.length
  | table_op.remove k => ht_remove E t k k.length

/-- The calls `ops` applied in sequence, starting from the table `t`. -/
def run_ops (E : Env) (fuel : Nat) (t : hash_table) (ops : List table_op) :
    Option hash_table :=
  ops.foldlM (apply_op E fuel) t

/-- The load factor stored in the table is the one of its counters: the
quotient of `collisions` by `array_size`, rounded as the division of two
doubles rounds it. -/
def load_factor_current (E : Env) (t : hash_table) : Prop :=
  t.current_load_factor = E.round_double ((t.collisions : ℚ) / (t.array_size : ℚ))

/-- A fresh table with autoresize disabled. -/
def demo_noauto : hash_table :=
  ht_init demo_env HT_NO_AUTORESIZE (1 / 100) none none none

/-- Three insertions into bucket 53 of 64, then the removal of the second
key. -/
def demo_ops : List table_op :=
  [table_op.insert [0] [7], table_op.insert [64] [8], table_op.insert [128] [9],
    table_op.remove [64]]

/-- The table `demo_noauto` after the calls of `demo_ops`. -/
def demo_noauto_run : hash_table :=
  (run_ops demo_env 1 demo_noauto demo_ops).getD demo_t0

/-- The table `demo_noauto` after the keys `[0]` and `[64]` are inserted: both
are in bucket 53 of 64. -/
def demo_pair64 : hash_table :=
  (run_ops demo_env 1 demo_noauto [table_op.insert [0] [7], table_op.insert [64] [8]]).getD
    demo_t0

/-- The table `demo_pair64` after the call `ht_resize(128)`, which separates
the two keys. -/
def demo_pair128 : hash_table :=
  (ht_resize demo_env 1 demo_pair64 128).getD demo_t0

/-! ## Termination -/

/-- What the termination argument knows of a table `i` doublings below the
capacity `G`: it is well-formed and can compute indices, `collisions` does not
exceed `key_count`, the threshold is `mlf`, and `array_size * 2 ^ i = G`. -/
def TermPre (E : Env) (mlf : ℚ) (G : Nat) (t : hash_table) (i : Nat) : Prop :=
  WF E t ∧ usable t ∧ t.collisions ≤ t.key_count ∧ t.max_load_factor = mlf ∧
    t.array_size * 2 ^ i = G

/-- A digest that sends every key to 0. -/
def stuck_digest : HashFunc :=
  fun _ _ _ => 0

/-- The build without `__WITH_MURMUR`, exact quotients. -/
def stuck_env : Env :=
  { with_murmur := false
    MurmurHash3_x86_32 := stuck_digest
    MurmurHash3_x86_128 := stuck_digest
    MurmurHash3_x64_128 := stuck_digest
    round_double := fun q => q
    global_seed := 2976579765 }

/-- A fresh table bound to `stuck_digest`, autoresize enabled, with the
threshold 2^-33. -/
def stuck_t0 : hash_table :=
  ht_init stuck_env 0 (1 / 8589934592) (some stuck_digest) (some stuck_digest)
    (some stuck_digest)

/-- The tables the insertion of the key `[2]` meets while it doubles the
capacity of `stuck_t1`: bound to `stuck_digest`, autoresize enabled, threshold
2^-33, no collision counted, and the entry of the key `[1]` alone in
bucket 0. -/
def Stuck (t : hash_table) : Prop :=
  t.phashfunc_x86_32 = some stuck_digest ∧ t.flags = 0 ∧
    t.max_load_factor = 1 / 8589934592 ∧ t.array_size < UINT_RANGE ∧
    t.collisions = 0 ∧ t.pparray.length = t.array_size ∧
    t.pparray.getD 0 [] = [⟨[1], 1, [10], 1⟩]

/-! ## The count of collisions -/

/-- How one call changes `collisions` and the number of entries that are not
chain heads: the counter is recounted (it is that number as an unsigned int),
or the capacity and both numbers are unchanged, or the capacity is unchanged
and both numbers go up by one. -/
def counted (t t' : hash_table) : Prop :=
  t'.collisions = non_head t' % UINT_RANGE ∨
  (t'.array_size = t.array_size ∧ t'.collisions = t.collisions ∧
    non_head t' = non_head t) ∨
  (t'.array_size = t.array_size ∧ t'.collisions = (t.collisions + 1) % UINT_RANGE ∧
    non_head t' = non_head t + 1)

/-- What the counting contract says of a function that behaves as
`ht_he_insert`. -/
def InsExact (E : Env) (ins : hash_table → hash_entry → Option hash_table) : Prop :=
  ∀ t e t', WF E t → wf_entry e → ins t e = some t' → counted t t'

/-- What the counting contract says of a function that behaves as
`ht_resize`: `collisions` is recounted. -/
def ResExact (E : Env) (resize : hash_table → Nat → Option hash_table) : Prop :=
  ∀ t n t', WF E t → resize t n = some t' → t'.collisions = non_head t' % UINT_RANGE

/-- The tables a program can build without ever holding 2^32 entries or more
(`key_count` is an unsigned int): as `Reachable`, every table on the way
holding fewer than 2^32 entries. -/
inductive ReachableSmall (E : Env) : hash_table → Prop
  | init (flags : Nat) (max_load_factor : ℚ) (f32 f128 f64 : Option HashFunc) :
      ReachableSmall E (ht_init E flags max_load_factor f32 f128 f64)
  | insert {t t' : hash_table} (fuel : Nat) (k v : List Nat) :
      ReachableSmall E t → ht_insert E fuel t k k.length v v.length = some t' →
      total t' < UINT_RANGE → ReachableSmall E t'
  | he_insert {t t' : hash_table} (fuel : Nat) (e : hash_entry) :
      ReachableSmall E t → wf_entry e → ht_he_insert E fuel t e = some t' →
      total t' < UINT_RANGE → ReachableSmall E t'
  | remove {t t' : hash_table} (k : List Nat) :
      ReachableSmall E t → ht_remove E t k k.length = some t' → ReachableSmall E t'
  | resize {t t' : hash_table} (fuel : Nat) (n : Nat) :
      ReachableSmall E t → ht_resize E fuel t n = some t' → ReachableSmall E t'
  | clear {t : hash_table} :
      ReachableSmall E t → ReachableSmall E (ht_clear E t)

/-! ## Bulk insertions that never return -/

/-- Two pairs with distinct keys. -/
def stuck_pairs : List (List Nat × List Nat) :=
  [([1], [10]), ([2], [20])]

/-- The build with `__WITH_MURMUR` in which the stand-in for MurmurHash3 gives
every key the digest 0, as MurmurHash3 gives some two distinct keys the same
digest; exact quotients. -/
def stuck_murmur_env : Env :=
  { with_murmur := true
    MurmurHash3_x86_32 := stuck_digest
    MurmurHash3_x86_128 := stuck_digest
    MurmurHash3_x64_128 := stuck_digest
    round_double := fun q => q
    global_seed := 2976579765 }

/-- A fresh table of the build `stuck_murmur_env`, autoresize enabled, with the
threshold 2^-33. -/
def stuck_murmur_t0 : hash_table :=
  ht_init stuck_murmur_env 0 (1 / 8589934592) none none none

/-! ## The load factor as the code compares it -/

/-- The load factor of the stored counters, computed as `ht_he_insert` computes
it (the quotient of `collisions` by `array_size` rounded to a double), is not
above the threshold. -/
def ratio_under (E : Env) (t : hash_table) : Prop :=
  E.round_double ((t.collisions : ℚ) / (t.array_size : ℚ)) ≤ t.max_load_factor

/-- Rounding to a double keeps the order of the quotients. -/
def rounding_monotone (E : Env) : Prop :=
  ∀ q r : ℚ, q ≤ r → E.round_double q ≤ E.round_double r

/-- What the load-factor contract says of a function that behaves as
`ht_he_insert` on a table with autoresize enabled: a load factor that is not
above the threshold stays so. -/
def InsRatio (E : Env) (ins : hash_table → hash_entry → Option hash_table) : Prop :=
  ∀ t e t', t.flags &&& HT_NO_AUTORESIZE = 0 → ratio_under E t → ins t e = some t' →
    ratio_under E t'

/-- What the load-factor contract says of a function that behaves as
`ht_resize` on a table with autoresize enabled whose threshold is not below
the rounded quotient 0. -/
def ResRatio (E : Env) (resize : hash_table → Nat → Option hash_table) : Prop :=
  ∀ t n t', t.flags &&& HT_NO_AUTORESIZE = 0 → E.round_double 0 ≤ t.max_load_factor →
    resize t n = some t' → ratio_under E t'

/-- What the induction over the calls of a program carries for the load
factor: `collisions` is an unsigned int whose load factor is not above the
threshold, and either it does not undercount the entries that are not chain
heads, or the threshold allows every value of the counter. -/
def RatioInv (E : Env) (t : hash_table) : Prop :=
  t.collisions < UINT_RANGE ∧ ratio_under E t ∧
    (non_head t ≤ t.collisions ∨
      E.round_double (((UINT_RANGE : ℚ) - 1) / (t.array_size : ℚ)) ≤ t.max_load_factor)

/-- The double nearest to 1/3, which is below 1/3. -/
def third_down : ℚ :=
  6004799503160661 / 18014398509481984

/-- A rounding that sends the quotients from `third_down` to 1/3 to
`third_down`, as the rounding to the nearest double does, and is exact
elsewhere. -/
def round_third (q : ℚ) : ℚ :=
  if third_down ≤ q ∧ q ≤ 1 / 3 then third_down else q

/-- The build without `__WITH_MURMUR`, with the rounding `round_third`. -/
def third_env : Env :=
  { with_murmur := false
    MurmurHash3_x86_32 := demo_digest
    MurmurHash3_x86_128 := demo_digest
    MurmurHash3_x64_128 := demo_digest
    round_double := round_third
    global_seed := 2976579765 }

/-- A fresh table bound to `demo_digest`, autoresize enabled, with the
threshold `(double)1/3`. -/
def third_t0 : hash_table :=
  ht_init third_env 0 third_down (some demo_digest) (some demo_digest) (some demo_digest)

/-- The table `third_t0` resized to 3 buckets. -/
def third_t1 : hash_table :=
  (ht_resize third_env 1 third_t0 3).getD third_t0

/-- The table `third_t1` after the key `[0]` is inserted. -/
def third_t2 : hash_table :=
  (ht_insert third_env 1 third_t1 [0] 1 [7] 1).getD third_t0

/-- The table `third_t2` after the key `[3]` is inserted: the two keys share
bucket 0 of 3, and the load factor `(double)1/3` is not above the threshold. -/
def third_t3 : hash_table :=
  (ht_insert third_env 1 third_t2 [3] 1 [8] 1).getD third_t0

/-! ## Lists -/

theorem getD_set_chain (l : List (List hash_entry)) (j i : Nat) (c : List hash_entry) :
    (l.set j c).getD i [] = if i = j ∧ j < l.length then c else l.getD i [] := by
  simp only [List.getD_eq_getElem?_getD, List.getElem?_set]
  by_cases h : j = i
  · subst h
    by_cases h2 : j < l.length
    · simp [h2]
    · simp [h2, List.getElem?_eq_none (Nat.le_of_not_lt h2)]
  · have h' : ¬ i = j := fun e => h e.symm
    simp [h, h']

theorem sum_length_set (l : List (List hash_entry)) (j : Nat) (c : List hash_entry)
    (hj : j < l.length) :
    ((l.set j c).map List.length).sum + (l.getD j []).length
      = (l.map List.length).sum + c.length := by
  induction l generalizing j with
  | nil => simp at hj
  | cons a l ih =>
    cases j with
    | zero => simp; omega
    | succ j =>
      have := ih j (by simpa using hj)
      simp only [List.set_cons_succ, List.map_cons, List.sum_cons, List.getD_cons_succ]
      omega

theorem range_map_getD (l : List (List hash_entry)) :
    (List.range l.length).map (fun i => l.getD i []) = l := by
  apply List.ext_getElem?
  intro n
  by_cases h : n < l.length
  · simp [List.getElem?_map, List.getElem?_range h, List.getD_eq_getElem?_getD,
      List.getElem?_eq_getElem h]
  · have h' := Nat.le_of_not_lt h
    rw [List.getElem?_eq_none (by simpa using h'), List.getElem?_eq_none h']

theorem chains_eq (t : hash_table) (h : t.pparray.length = t.array_size) :
    chains t = t.pparray := by
  unfold chains
  rw [← h]
  exact range_map_getD _

theorem total_eq (t : hash_table) (h : t.pparray.length = t.array_size) :
    total t = (t.pparray.map List.length).sum := by
  unfold total
  rw [chains_eq t h]

theorem mem_chain_of_mem_flatten (l : List (List hash_entry)) (e : hash_entry)
    (h : e ∈ l.flatten) : ∃ i, e ∈ l.getD i [] := by
  rw [List.mem_flatten] at h
  obtain ⟨c, hc, hec⟩ := h
  obtain ⟨n, hn⟩ := List.mem_iff_getElem?.1 hc
  exact ⟨n, by simp [List.getD_eq_getElem?_getD, hn, hec]⟩

theorem mem_flatten_of_mem_chain (l : List (List hash_entry)) (e : hash_entry) (i : Nat)
    (h : e ∈ l.getD i []) : e ∈ l.flatten := by
  rw [List.mem_flatten]
  by_cases hi : i < l.length
  · refine ⟨l[i], List.getElem_mem _, ?_⟩
    simpa [List.getD_eq_getElem?_getD, List.getElem?_eq_getElem hi] using h
  · simp [List.getD_eq_getElem?_getD, List.getElem?_eq_none (Nat.le_of_not_lt hi)] at h

/-! ## Entries and chains -/

theorem memcmp_eq_zero_iff (a b : List Nat) (n : Nat) (ha : a.length = n) (hb : b.length = n) :
    memcmp a b n = 0 ↔ a = b := by
  induction a generalizing b n with
  | nil =>
    cases b with
    | nil => cases n <;> simp [memcmp]
    | cons y ys => simp at ha; subst ha; simp at hb
  | cons x xs ih =>
    cases b with
    | nil => simp at hb; subst hb; simp at ha
    | cons y ys =>
      cases n with
      | zero => simp at ha
      | succ n =>
        simp only [List.length_cons, Nat.add_right_cancel_iff] at ha hb
        by_cases hxy : x = y
        · subst hxy
          simp [memcmp, ih ys n ha hb]
        · have : (x : Int) - (y : Int) ≠ 0 := by omega
          simp [memcmp, hxy, this]

theorem compare_iff (a b : hash_entry) (ha : wf_entry a) (hb : wf_entry b) :
    he_key_compare_i a b ≠ 0 ↔ a.pkey = b.pkey := by
  unfold he_key_compare_i
  by_cases hs : a.key_size = b.key_size
  · have hbl : b.pkey.length = a.key_size := by rw [hs]; exact hb.1.symm
    have := memcmp_eq_zero_iff a.pkey b.pkey a.key_size ha.1.symm hbl
    rw [if_neg (not_not.2 hs)]
    by_cases hm : memcmp a.pkey b.pkey a.key_size = 0
    · rw [if_pos hm]
      exact ⟨fun _ => this.1 hm, fun _ => by decide⟩
    · rw [if_neg hm]
      exact ⟨fun h => absurd rfl h, fun h => absurd (this.2 h) hm⟩
  · rw [if_pos hs]
    refine ⟨fun h => absurd rfl h, fun h => absurd ?_ hs⟩
    rw [ha.1, hb.1, h]

theorem wf_tmp_entry (k : List Nat) : wf_entry (tmp_entry k k.length) := by
  simp [wf_entry, tmp_entry]

theorem wf_he_create_p (flags : Nat) (k v : List Nat) :
    he_create_p flags k k.length v v.length
      = { pkey := k, key_size := k.length, pvalue := v, value_size := v.length } := by
  simp [he_create_p]

theorem wf_entry_he_create_p (flags : Nat) (k v : List Nat) :
    wf_entry (he_create_p flags k k.length v v.length) := by
  rw [wf_he_create_p]
  simp [wf_entry]

theorem he_set_value_eq (flags : Nat) (x e : hash_entry) (he : wf_entry e) :
    he_set_value flags x e.pvalue e.value_size
      = { x with pvalue := e.pvalue, value_size := e.value_size } := by
  simp [he_set_value, he.2]

theorem get_walk_eq (tmp : hash_entry) (htmp : wf_entry tmp) (c : List hash_entry)
    (hc : ∀ e ∈ c, wf_entry e) :
    ht_get_walk tmp c = (cfind tmp.pkey c).map entry_val := by
  induction c with
  | nil => simp [ht_get_walk, cfind]
  | cons x xs ih =>
    have hx := hc x (List.mem_cons_self _ _)
    have hxs : ∀ e ∈ xs, wf_entry e := fun e he => hc e (List.mem_cons_of_mem _ he)
    have hiff := compare_iff x tmp hx htmp
    by_cases h : x.pkey = tmp.pkey
    · have h1 := hiff.2 h
      simp [ht_get_walk, cfind, h, h1, entry_val]
    · have h1 : ¬ he_key_compare_i x tmp ≠ 0 := fun hh => h (hiff.1 hh)
      have := ih hxs
      simp only [cfind] at this
      simp [ht_get_walk, cfind, h, h1, this]

theorem contains_walk_eq (tmp : hash_entry) (htmp : wf_entry tmp) (c : List hash_entry)
    (hc : ∀ e ∈ c, wf_entry e) :
    ht_contains_walk tmp c = if (cfind tmp.pkey c).isSome then 1 else 0 := by
  induction c with
  | nil => simp [ht_contains_walk, cfind]
  | cons x xs ih =>
    have hx := hc x (List.mem_cons_self _ _)
    have hxs : ∀ e ∈ xs, wf_entry e := fun e he => hc e (List.mem_cons_of_mem _ he)
    have hiff := compare_iff x tmp hx htmp
    by_cases h : x.pkey = tmp.pkey
    · have h1 := hiff.2 h
      simp [ht_contains_walk, cfind, h, h1]
    · have h1 : ¬ he_key_compare_i x tmp ≠ 0 := fun hh => h (hiff.1 hh)
      have := ih hxs
      simp only [cfind] at this
      simp [ht_contains_walk, cfind, h, h1, this]

theorem cfind_eq_none_iff (k : List Nat) (c : List hash_entry) :
    cfind k c = none ↔ k ∉ c.map hash_entry.pkey := by
  simp only [cfind, List.find?_eq_none, List.mem_map, decide_eq_true_eq]
  constructor
  · rintro h ⟨x, hx, rfl⟩
    exact h x hx rfl
  · intro h x hx hk
    exact h ⟨x, hx, hk⟩

theorem cfind_some_mem (k : List Nat) (c : List hash_entry) (e : hash_entry)
    (h : cfind k c = some e) : e ∈ c ∧ e.pkey = k := by
  unfold cfind at h
  exact ⟨List.mem_of_find?_eq_some h, by simpa using List.find?_some h⟩

theorem he_insert_chain_nil_pos (flags : Nat) (e p : hash_entry)
    (h : he_key_compare_i p e ≠ 0) :
    he_insert_chain flags e p [] = ([he_set_value flags p e.pvalue e.value_size], false) := by
  rw [he_insert_chain, if_pos h]

theorem he_insert_chain_nil_neg (flags : Nat) (e p : hash_entry)
    (h : ¬ he_key_compare_i p e ≠ 0) :
    he_insert_chain flags e p [] = ([p, e], true) := by
  rw [he_insert_chain, if_neg h]

theorem he_insert_chain_cons_pos (flags : Nat) (e p q : hash_entry) (rest : List hash_entry)
    (h : he_key_compare_i p e ≠ 0) :
    he_insert_chain flags e p (q :: rest)
      = (he_set_value flags p e.pvalue e.value_size :: q :: rest, false) := by
  rw [he_insert_chain, if_pos h]

theorem he_insert_chain_cons_neg (flags : Nat) (e p q : hash_entry) (rest : List hash_entry)
    (h : ¬ he_key_compare_i p e ≠ 0) :
    he_insert_chain flags e p (q :: rest)
      = (p :: (he_insert_chain flags e q rest).1, (he_insert_chain flags e q rest).2) := by
  rw [he_insert_chain, if_neg h]

/-- The chain walk of an insertion: when `pentry` is linked, which keys the
chain holds, that the entries stay well-formed, and what a search finds. -/
theorem he_insert_chain_spec (flags : Nat) (e : hash_entry) (he : wf_entry e) :
    ∀ (rest : List hash_entry) (p : hash_entry), (∀ x ∈ p :: rest, wf_entry x) →
      ((he_insert_chain flags e p rest).2 = true ↔ e.pkey ∉ (p :: rest).map hash_entry.pkey) ∧
      ((he_insert_chain flags e p rest).1.map hash_entry.pkey
        = if (he_insert_chain flags e p rest).2 then (p :: rest).map hash_entry.pkey ++ [e.pkey]
          else (p :: rest).map hash_entry.pkey) ∧
      (∀ x ∈ (he_insert_chain flags e p rest).1, wf_entry x) ∧
      (∀ k, (cfind k (he_insert_chain flags e p rest).1).map entry_val
        = if k = e.pkey then some (e.pvalue, e.value_size)
          else (cfind k (p :: rest)).map entry_val) := by
  intro rest
  induction rest with
  | nil =>
    intro p hp
    have hpw := hp p (List.mem_cons_self _ _)
    have hiff := compare_iff p e hpw he
    by_cases h : p.pkey = e.pkey
    · have h1 := hiff.2 h
      have h2 : e.pkey = p.pkey := h.symm
      rw [he_insert_chain_nil_pos flags e p h1, he_set_value_eq flags p e he]
      refine ⟨by simp [h2], by simp, ?_, ?_⟩
      · intro x hx
        simp only [List.mem_singleton] at hx
        subst hx
        exact ⟨hpw.1, he.2⟩
      · intro k
        by_cases hk : k = e.pkey
        · subst hk
          simp [cfind, h, entry_val]
        · have hk2 : ¬ p.pkey = k := fun hh => hk (by rw [← hh, h])
          simp [cfind, hk, hk2]
    · have h1 : ¬ he_key_compare_i p e ≠ 0 := fun hh => h (hiff.1 hh)
      have h2 : ¬ e.pkey = p.pkey := fun hh => h hh.symm
      rw [he_insert_chain_nil_neg flags e p h1]
      refine ⟨by simp [h2], by simp, ?_, ?_⟩
      · intro x hx
        simp only [List.mem_cons, List.mem_singleton, List.not_mem_nil, or_false] at hx
        rcases hx with hx | hx
        · subst hx; exact hpw
        · subst hx; exact he
      · intro k
        by_cases hk : k = e.pkey
        · subst hk
          simp [cfind, h, entry_val]
        · have hk3 : ¬ e.pkey = k := fun hh => hk hh.symm
          by_cases hk4 : p.pkey = k
          · simp [cfind, hk, hk4]
          · simp [cfind, hk, hk3, hk4]
  | cons q rest ih =>
    intro p hp
    have hpw := hp p (List.mem_cons_self _ _)
    have hrest : ∀ x ∈ q :: rest, wf_entry x := fun x hx => hp x (List.mem_cons_of_mem _ hx)
    have hiff := compare_iff p e hpw he
    by_cases h : p.pkey = e.pkey
    · have h1 := hiff.2 h
      have h2 : e.pkey = p.pkey := h.symm
      rw [he_insert_chain_cons_pos flags e p q rest h1, he_set_value_eq flags p e he]
      refine ⟨by simp [h2], by simp, ?_, ?_⟩
      · intro x hx
        simp only [List.mem_cons] at hx
        rcases hx with hx | hx
        · subst hx
          exact ⟨hpw.1, he.2⟩
        · exact hrest x (by simpa using hx)
      · intro k
        by_cases hk : k = e.pkey
        · subst hk
          simp [cfind, h, entry_val]
        · have hk2 : ¬ p.pkey = k := fun hh => hk (by rw [← hh, h])
          simp [cfind, hk, hk2]
    · have h1 : ¬ he_key_compare_i p e ≠ 0 := fun hh => h (hiff.1 hh)
      have h2 : ¬ e.pkey = p.pkey := fun hh => h hh.symm
      obtain ⟨i1, i2, i3, i4⟩ := ih q hrest
      rw [he_insert_chain_cons_neg flags e p q rest h1]
      refine ⟨?_, ?_, ?_, ?_⟩
      · show (he_insert_chain flags e q rest).2 = true ↔ _
        rw [i1]
        simp [h2]
      · show (p :: (he_insert_chain flags e q rest).1).map hash_entry.pkey
          = if (he_insert_chain flags e q rest).2 then _ else _
        rw [List.map_cons, i2]
        split <;> simp
      · intro x hx
        simp only [List.mem_cons] at hx
        rcases hx with hx | hx
        · subst hx; exact hpw
        · exact i3 x hx
      · intro k
        have := i4 k
        by_cases hk : p.pkey = k
        · have hk2 : ¬ k = e.pkey := fun hh => h (by rw [hk, hh])
          simp [cfind, hk, hk2]
        · simp only [cfind] at this
          simp [cfind, hk, this]

theorem cfind_cons (k : List Nat) (x : hash_entry) (xs : List hash_entry) :
    cfind k (x :: xs) = if x.pkey = k then some x else cfind k xs := by
  by_cases h : x.pkey = k <;> simp [cfind, List.find?_cons, h]

theorem eraseP_key_cons (k : List Nat) (x : hash_entry) (xs : List hash_entry) :
    (x :: xs).eraseP (fun e => decide (e.pkey = k))
      = if x.pkey = k then xs else x :: xs.eraseP (fun e => decide (e.pkey = k)) := by
  by_cases h : x.pkey = k <;> simp [List.eraseP_cons, h]

theorem cfind_eraseP_ne (k k' : List Nat) (hk : k' ≠ k) (c : List hash_entry) :
    cfind k' (c.eraseP (fun e => decide (e.pkey = k))) = cfind k' c := by
  induction c with
  | nil => simp [cfind]
  | cons x xs ih =>
    rw [eraseP_key_cons]
    by_cases h : x.pkey = k
    · have h' : ¬ x.pkey = k' := fun hh => hk (by rw [← hh, h])
      rw [if_pos h, cfind_cons, if_neg h']
    · rw [if_neg h, cfind_cons, cfind_cons, ih]

theorem map_pkey_eraseP (k : List Nat) (c : List hash_entry) :
    (c.eraseP (fun e => decide (e.pkey = k))).map hash_entry.pkey
      = (c.map hash_entry.pkey).erase k := by
  induction c with
  | nil => simp
  | cons x xs ih =>
    by_cases h : x.pkey = k
    · simp [List.eraseP_cons, h]
    · simp [List.eraseP_cons, h, List.erase_cons_tail, ih]

theorem cfind_eraseP_self (k : List Nat) (c : List hash_entry)
    (hnd : (c.map hash_entry.pkey).Nodup) :
    cfind k (c.eraseP (fun e => decide (e.pkey = k))) = none := by
  rw [cfind_eq_none_iff, map_pkey_eraseP]
  exact fun h => (List.Nodup.mem_erase_iff hnd).1 h |>.1 rfl

theorem length_eraseP_cfind (k : List Nat) (c : List hash_entry) (h : cfind k c ≠ none) :
    (c.eraseP (fun e => decide (e.pkey = k))).length + 1 = c.length := by
  have hm : k ∈ c.map hash_entry.pkey := by
    by_contra hh
    exact h ((cfind_eq_none_iff k c).2 hh)
  obtain ⟨x, hx, hxk⟩ := List.mem_map.1 hm
  have := List.length_eraseP_of_mem (p := fun e => decide (e.pkey = k)) hx (by simpa using hxk)
  have hpos : 0 < c.length := List.length_pos_of_mem hx
  omega

/-- The chain walk of `ht_remove` unlinks the first entry whose key is the
searched one; the flag tells whether that entry had a predecessor. -/
theorem remove_walk_eq (tmp : hash_entry) (htmp : wf_entry tmp) :
    ∀ (c : List hash_entry) (has_prev : Bool), (∀ e ∈ c, wf_entry e) →
      ht_remove_walk tmp has_prev c
        = if cfind tmp.pkey c = none then none
          else some (c.eraseP (fun e => decide (e.pkey = tmp.pkey)),
            has_prev || !decide (c.head?.map hash_entry.pkey = some tmp.pkey)) := by
  intro c
  induction c with
  | nil => intro hp _; simp [ht_remove_walk, cfind]
  | cons x xs ih =>
    intro hp hc
    have hx := hc x (List.mem_cons_self _ _)
    have hxs : ∀ e ∈ xs, wf_entry e := fun e he => hc e (List.mem_cons_of_mem _ he)
    have hiff := compare_iff x tmp hx htmp
    by_cases h : x.pkey = tmp.pkey
    · have h1 := hiff.2 h
      rw [ht_remove_walk, if_pos h1]
      simp [cfind, h, List.eraseP_cons]
    · have h1 : ¬ he_key_compare_i x tmp ≠ 0 := fun hh => h (hiff.1 hh)
      rw [ht_remove_walk, if_neg h1, ih true hxs]
      by_cases hf : cfind tmp.pkey xs = none
      · have hf' := hf
        simp only [cfind] at hf'
        simp [cfind, h, hf, hf']
      · have hf' := hf
        simp only [cfind] at hf'
        simp [cfind, h, hf, hf', List.eraseP_cons]

/-! ## One bucket of a table replaced -/

theorem ht_index_ui_congr (E : Env) (t t' : hash_table)
    (hf : t'.phashfunc_x86_32 = t.phashfunc_x86_32) (hn : t'.array_size = t.array_size)
    (k : List Nat) (n : Nat) : ht_index_ui E t' k n = ht_index_ui E t k n := by
  simp [ht_index_ui, hf, hn]

theorem ht_index_ui_lt (E : Env) (t : hash_table) (k : List Nat) (n i : Nat)
    (h : ht_index_ui E t k n = some i) : i < t.array_size := by
  unfold ht_index_ui at h
  split at h
  · simp at h
  · split at h
    · simp at h
    · rename_i hz
      simp only [Option.some.injEq] at h
      rw [← h]
      exact Nat.mod_lt _ (Nat.pos_of_ne_zero hz)

theorem ht_index_ui_usable (E : Env) (t : hash_table) (k : List Nat) (n i : Nat)
    (h : ht_index_ui E t k n = some i) : usable t := by
  unfold ht_index_ui at h
  split at h
  · simp at h
  · rename_i f hf
    split at h
    · simp at h
    · rename_i hz
      exact ⟨by simp [hf], hz⟩

theorem usable_index (E : Env) (t : hash_table) (h : usable t) (k : List Nat) (n : Nat) :
    ∃ i, ht_index_ui E t k n = some i := by
  obtain ⟨h1, h2⟩ := h
  unfold ht_index_ui
  cases hf : t.phashfunc_x86_32 with
  | none => exact absurd hf h1
  | some f => simp [h2]

theorem total_update (t t' : hash_table) (index : Nat) (c : List hash_entry)
    (hs : t.pparray.length = t.array_size) (hi : index < t.array_size)
    (hp : t'.pparray = t.pparray.set index c) (hn : t'.array_size = t.array_size) :
    total t' + (t.pparray.getD index []).length = total t + c.length := by
  have hs' : t'.pparray.length = t'.array_size := by rw [hp, hn, List.length_set, hs]
  rw [total_eq t hs, total_eq t' hs', hp]
  exact sum_length_set _ _ _ (by rw [hs]; exact hi)

theorem lookup_update (E : Env) (t t' : hash_table) (index : Nat) (c : List hash_entry)
    (hs : t.pparray.length = t.array_size) (hi : index < t.array_size)
    (hp : t'.pparray = t.pparray.set index c) (hn : t'.array_size = t.array_size)
    (hf : t'.phashfunc_x86_32 = t.phashfunc_x86_32) (k : List Nat) :
    lookup E t' k = if ht_index_ui E t k k.length = some index then (cfind k c).map entry_val
      else lookup E t k := by
  unfold lookup
  rw [ht_index_ui_congr E t t' hf hn]
  cases hix : ht_index_ui E t k k.length with
  | none => simp
  | some i =>
    have hil : index < t.pparray.length := by rw [hs]; exact hi
    by_cases hii : i = index
    · subst hii
      simp only [hp, getD_set_chain, hil, and_self, if_true]
    · have : ¬ some i = some index := fun h => hii (Option.some.inj h)
      simp only [hp, getD_set_chain, hii, false_and, if_false, this]

/-- Replacing the chain of one bucket by a chain of well-formed entries with
distinct keys that all hash to that bucket keeps the table well-formed,
provided `key_count` is kept in step. -/
theorem WF_update (E : Env) (t t' : hash_table) (index : Nat) (c : List hash_entry)
    (hwf : WF E t) (hi : index < t.array_size)
    (hp : t'.pparray = t.pparray.set index c) (hn : t'.array_size = t.array_size)
    (hf : t'.phashfunc_x86_32 = t.phashfunc_x86_32)
    (hc1 : ∀ x ∈ c, wf_entry x)
    (hc2 : ∀ x ∈ c, ht_index_ui E t x.pkey x.pkey.length = some index)
    (hc3 : (c.map hash_entry.pkey).Nodup)
    (hcount : t'.key_count = total t' % UINT_RANGE) : WF E t' := by
  have hil : index < t.pparray.length := by rw [hwf.size]; exact hi
  refine ⟨by rw [hp, hn, List.length_set, hwf.size], ?_, ?_, ?_, hcount⟩
  · intro i e he
    rw [hp, getD_set_chain] at he
    split at he
    · exact hc1 e he
    · exact hwf.entries i e he
  · intro i e he
    rw [ht_index_ui_congr E t t' hf hn]
    rw [hp, getD_set_chain] at he
    split at he
    · rename_i h
      rw [h.1]
      exact hc2 e he
    · exact hwf.placed i e he
  · intro i
    rw [hp, getD_set_chain]
    split
    · exact hc3
    · exact hwf.nodup i

/-! ## The whole array -/

theorem nodup_flatten_aux (g : List Nat → Option Nat) :
    ∀ (arr : List (List hash_entry)) (off : Nat),
      (∀ i, ∀ e ∈ arr.getD i [], g e.pkey = some (off + i)) →
      (∀ i, ((arr.getD i []).map hash_entry.pkey).Nodup) →
      (arr.flatten.map hash_entry.pkey).Nodup := by
  intro arr
  induction arr with
  | nil => intro _ _ _; simp
  | cons c cs ih =>
    intro off hpl hnd
    rw [List.flatten_cons, List.map_append, List.nodup_append]
    refine ⟨by simpa using hnd 0, ?_, ?_⟩
    · apply ih (off + 1)
      · intro i e he
        have := hpl (i + 1) e (by simpa using he)
        rw [this]; congr 1; omega
      · intro i
        simpa using hnd (i + 1)
    · intro k hk1 hk2
      obtain ⟨x, hx, hxk⟩ := List.mem_map.1 hk1
      obtain ⟨y, hy, hyk⟩ := List.mem_map.1 hk2
      obtain ⟨i, hi⟩ := mem_chain_of_mem_flatten cs y hy
      have h1 := hpl 0 x (by simpa using hx)
      have h2 := hpl (i + 1) y (by simpa using hi)
      rw [hxk] at h1
      rw [hyk, h1] at h2
      simp at h2

theorem cfind_append (k : List Nat) (a b : List hash_entry) :
    cfind k (a ++ b) = (cfind k a).or (cfind k b) := by
  simp [cfind, List.find?_append]

theorem cfind_flatten_aux (g : List Nat → Option Nat) (k : List Nat) :
    ∀ (arr : List (List hash_entry)) (off j : Nat),
      (∀ i, ∀ e ∈ arr.getD i [], g e.pkey = some (off + i)) →
      g k = some (off + j) →
      cfind k arr.flatten = cfind k (arr.getD j []) := by
  intro arr
  induction arr with
  | nil => intro _ _ _ _; simp [cfind]
  | cons c cs ih =>
    intro off j hpl hk
    rw [List.flatten_cons, cfind_append]
    cases j with
    | zero =>
      have : cfind k cs.flatten = none := by
        rw [cfind_eq_none_iff]
        intro hm
        obtain ⟨y, hy, hyk⟩ := List.mem_map.1 hm
        obtain ⟨i, hi⟩ := mem_chain_of_mem_flatten cs y hy
        have h2 := hpl (i + 1) y (by simpa using hi)
        rw [hyk, hk] at h2
        simp at h2
      rw [this]
      simp
    | succ j =>
      have : cfind k c = none := by
        rw [cfind_eq_none_iff]
        intro hm
        obtain ⟨x, hx, hxk⟩ := List.mem_map.1 hm
        have h1 := hpl 0 x (by simpa using hx)
        rw [hxk, hk] at h1
        simp at h1
      rw [this, List.getD_cons_succ]
      simp only [Option.or, Option.none_or]
      apply ih (off + 1) j
      · intro i e he
        have := hpl (i + 1) e (by simpa using he)
        rw [this]; congr 1; omega
      · rw [hk]; congr 1; omega

/-- No key occurs twice in a well-formed table, whatever the buckets. -/
theorem WF.nodup_flatten {E : Env} {t : hash_table} (h : WF E t) :
    (t.pparray.flatten.map hash_entry.pkey).Nodup := by
  apply nodup_flatten_aux (fun k => ht_index_ui E t k k.length) t.pparray 0
  · intro i e he
    simpa using h.placed i e he
  · exact h.nodup

/-- A lookup in a well-formed table finds the entry of the whole array that
has the key. -/
theorem WF.lookup_flatten {E : Env} {t : hash_table} (h : WF E t) (k : List Nat) :
    lookup E t k = (cfind k t.pparray.flatten).map entry_val := by
  unfold lookup
  cases hix : ht_index_ui E t k k.length with
  | none =>
    have : cfind k t.pparray.flatten = none := by
      rw [cfind_eq_none_iff]
      intro hm
      obtain ⟨y, hy, hyk⟩ := List.mem_map.1 hm
      obtain ⟨i, hi⟩ := mem_chain_of_mem_flatten _ y hy
      have := h.placed i y hi
      rw [hyk, hix] at this
      simp at this
    simp [this]
  | some j =>
    have := cfind_flatten_aux (fun k => ht_index_ui E t k k.length) k t.pparray 0 j
      (by intro i e he; simpa using h.placed i e he) (by simpa using hix)
    simp only [this]

theorem WF.total_flatten {E : Env} {t : hash_table} (h : WF E t) :
    total t = t.pparray.flatten.length := by
  rw [total_eq t h.size, List.length_flatten]

theorem WF.entries_flatten {E : Env} {t : hash_table} (h : WF E t) :
    ∀ e ∈ t.pparray.flatten, wf_entry e := by
  intro e he
  obtain ⟨i, hi⟩ := mem_chain_of_mem_flatten _ e he
  exact h.entries i e hi

/-- Well-formedness only reads the array, its size, the 32-bit digest binding
and `key_count`. -/
theorem WF.congr {E : Env} {t t' : hash_table} (h : WF E t)
    (hp : t'.pparray = t.pparray) (hn : t'.array_size = t.array_size)
    (hf : t'.phashfunc_x86_32 = t.phashfunc_x86_32) (hk : t'.key_count = t.key_count) :
    WF E t' := by
  have htot : total t' = total t := by
    unfold total chains
    rw [hp, hn]
  refine ⟨by rw [hp, hn]; exact h.size, ?_, ?_, ?_, by rw [hk, htot]; exact h.count⟩
  · intro i e he
    rw [hp] at he
    exact h.entries i e he
  · intro i e he
    rw [hp] at he
    rw [ht_index_ui_congr E t t' hf hn]
    exact h.placed i e he
  · intro i
    rw [hp]
    exact h.nodup i

theorem lookup_congr (E : Env) (t t' : hash_table)
    (hp : t'.pparray = t.pparray) (hn : t'.array_size = t.array_size)
    (hf : t'.phashfunc_x86_32 = t.phashfunc_x86_32) (k : List Nat) :
    lookup E t' k = lookup E t k := by
  unfold lookup
  rw [ht_index_ui_congr E t t' hf hn, hp]

theorem total_congr (t t' : hash_table)
    (hp : t'.pparray = t.pparray) (hn : t'.array_size = t.array_size) :
    total t' = total t := by
  unfold total chains
  rw [hp, hn]

/-! ## Insertion -/

/-- The effect of an insertion that rewrites the chain of the bucket of `e`:
`linked` says whether `e` became a new entry. -/
theorem insert_update (E : Env) (t t' : hash_table) (e : hash_entry) (index : Nat)
    (c : List hash_entry) (linked : Bool)
    (hwf : WF E t) (hix : ht_index_ui E t e.pkey e.pkey.length = some index)
    (hp : t'.pparray = t.pparray.set index c) (hn : t'.array_size = t.array_size)
    (hf : t'.phashfunc_x86_32 = t.phashfunc_x86_32)
    (hc1 : ∀ x ∈ c, wf_entry x)
    (hkeys : c.map hash_entry.pkey
      = if linked then (t.pparray.getD index []).map hash_entry.pkey ++ [e.pkey]
        else (t.pparray.getD index []).map hash_entry.pkey)
    (hlinked : linked = true ↔ e.pkey ∉ (t.pparray.getD index []).map hash_entry.pkey)
    (hfind : ∀ k, (cfind k c).map entry_val
      = if k = e.pkey then some (e.pvalue, e.value_size)
        else (cfind k (t.pparray.getD index [])).map entry_val)
    (hcount : t'.key_count = if linked then (t.key_count + 1) % UINT_RANGE else t.key_count) :
    WF E t' ∧ usable t' ∧
    (∀ k, lookup E t' k = if k = e.pkey then some (e.pvalue, e.value_size) else lookup E t k) ∧
    total t' = total t + (if lookup E t e.pkey = none then 1 else 0) := by
  have hi : index < t.array_size := ht_index_ui_lt E t _ _ _ hix
  have hus : usable t := ht_index_ui_usable E t _ _ _ hix
  have hlk : lookup E t e.pkey = (cfind e.pkey (t.pparray.getD index [])).map entry_val := by
    simp only [lookup, hix]
  have hnone : lookup E t e.pkey = none ↔ linked = true := by
    rw [hlk, hlinked, Option.map_eq_none', cfind_eq_none_iff]
  have hlen : c.length = (t.pparray.getD index []).length + (if linked then 1 else 0) := by
    have := congrArg List.length hkeys
    rw [List.length_map] at this
    rw [this]
    cases linked <;> simp
  have htot := total_update t t' index c hwf.size hi hp hn
  have htot' : total t' = total t + (if linked then 1 else 0) := by omega
  refine ⟨?_, ?_, ?_, ?_⟩
  · apply WF_update E t t' index c hwf hi hp hn hf hc1
    · intro x hx
      have hxk : x.pkey ∈ c.map hash_entry.pkey := List.mem_map_of_mem _ hx
      rw [hkeys] at hxk
      have hold : ∀ k ∈ (t.pparray.getD index []).map hash_entry.pkey,
          ht_index_ui E t k k.length = some index := by
        intro k hk
        obtain ⟨y, hy, hyk⟩ := List.mem_map.1 hk
        rw [← hyk]
        exact hwf.placed index y hy
      cases linked with
      | true =>
        simp only [if_true, List.mem_append, List.mem_singleton] at hxk
        rcases hxk with hxk | hxk
        · exact hold _ hxk
        · rw [hxk]; exact hix
      | false => exact hold _ (by simpa using hxk)
    · rw [hkeys]
      cases linked with
      | true =>
        simp only [if_true]
        rw [List.nodup_append]
        refine ⟨hwf.nodup index, List.nodup_singleton _, ?_⟩
        intro k hk1 hk2
        rw [List.mem_singleton] at hk2
        subst hk2
        exact (hlinked.1 rfl) hk1
      | false => exact hwf.nodup index
    · rw [hcount, htot', hwf.count]
      cases linked with
      | true => simp [Nat.add_mod]
      | false => simp
  · exact ⟨by rw [hf]; exact hus.1, by rw [hn]; exact hus.2⟩
  · intro k
    rw [lookup_update E t t' index c hwf.size hi hp hn hf k]
    by_cases hk : k = e.pkey
    · subst hk
      rw [if_pos hix, hfind, if_pos rfl, if_pos rfl]
    · rw [if_neg hk]
      by_cases h2 : ht_index_ui E t k k.length = some index
      · rw [if_pos h2, hfind, if_neg hk]
        simp only [lookup, h2]
      · rw [if_neg h2]
  · rw [htot']
    by_cases hl : linked = true
    · rw [if_pos hl, if_pos (hnone.2 hl)]
    · rw [if_neg hl, if_neg (fun h => hl (hnone.1 h))]

theorem frame_refl (t : hash_table) : frame t t := ⟨rfl, rfl, rfl, rfl, rfl⟩

theorem frame_trans {a b c : hash_table} (h1 : frame a b) (h2 : frame b c) : frame a c := by
  obtain ⟨a1, a2, a3, a4, a5⟩ := h1
  obtain ⟨b1, b2, b3, b4, b5⟩ := h2
  exact ⟨b1.trans a1, b2.trans a2, b3.trans a3, b4.trans a4, b5.trans a5⟩

/-- The body of `ht_he_insert` meets the insertion contract when the resize
it calls meets the resize contract. -/
theorem body_spec (E : Env) (resize : hash_table → Nat → Option hash_table)
    (hres : ResizeSpec E resize) : InsSpec E (ht_he_insert_body E resize) := by
  intro t e t' hwf he h
  unfold ht_he_insert_body at h
  rw [he.1] at h
  cases hix : ht_index_ui E t e.pkey e.pkey.length with
  | none => rw [hix] at h; simp at h
  | some index =>
    rw [hix] at h
    simp only at h
    cases hb : t.pparray.getD index [] with
    | nil =>
      rw [hb] at h
      simp only [Option.some.injEq] at h
      have := insert_update E t t' e index [e] true hwf hix (by rw [← h]) (by rw [← h])
        (by rw [← h])
        (by intro x hx; rw [List.mem_singleton] at hx; subst hx; exact he)
        (by rw [hb]; simp) (by rw [hb]; simp)
        (by intro k; rw [hb]; by_cases hk : k = e.pkey
            · subst hk; simp [cfind, entry_val]
            · have : ¬ e.pkey = k := fun hh => hk hh.symm
              simp [cfind, hk, this])
        (by rw [← h]; rfl)
      exact ⟨this.1, by rw [← h]; exact ⟨rfl, rfl, rfl, rfl, rfl⟩, this.2⟩
    | cons p rest =>
      rw [hb] at h
      simp only at h
      have hp : ∀ x ∈ p :: rest, wf_entry x := by
        intro x hx
        exact hwf.entries index x (by rw [hb]; exact hx)
      obtain ⟨i1, i2, i3, i4⟩ := he_insert_chain_spec t.flags e he rest p hp
      cases hr : (he_insert_chain t.flags e p rest).2 with
      | false =>
        rw [hr] at h
        simp only [if_true, Option.some.injEq] at h
        have := insert_update E t t' e index (he_insert_chain t.flags e p rest).1 false hwf hix
          (by rw [← h]) (by rw [← h]) (by rw [← h]) i3 (by rw [hb, i2, hr])
          (by rw [hb, ← i1, hr])
          (by intro k; rw [hb]; exact i4 k) (by rw [← h]; rfl)
        exact ⟨this.1, by rw [← h]; exact ⟨rfl, rfl, rfl, rfl, rfl⟩, this.2⟩
      | true =>
        rw [hr] at h
        simp only [Bool.true_eq_false, if_false] at h
        have key := insert_update E t
          (ht_he_insert_linked E t index (he_insert_chain t.flags e p rest).1)
          e index (he_insert_chain t.flags e p rest).1 true hwf hix
          rfl rfl rfl i3 (by rw [hb, i2, hr]) (by rw [hb, ← i1, hr])
          (by intro k; rw [hb]; exact i4 k) rfl
        split at h
        · cases hrs : resize (ht_he_insert_linked E t index (he_insert_chain t.flags e p rest).1)
            ((ht_he_insert_linked E t index (he_insert_chain t.flags e p rest).1).array_size * 2
              % UINT_RANGE) with
          | none => rw [hrs] at h; simp at h
          | some t2 =>
            rw [hrs] at h
            simp only [Option.some.injEq] at h
            subst h
            obtain ⟨k1, k2, k3, k4⟩ := key
            obtain ⟨r1, r2, r3, r4, r5, _⟩ := hres _ _ _ k1 hrs
            have hpos : 0 < total
                (ht_he_insert_linked E t index (he_insert_chain t.flags e p rest).1) := by
              rw [k4]
              have : lookup E t e.pkey = none := by
                simp only [lookup, hix, hb, Option.map_eq_none', cfind_eq_none_iff]
                exact i1.1 hr
              rw [if_pos this]
              omega
            have hus := r5 hpos
            refine ⟨r1.congr rfl rfl rfl rfl, ?_, hus, ?_, ?_⟩
            · exact frame_trans (⟨rfl, rfl, rfl, rfl, rfl⟩ : frame t _) r2
            · intro k
              rw [← k3 k, ← r3 k]
              exact lookup_congr E _ _ rfl rfl rfl k
            · rw [← k4, ← r4]
              exact total_congr _ _ rfl rfl
        · simp only [Option.some.injEq] at h
          subst h
          exact ⟨key.1, ⟨rfl, rfl, rfl, rfl, rfl⟩, key.2⟩

/-! ## Resize -/

theorem foldlM_chains {β : Type} (f : β → hash_entry → Option β)
    (g : Nat → List hash_entry) :
    ∀ (l : List Nat) (b : β),
      l.foldlM (fun nt i => (g i).foldlM f nt) b = ((l.map g).flatten).foldlM f b := by
  intro l
  induction l with
  | nil => intro b; simp
  | cons i l ih =>
    intro b
    rw [List.foldlM_cons, List.map_cons, List.flatten_cons, List.foldlM_append]
    congr 1
    funext nt
    exact ih nt

/-- Inserting, one after the other, entries with distinct keys that the table
does not hold. -/
theorem fold_spec (E : Env) (ins : hash_table → hash_entry → Option hash_table)
    (hins : InsSpec E ins) :
    ∀ (L : List hash_entry) (nt nt' : hash_table), WF E nt → (∀ e ∈ L, wf_entry e) →
      (L.map hash_entry.pkey).Nodup → (∀ e ∈ L, lookup E nt e.pkey = none) →
      L.foldlM ins nt = some nt' →
      WF E nt' ∧ frame nt nt' ∧
      (∀ k, lookup E nt' k = (match cfind k L with
        | some e => some (entry_val e)
        | none => lookup E nt k)) ∧
      total nt' = total nt + L.length ∧ (L ≠ [] → usable nt') := by
  intro L
  induction L with
  | nil =>
    intro nt nt' hwf _ _ _ h
    simp only [List.foldlM_nil, pure, Option.some.injEq] at h
    subst h
    exact ⟨hwf, frame_refl _, by intro k; simp [cfind], by simp, by simp⟩
  | cons e L ih =>
    intro nt nt' hwf hL hnd hnone h
    rw [List.foldlM_cons] at h
    cases h1 : ins nt e with
    | none => rw [h1] at h; simp at h
    | some n1 =>
      rw [h1] at h
      simp only [Option.bind_eq_bind, Option.some_bind] at h
      have he := hL e (List.mem_cons_self _ _)
      obtain ⟨a1, a2, a3, a4, a5⟩ := hins nt e n1 hwf he h1
      rw [List.map_cons, List.nodup_cons] at hnd
      have hL' : ∀ x ∈ L, wf_entry x := fun x hx => hL x (List.mem_cons_of_mem _ hx)
      have hnone' : ∀ x ∈ L, lookup E n1 x.pkey = none := by
        intro x hx
        have hne : ¬ x.pkey = e.pkey :=
          fun hh => hnd.1 (by rw [← hh]; exact List.mem_map_of_mem _ hx)
        rw [a4, if_neg hne]
        exact hnone x (List.mem_cons_of_mem _ hx)
      obtain ⟨b1, b2, b3, b4, b5⟩ := ih n1 nt' a1 hL' hnd.2 hnone' h
      refine ⟨b1, frame_trans a2 b2, ?_, ?_, ?_⟩
      · intro k
        rw [b3 k, cfind_cons]
        by_cases hk : e.pkey = k
        · subst hk
          have : cfind e.pkey L = none := (cfind_eq_none_iff _ _).2 hnd.1
          rw [this, if_pos rfl, a4, if_pos rfl]
          rfl
        · have hk' : ¬ k = e.pkey := fun hh => hk hh.symm
          rw [if_neg hk]
          cases hc : cfind k L with
          | some x => rfl
          | none => simp only [a4, if_neg hk']
      · rw [b4, a5, if_pos (hnone e (List.mem_cons_self _ _)), List.length_cons]
        omega
      · intro _
        by_cases hl : L = []
        · subst hl
          simp only [List.foldlM_nil, pure, Option.some.injEq] at h
          subst h
          exact a3
        · exact b5 hl

theorem getD_replicate_nil (n i : Nat) :
    (List.replicate n ([] : List hash_entry)).getD i [] = [] := by
  rw [List.getD_eq_getElem?_getD, List.getElem?_replicate]
  split <;> rfl

theorem total_empty (t : hash_table) (hs : t.pparray.length = t.array_size)
    (h : ∀ i, t.pparray.getD i [] = []) : total t = 0 := by
  rw [total_eq t hs, ← List.length_flatten, List.length_eq_zero, List.eq_nil_iff_forall_not_mem]
  intro e he
  obtain ⟨i, hi⟩ := mem_chain_of_mem_flatten _ e he
  rw [h i] at hi
  simp at hi

/-- A table without entries whose array has `array_size` slots and whose
`key_count` is 0 is well-formed. -/
theorem WF_empty (E : Env) (t : hash_table) (hs : t.pparray.length = t.array_size)
    (h : ∀ i, t.pparray.getD i [] = []) (hk : t.key_count = 0) : WF E t := by
  refine ⟨hs, ?_, ?_, ?_, ?_⟩
  · intro i e he
    rw [h i] at he
    simp at he
  · intro i e he
    rw [h i] at he
    simp at he
  · intro i
    rw [h i]
    simp
  · rw [total_empty t hs h, hk]
    rfl

theorem lookup_empty (E : Env) (t : hash_table) (h : ∀ i, t.pparray.getD i [] = [])
    (k : List Nat) : lookup E t k = none := by
  unfold lookup
  cases ht_index_ui E t k k.length with
  | none => rfl
  | some i =>
    show (cfind k (t.pparray.getD i [])).map entry_val = none
    rw [h i]
    rfl

/-- The body of `ht_resize` meets the resize contract when the insertion it
calls meets the insertion contract. -/
theorem resize_spec (E : Env) (ins : hash_table → hash_entry → Option hash_table)
    (hins : InsSpec E ins) : ResizeSpec E (ht_resize_body ins) := by
  intro t n t' hwf h
  unfold ht_resize_body at h
  rw [foldlM_chains ins (fun i => t.pparray.getD i []) (List.range t.array_size)] at h
  have hch : (List.range t.array_size).map (fun i => t.pparray.getD i []) = t.pparray :=
    chains_eq t hwf.size
  rw [hch] at h
  have hget : ∀ i, (ht_resize_new_table t n).pparray.getD i [] = [] :=
    fun i => getD_replicate_nil n i
  have hsz : (ht_resize_new_table t n).pparray.length = (ht_resize_new_table t n).array_size := by
    simp [ht_resize_new_table]
  cases hfold : t.pparray.flatten.foldlM ins (ht_resize_new_table t n) with
  | none => rw [hfold] at h; simp at h
  | some nt =>
    rw [hfold] at h
    simp only [Option.some.injEq] at h
    have hw0 : WF E (ht_resize_new_table t n) := WF_empty E _ hsz hget rfl
    obtain ⟨b1, b2, b3, b4, b5⟩ := fold_spec E ins hins t.pparray.flatten _ nt hw0
      hwf.entries_flatten hwf.nodup_flatten
      (fun e _ => lookup_empty E _ hget e.pkey) hfold
    rw [total_empty _ hsz hget, ← hwf.total_flatten, Nat.zero_add] at b4
    obtain ⟨f1, f2, f3, f4, f5⟩ := b2
    have hp : t'.pparray = nt.pparray := by rw [← h]
    have hn : t'.array_size = nt.array_size := by rw [← h]
    have hf : t'.phashfunc_x86_32 = nt.phashfunc_x86_32 := by rw [← h]
    have hk : t'.key_count = nt.key_count := by rw [← h]
    refine ⟨b1.congr hp hn hf hk, ?_, ?_, ?_, ?_, ?_⟩
    · rw [← h]
      exact ⟨rfl, rfl, f3, f4, f5⟩
    · intro k
      rw [lookup_congr E nt t' hp hn hf k, b3 k, hwf.lookup_flatten k]
      cases cfind k t.pparray.flatten with
      | some x => rfl
      | none => exact lookup_empty E _ hget k
    · rw [total_congr nt t' hp hn, b4]
    · intro hpos
      have hne : t.pparray.flatten ≠ [] := by
        intro hh
        rw [hwf.total_flatten, hh] at hpos
        simp at hpos
      obtain ⟨u1, u2⟩ := b5 hne
      exact ⟨by rw [hf]; exact u1, by rw [hn]; exact u2⟩
    · intro hz
      have hnil : t.pparray.flatten = [] := by
        rw [hwf.total_flatten] at hz
        exact List.length_eq_zero.1 hz
      rw [hnil] at hfold
      simp only [List.foldlM_nil, pure, Option.some.injEq] at hfold
      rw [hn, ← hfold]
      rfl

/-- The function `ht_he_insert` meets the insertion contract, whatever the fuel. -/
theorem ins_spec (E : Env) (fuel : Nat) : InsSpec E (ht_he_insert E fuel) := by
  induction fuel with
  | zero =>
    intro t e t' _ _ h
    simp [ht_he_insert] at h
  | succ fuel ih =>
    exact body_spec E _ (resize_spec E _ ih)

/-- The function `ht_resize` meets the resize contract, whatever the fuel. -/
theorem ht_resize_spec (E : Env) (fuel : Nat) : ResizeSpec E (ht_resize E fuel) :=
  resize_spec E _ (ins_spec E fuel)

/-! ## Lookup, membership, removal, enumeration -/

theorem get_eq_lookup (E : Env) (t : hash_table) (hwf : WF E t) (hus : usable t)
    (k : List Nat) : ht_get_p E t k k.length = some (lookup E t k) := by
  obtain ⟨i, hi⟩ := usable_index E t hus k k.length
  unfold ht_get_p lookup
  rw [hi]
  simp only
  rw [get_walk_eq _ (wf_tmp_entry k) _ (hwf.entries i)]
  rfl

theorem contains_eq_lookup (E : Env) (t : hash_table) (hwf : WF E t) (hus : usable t)
    (k : List Nat) :
    ht_contains_i E t k k.length = some (if (lookup E t k).isSome then 1 else 0) := by
  obtain ⟨i, hi⟩ := usable_index E t hus k k.length
  unfold ht_contains_i lookup
  rw [hi]
  simp only
  rw [contains_walk_eq _ (wf_tmp_entry k) _ (hwf.entries i)]
  simp [tmp_entry]

theorem get_none_of_not_usable (E : Env) (t : hash_table) (h : ¬ usable t) (k : List Nat)
    (n : Nat) : ht_get_p E t k n = none ∧ ht_contains_i E t k n = none := by
  have : ht_index_ui E t k n = none := by
    cases hix : ht_index_ui E t k n with
    | none => rfl
    | some i => exact absurd (ht_index_ui_usable E t k n i hix) h
  simp [ht_get_p, ht_contains_i, this]

/-- The function `ht_remove` on a well-formed table: the key is unbound, every
other key is left alone, and one entry goes exactly when the key was bound. -/
theorem remove_spec (E : Env) (t t' : hash_table) (k : List Nat) (hwf : WF E t)
    (h : ht_remove E t k k.length = some t') :
    WF E t' ∧ frame t t' ∧ t'.array_size = t.array_size ∧
    (∀ k', lookup E t' k' = if k' = k then none else lookup E t k') ∧
    total t' + (if lookup E t k = none then 0 else 1) = total t := by
  unfold ht_remove at h
  cases hix : ht_index_ui E t k k.length with
  | none => rw [hix] at h; simp at h
  | some index =>
    rw [hix] at h
    simp only at h
    have hi : index < t.array_size := ht_index_ui_lt E t _ _ _ hix
    have hlk : lookup E t k = (cfind k (t.pparray.getD index [])).map entry_val := by
      simp only [lookup, hix]
    rw [remove_walk_eq _ (wf_tmp_entry k) _ false (hwf.entries index)] at h
    simp only [tmp_entry] at h
    by_cases hc : cfind k (t.pparray.getD index []) = none
    · rw [if_pos hc] at h
      simp only [Option.some.injEq] at h
      subst h
      have hn : lookup E t k = none := by rw [hlk, hc]; rfl
      refine ⟨hwf, frame_refl _, rfl, ?_, by rw [if_pos hn]; rfl⟩
      intro k'
      by_cases hk : k' = k
      · subst hk; rw [if_pos rfl, hn]
      · rw [if_neg hk]
    · rw [if_neg hc] at h
      simp only [Option.some.injEq] at h
      have hp : t'.pparray
          = t.pparray.set index ((t.pparray.getD index []).eraseP
              (fun e => decide (e.pkey = k))) := by rw [← h]
      have hn : t'.array_size = t.array_size := by rw [← h]
      have hf : t'.phashfunc_x86_32 = t.phashfunc_x86_32 := by rw [← h]
      have hkc : t'.key_count = (t.key_count + UINT_RANGE - 1) % UINT_RANGE := by rw [← h]
      have hsome : lookup E t k ≠ none := by
        rw [hlk]
        simpa using hc
      have hlen := length_eraseP_cfind k _ hc
      have htot := total_update t t' index _ hwf.size hi hp hn
      have htot' : total t' + 1 = total t := by omega
      have hsub : ((t.pparray.getD index []).eraseP (fun e => decide (e.pkey = k))).Sublist
          (t.pparray.getD index []) := List.eraseP_sublist _
      refine ⟨?_, by rw [← h]; exact ⟨rfl, rfl, rfl, rfl, rfl⟩, hn, ?_,
        by rw [if_neg hsome]; exact htot'⟩
      · apply WF_update E t t' index _ hwf hi hp hn hf
        · intro x hx
          exact hwf.entries index x (hsub.subset hx)
        · intro x hx
          exact hwf.placed index x (hsub.subset hx)
        · exact (hwf.nodup index).sublist (hsub.map _)
        · rw [hkc, hwf.count, ← htot']
          simp only [UINT_RANGE]
          omega
      · intro k'
        rw [lookup_update E t t' index _ hwf.size hi hp hn hf k']
        by_cases hk : k' = k
        · subst hk
          rw [if_pos hix, if_pos rfl, cfind_eraseP_self _ _ (hwf.nodup index)]
          rfl
        · rw [if_neg hk]
          by_cases h2 : ht_index_ui E t k' k'.length = some index
          · rw [if_pos h2, cfind_eraseP_ne k k' hk]
            simp only [lookup, h2]
          · rw [if_neg h2]

theorem remove_returns (E : Env) (t : hash_table) (hus : usable t) (k : List Nat) (n : Nat) :
    ∃ t', ht_remove E t k n = some t' := by
  obtain ⟨i, hi⟩ := usable_index E t hus k n
  unfold ht_remove
  rw [hi]
  simp only
  cases ht_remove_walk (tmp_entry k n) false (t.pparray.getD i []) with
  | none => exact ⟨_, rfl⟩
  | some r => exact ⟨_, rfl⟩

theorem keys_fold (kc : Nat) (hkc : kc < UINT_RANGE) :
    ∀ (L : List hash_entry) (ks : List (List Nat)) (n : Nat), n + L.length ≤ kc →
      L.foldlM (fun (a : List (List Nat) × Nat) (ptmp : hash_entry) =>
          if a.2 < kc then some (a.1 ++ [ptmp.pkey], (a.2 + 1) % UINT_RANGE) else none) (ks, n)
        = some (ks ++ L.map hash_entry.pkey, n + L.length) := by
  intro L
  induction L with
  | nil => intro ks n _; simp
  | cons x xs ih =>
    intro ks n hn
    rw [List.foldlM_cons]
    simp only [List.length_cons] at hn
    have h1 : n < kc := by omega
    have h2 : (n + 1) % UINT_RANGE = n + 1 := Nat.mod_eq_of_lt (by omega)
    simp only [h1, if_true, h2, Option.bind_eq_bind, Option.some_bind]
    rw [ih (ks ++ [x.pkey]) (n + 1) (by omega)]
    simp [Nat.add_assoc, Nat.add_comm 1]

theorem cfind_of_mem (L : List hash_entry) (hnd : (L.map hash_entry.pkey).Nodup)
    (e : hash_entry) (he : e ∈ L) : cfind e.pkey L = some e := by
  induction L with
  | nil => simp at he
  | cons x xs ih =>
    rw [List.map_cons, List.nodup_cons] at hnd
    rw [cfind_cons]
    rcases List.mem_cons.1 he with h | h
    · subst h; rw [if_pos rfl]
    · have : ¬ x.pkey = e.pkey := by
        intro hh
        exact hnd.1 (by rw [hh]; exact List.mem_map_of_mem _ h)
      rw [if_neg this]
      exact ih hnd.2 h

theorem lookup_some_iff_mem (E : Env) (t : hash_table) (hwf : WF E t) (k : List Nat) :
    lookup E t k ≠ none ↔ k ∈ t.pparray.flatten.map hash_entry.pkey := by
  rw [hwf.lookup_flatten k, Ne, Option.map_eq_none', cfind_eq_none_iff]
  exact not_not

/-! ## The public operations on well-formed tables -/

theorem some_getD_of_isSome {α : Type} (o : Option α) (d : α) (h : o.isSome = true) :
    o = some (o.getD d) := by
  cases o with
  | none => simp at h
  | some x => rfl

theorem ht_insert_eq (E : Env) (fuel : Nat) (t : hash_table) (k v : List Nat) :
    ht_insert E fuel t k k.length v v.length
      = ht_he_insert E fuel t
          { pkey := k, key_size := k.length, pvalue := v, value_size := v.length } := by
  unfold ht_insert
  rw [wf_he_create_p]

/-- The function `ht_insert` on a well-formed table. -/
theorem insert_spec (E : Env) (fuel : Nat) (t t' : hash_table) (k v : List Nat)
    (hwf : WF E t) (h : ht_insert E fuel t k k.length v v.length = some t') :
    WF E t' ∧ frame t t' ∧ usable t' ∧
    (∀ k', lookup E t' k' = if k' = k then some (v, v.length) else lookup E t k') ∧
    total t' = total t + (if lookup E t k = none then 1 else 0) := by
  rw [ht_insert_eq] at h
  exact ins_spec E fuel t _ t' hwf ⟨rfl, rfl⟩ h

theorem WF_init (E : Env) (flags : Nat) (mlf : ℚ) (f32 f128 f64 : Option HashFunc) :
    WF E (ht_init E flags mlf f32 f128 f64) :=
  WF_empty E _ (by simp [ht_init]) (fun i => getD_replicate_nil _ i) rfl

theorem WF_clear (E : Env) (t : hash_table) : WF E (ht_clear E t) :=
  WF_init E _ _ _ _ _

/-- Every table a program can build is well-formed. -/
theorem Reachable.wf {E : Env} {t : hash_table} (h : Reachable E t) : WF E t := by
  induction h with
  | init flags mlf f32 f128 f64 => exact WF_init E flags mlf f32 f128 f64
  | insert fuel k v _ hins ih => exact (insert_spec E fuel _ _ k v ih hins).1
  | he_insert fuel e _ he hins ih => exact (ins_spec E fuel _ e _ ih he hins).1
  | remove k _ hrem ih => exact (remove_spec E _ _ k ih hrem).1
  | resize fuel n _ hres ih => exact (ht_resize_spec E fuel _ n _ ih hres).1
  | clear _ _ => exact WF_clear E _

theorem demo_wf0 : WF demo_env demo_t0 :=
  WF_init demo_env 0 (1 / 100) none none none

theorem demo_insert1 : ht_insert demo_env 1 demo_t0 [0] [0].length [7] [7].length = some demo_t1 :=
  some_getD_of_isSome _ _ (by decide!)

theorem demo_insert2 :
    ht_insert demo_env 2 demo_t1 [64] [64].length [8] [8].length = some demo_t2 :=
  some_getD_of_isSome _ _ (by decide!)

theorem demo_wf1 : WF demo_env demo_t1 :=
  (insert_spec demo_env 1 demo_t0 demo_t1 [0] [7] demo_wf0 demo_insert1).1

theorem demo_wf2 : WF demo_env demo_t2 :=
  (insert_spec demo_env 2 demo_t1 demo_t2 [64] [8] demo_wf1 demo_insert2).1

/-- Resizing a table without entries gives the fresh array and zero counters. -/
theorem resize_empty (ins : hash_table → hash_entry → Option hash_table) (t : hash_table)
    (n : Nat) (h : ∀ i, t.pparray.getD i [] = []) :
    ht_resize_body ins t n
      = some { t with
          array_size := n
          pparray := List.replicate n []
          key_count := 0
          collisions := 0 } := by
  unfold ht_resize_body
  rw [foldlM_chains ins (fun i => t.pparray.getD i []) (List.range t.array_size)]
  have : ((List.range t.array_size).map (fun i => t.pparray.getD i [])).flatten = [] := by
    rw [List.eq_nil_iff_forall_not_mem]
    intro e he
    obtain ⟨c, hc, hec⟩ := List.mem_flatten.1 he
    obtain ⟨i, _, hi⟩ := List.mem_map.1 hc
    rw [← hi, h i] at hec
    simp at hec
  rw [this]
  rfl

theorem index_one (E : Env) (t : hash_table) (g : HashFunc) (hf : t.phashfunc_x86_32 = some g)
    (hn : t.array_size = 1) (k : List Nat) (n : Nat) : ht_index_ui E t k n = some 0 := by
  simp [ht_index_ui, hf, hn, Nat.mod_one]

theorem one_bucket_insert_first (E : Env) (g : HashFunc) (g2 g3 : Option HashFunc)
    (mlf clf : ℚ) :
    ht_insert E 1 (one_bucket g g2 g3 mlf clf 0 0 []) [1] 1 [10] 1
      = some (one_bucket g g2 g3 mlf clf 1 0 [⟨[1], 1, [10], 1⟩]) := by
  unfold ht_insert ht_he_insert ht_he_insert_body
  rw [index_one E _ g rfl rfl]
  simp only [one_bucket, List.getD_cons_zero, List.set_cons_zero, he_create_p, HT_KEY_CONST,
    HT_VALUE_CONST, HT_NO_AUTORESIZE, UINT_RANGE]
  simp

theorem one_bucket_insert_second (E : Env) (g : HashFunc) (g2 g3 : Option HashFunc)
    (mlf clf : ℚ) :
    ht_insert E 1 (one_bucket g g2 g3 mlf clf 1 0 [⟨[1], 1, [10], 1⟩]) [2] 1 [20] 1
      = some (one_bucket g g2 g3 mlf
          (E.round_double (((0 + 1) % UINT_RANGE : Nat) / ((1 : Nat) : ℚ)))
          2 1 [⟨[1], 1, [10], 1⟩, ⟨[2], 1, [20], 1⟩]) := by
  unfold ht_insert ht_he_insert ht_he_insert_body
  rw [index_one E _ g rfl rfl]
  simp only [one_bucket, List.getD_cons_zero, List.set_cons_zero, he_create_p, HT_KEY_CONST,
    HT_VALUE_CONST, HT_NO_AUTORESIZE, UINT_RANGE, he_insert_chain, he_key_compare_i,
    ht_he_insert_linked]
  have hm : ¬ memcmp [1] [2] 1 = 0 := by decide
  simp [hm]

theorem one_bucket_remove_head (E : Env) (g : HashFunc) (g2 g3 : Option HashFunc)
    (mlf clf : ℚ) :
    ht_remove E
        (one_bucket g g2 g3 mlf clf 2 1 [⟨[1], 1, [10], 1⟩, ⟨[2], 1, [20], 1⟩]) [1] 1
      = some (one_bucket g g2 g3 mlf clf 1 1 [⟨[2], 1, [20], 1⟩]) := by
  unfold ht_remove
  rw [index_one E _ g rfl rfl]
  simp only [one_bucket, List.getD_cons_zero, List.set_cons_zero, ht_remove_walk, tmp_entry,
    he_key_compare_i, UINT_RANGE]
  have hm : memcmp [1] [1] 1 = 0 := by decide
  simp [hm]

theorem init_resize_one (E : Env) (mlf : ℚ) (f : HashFunc) :
    ∃ g g2 g3 clf,
      ht_resize E 1 (ht_init E HT_NO_AUTORESIZE mlf (some f) (some f) (some f)) 1
        = some (one_bucket g g2 g3 mlf clf 0 0 []) := by
  have hr : ht_resize E 1 (ht_init E HT_NO_AUTORESIZE mlf (some f) (some f) (some f)) 1 = _ :=
    resize_empty _ _ 1 (fun i => getD_replicate_nil _ i)
  rw [hr]
  cases hw : E.with_murmur
  · exact ⟨f, some f, some f, 0, by simp [ht_init, hw, one_bucket]⟩
  · exact ⟨E.MurmurHash3_x86_32, some E.MurmurHash3_x86_128, some E.MurmurHash3_x64_128, 0,
      by simp [ht_init, hw, one_bucket]⟩

/-! ## Sequences of insertions and removals -/

theorem insert_all_eq (E : Env) (fuel : Nat) :
    ∀ (pairs : List (List Nat × List Nat)) (t : hash_table),
      ht_insert_all E fuel t pairs = (pairs.map pair_entry).foldlM (ht_he_insert E fuel) t := by
  intro pairs
  induction pairs with
  | nil => intro t; rfl
  | cons p ps ih =>
    intro t
    unfold ht_insert_all
    rw [List.map_cons, List.foldlM_cons, List.foldlM_cons, ht_insert_eq]
    congr 1
    funext t1
    exact ih t1

/-- Any sequence of insertions keeps a table well-formed and binds no key
outside the inserted ones. -/
theorem insert_all_spec (E : Env) (fuel : Nat) :
    ∀ (pairs : List (List Nat × List Nat)) (t t' : hash_table), WF E t →
      ht_insert_all E fuel t pairs = some t' →
      WF E t' ∧ frame t t' ∧
      (∀ k, lookup E t' k ≠ none → k ∈ pairs.map Prod.fst ∨ lookup E t k ≠ none) := by
  intro pairs
  induction pairs with
  | nil =>
    intro t t' hwf h
    simp only [ht_insert_all, List.foldlM_nil, pure, Option.some.injEq] at h
    subst h
    exact ⟨hwf, frame_refl _, fun k hk => Or.inr hk⟩
  | cons p ps ih =>
    intro t t' hwf h
    unfold ht_insert_all at h
    rw [List.foldlM_cons] at h
    cases h1 : ht_insert E fuel t p.1 p.1.length p.2 p.2.length with
    | none => rw [h1] at h; simp at h
    | some t1 =>
      rw [h1] at h
      simp only [Option.bind_eq_bind, Option.some_bind] at h
      obtain ⟨a1, a2, _, a4, _⟩ := insert_spec E fuel t t1 p.1 p.2 hwf h1
      obtain ⟨b1, b2, b3⟩ := ih t1 t' a1 h
      refine ⟨b1, frame_trans a2 b2, ?_⟩
      intro k hk
      rcases b3 k hk with hm | hl
      · exact Or.inl (by simp only [List.map_cons, List.mem_cons]; exact Or.inr hm)
      · by_cases hkp : k = p.1
        · exact Or.inl (by simp [hkp])
        · rw [a4, if_neg hkp] at hl
          exact Or.inr hl

/-- Any sequence of removals keeps a table well-formed, unbinds the removed
keys and leaves the other keys alone. -/
theorem remove_all_spec (E : Env) :
    ∀ (ks : List (List Nat)) (t t' : hash_table), WF E t → ht_remove_all E t ks = some t' →
      WF E t' ∧ frame t t' ∧ t'.array_size = t.array_size ∧
      (∀ k, lookup E t' k = if k ∈ ks then none else lookup E t k) := by
  intro ks
  induction ks with
  | nil =>
    intro t t' hwf h
    simp only [ht_remove_all, List.foldlM_nil, pure, Option.some.injEq] at h
    subst h
    exact ⟨hwf, frame_refl _, rfl, fun k => by simp⟩
  | cons x xs ih =>
    intro t t' hwf h
    unfold ht_remove_all at h
    rw [List.foldlM_cons] at h
    cases h1 : ht_remove E t x x.length with
    | none => rw [h1] at h; simp at h
    | some t1 =>
      rw [h1] at h
      simp only [Option.bind_eq_bind, Option.some_bind] at h
      obtain ⟨a1, a2, a3, a4, _⟩ := remove_spec E t t1 x hwf h1
      obtain ⟨b1, b2, b3, b4⟩ := ih t1 t' a1 h
      refine ⟨b1, frame_trans a2 b2, b3.trans a3, ?_⟩
      intro k
      rw [b4 k]
      by_cases hkx : k = x
      · subst hkx
        simp [a4]
      · by_cases hm : k ∈ xs
        · simp [hm]
        · simp [hm, hkx, a4]

/-- A well-formed table in which no key is bound has no entry. -/
theorem no_entries_of_lookup_none (E : Env) (t : hash_table) (hwf : WF E t)
    (h : ∀ k, lookup E t k = none) :
    t.key_count = 0 ∧ ∀ c ∈ chains t, c = [] := by
  have hnil : t.pparray.flatten = [] := by
    rw [List.eq_nil_iff_forall_not_mem]
    intro e he
    exact (lookup_some_iff_mem E t hwf e.pkey).2 (List.mem_map_of_mem _ he) (h e.pkey)
  refine ⟨?_, ?_⟩
  · rw [hwf.count, hwf.total_flatten, hnil]
    rfl
  · rw [chains_eq t hwf.size]
    intro c hc
    rw [List.eq_nil_iff_forall_not_mem]
    intro e he
    have : e ∈ t.pparray.flatten := List.mem_flatten.2 ⟨c, hc, he⟩
    rw [hnil] at this
    simp at this

theorem clear_getD (E : Env) (t : hash_table) (i : Nat) :
    (ht_clear E t).pparray.getD i [] = [] :=
  getD_replicate_nil _ i

/-! ## More fuel changes no result -/

theorem foldlM_mono {α β : Type} (f g : β → α → Option β)
    (h : ∀ b a b', f b a = some b' → g b a = some b') :
    ∀ (L : List α) (b b' : β), L.foldlM f b = some b' → L.foldlM g b = some b' := by
  intro L
  induction L with
  | nil => intro b b' hb; exact hb
  | cons a L ih =>
    intro b b' hb
    rw [List.foldlM_cons] at hb ⊢
    cases h1 : f b a with
    | none => rw [h1] at hb; simp at hb
    | some b1 =>
      rw [h1] at hb
      rw [h b a b1 h1]
      exact ih b1 b' hb

theorem ht_he_insert_body_mono (E : Env) (r1 r2 : hash_table → Nat → Option hash_table)
    (h : ∀ t n t', r1 t n = some t' → r2 t n = some t') (t : hash_table) (e : hash_entry)
    (t' : hash_table) (h1 : ht_he_insert_body E r1 t e = some t') :
    ht_he_insert_body E r2 t e = some t' := by
  unfold ht_he_insert_body at h1 ⊢
  cases hix : ht_index_ui E t e.pkey e.key_size with
  | none => simp [hix] at h1
  | some index =>
    simp only [hix] at h1 ⊢
    cases hb : t.pparray.getD index [] with
    | nil => rw [hb] at h1; exact h1
    | cons p rest =>
      rw [hb] at h1
      simp only at h1 ⊢
      split
      · rename_i hr
        rw [if_pos hr] at h1
        exact h1
      · rename_i hr
        rw [if_neg hr] at h1
        split
        · rename_i hc
          rw [if_pos hc] at h1
          cases hrs : r1 (ht_he_insert_linked E t index (he_insert_chain t.flags e p rest).1)
              ((ht_he_insert_linked E t index (he_insert_chain t.flags e p rest).1).array_size * 2
                % UINT_RANGE) with
          | none => rw [hrs] at h1; simp at h1
          | some t2 =>
            rw [hrs] at h1
            rw [h _ _ _ hrs]
            exact h1
        · rename_i hc
          rw [if_neg hc] at h1
          exact h1

theorem ht_resize_body_mono (i1 i2 : hash_table → hash_entry → Option hash_table)
    (h : ∀ t e t', i1 t e = some t' → i2 t e = some t') (t : hash_table) (n : Nat)
    (t' : hash_table) (h1 : ht_resize_body i1 t n = some t') :
    ht_resize_body i2 t n = some t' := by
  unfold ht_resize_body at h1 ⊢
  rw [foldlM_chains i1 (fun i => t.pparray.getD i []) (List.range t.array_size)] at h1
  rw [foldlM_chains i2 (fun i => t.pparray.getD i []) (List.range t.array_size)]
  cases hf : (((List.range t.array_size).map (fun i => t.pparray.getD i [])).flatten).foldlM i1
      (ht_resize_new_table t n) with
  | none => rw [hf] at h1; simp at h1
  | some nt =>
    rw [hf] at h1
    rw [foldlM_mono i1 i2 h _ _ nt hf]
    exact h1

/-- A call of `ht_he_insert` that returns with some fuel returns the same table
with any larger fuel. -/
theorem ht_he_insert_mono (E : Env) :
    ∀ (n m : Nat), n ≤ m → ∀ (t : hash_table) (e : hash_entry) (t' : hash_table),
      ht_he_insert E n t e = some t' → ht_he_insert E m t e = some t' := by
  intro n
  induction n with
  | zero =>
    intro m _ t e t' h
    simp [ht_he_insert] at h
  | succ n ih =>
    intro m hm t e t' h
    cases m with
    | zero => omega
    | succ m =>
      exact ht_he_insert_body_mono E _ _
        (ht_resize_body_mono _ _ (ih m (by omega))) t e t' h

/-- A call of `ht_resize` that returns with some fuel returns the same table
with any larger fuel. -/
theorem ht_resize_mono (E : Env) (n m : Nat) (hnm : n ≤ m) (t : hash_table) (k : Nat)
    (t' : hash_table) (h : ht_resize E n t k = some t') : ht_resize E m t k = some t' :=
  ht_resize_body_mono _ _ (ht_he_insert_mono E n m hnm) t k t' h

theorem remove_keeps_usable (E : Env) (t t' : hash_table) (k : List Nat) (n : Nat)
    (h : ht_remove E t k n = some t') (hus : usable t) : usable t' := by
  unfold ht_remove at h
  cases hix : ht_index_ui E t k n with
  | none => rw [hix] at h; simp at h
  | some index =>
    rw [hix] at h
    simp only at h
    cases hw : ht_remove_walk (tmp_entry k n) false (t.pparray.getD index []) with
    | none =>
      rw [hw] at h
      simp only [Option.some.injEq] at h
      rw [← h]
      exact hus
    | some r =>
      rw [hw] at h
      simp only [Option.some.injEq] at h
      have hf : t'.phashfunc_x86_32 = t.phashfunc_x86_32 := by rw [← h]
      have hn : t'.array_size = t.array_size := by rw [← h]
      exact ⟨by rw [hf]; exact hus.1, by rw [hn]; exact hus.2⟩

/-- On a table that can compute indices every sequence of removals returns. -/
theorem remove_all_returns (E : Env) :
    ∀ (ks : List (List Nat)) (t : hash_table), (ks ≠ [] → usable t) →
      ∃ t', ht_remove_all E t ks = some t' := by
  intro ks
  induction ks with
  | nil => intro t _; exact ⟨t, rfl⟩
  | cons x xs ih =>
    intro t hus
    have hu := hus (by simp)
    obtain ⟨t1, h1⟩ := remove_returns E t hu x x.length
    obtain ⟨t', ht'⟩ := ih t1 (fun _ => remove_keeps_usable E t t1 x x.length h1 hu)
    refine ⟨t', ?_⟩
    unfold ht_remove_all
    rw [List.foldlM_cons, h1]
    exact ht'

/-- After a non-empty sequence of insertions has returned, the table can
compute indices. -/
theorem insert_all_usable (E : Env) (fuel : Nat) :
    ∀ (pairs : List (List Nat × List Nat)) (t t' : hash_table), WF E t →
      ht_insert_all E fuel t pairs = some t' → pairs ≠ [] → usable t' := by
  intro pairs
  induction pairs with
  | nil => intro t t' _ _ h; exact absurd rfl h
  | cons p ps ih =>
    intro t t' hwf h _
    unfold ht_insert_all at h
    rw [List.foldlM_cons] at h
    cases h1 : ht_insert E fuel t p.1 p.1.length p.2 p.2.length with
    | none => rw [h1] at h; simp at h
    | some t1 =>
      rw [h1] at h
      simp only [Option.bind_eq_bind, Option.some_bind] at h
      obtain ⟨a1, _, a3, _, _⟩ := insert_spec E fuel t t1 p.1 p.2 hwf h1
      by_cases hps : ps = []
      · subst hps
        simp only [List.foldlM_nil, pure, Option.some.injEq] at h
        rw [← h]
        exact a3
      · exact ih t1 t' a1 h hps

/-! ## The two scans and the key comparison, without any assumption -/

theorem memcmp_eq_zero_iff_take (a b : List Nat) (n : Nat) :
    memcmp a b n = 0 ↔ a.take n = b.take n := by
  induction n generalizing a b with
  | zero => simp [memcmp]
  | succ n ih =>
    cases a with
    | nil =>
      cases b with
      | nil => simp [memcmp]
      | cons y ys => simp [memcmp]
    | cons x xs =>
      cases b with
      | nil => simp [memcmp]
      | cons y ys =>
        by_cases hxy : x = y
        · subst hxy
          simp [memcmp, ih xs ys]
        · have : (x : Int) - (y : Int) ≠ 0 := by omega
          simp [memcmp, hxy, this]

theorem he_key_compare_i_le_one (a b : hash_entry) :
    he_key_compare_i a b = 0 ∨ he_key_compare_i a b = 1 := by
  unfold he_key_compare_i
  split
  · exact Or.inl rfl
  · split
    · exact Or.inr rfl
    · exact Or.inl rfl

theorem contains_walk_eq_get_walk (tmp : hash_entry) (c : List hash_entry) :
    ht_contains_walk tmp c = if (ht_get_walk tmp c).isSome then 1 else 0 := by
  induction c with
  | nil => rfl
  | cons x xs ih =>
    by_cases h : he_key_compare_i x tmp ≠ 0
    · rw [ht_contains_walk, ht_get_walk, if_pos h, if_pos h]
      rfl
    · rw [ht_contains_walk, ht_get_walk, if_neg h, if_neg h]
      exact ih

theorem remove_walk_none_of_contains_zero (tmp : hash_entry) :
    ∀ (c : List hash_entry) (has_prev : Bool), ht_contains_walk tmp c = 0 →
      ht_remove_walk tmp has_prev c = none := by
  intro c
  induction c with
  | nil => intro _ _; rfl
  | cons x xs ih =>
    intro hp h
    by_cases hc : he_key_compare_i x tmp ≠ 0
    · rw [ht_contains_walk, if_pos hc] at h
      exact absurd h (by decide)
    · rw [ht_contains_walk, if_neg hc] at h
      rw [ht_remove_walk, if_neg hc, ih true h]

/-! ## The capacity through insertions and resizes -/

theorem Doubled.trans {a b c : Nat} (h1 : Doubled a b) (h2 : Doubled b c) : Doubled a c := by
  induction h2 with
  | refl => exact h1
  | step _ ih => exact Doubled.step ih

theorem autoresize_fires_index_none (E : Env) (t : hash_table) (e : hash_entry)
    (h : ht_index_ui E t e.pkey e.key_size = none) : autoresize_fires E t e = false := by
  unfold autoresize_fires
  rw [h]

theorem body_cap (E : Env) (resize : hash_table → Nat → Option hash_table)
    (hr : ResizeCap resize) (t : hash_table) (e : hash_entry) (t' : hash_table)
    (h : ht_he_insert_body E resize t e = some t') :
    t'.flags = t.flags ∧ t'.max_load_factor = t.max_load_factor ∧
    (autoresize_fires E t e = true →
      Doubled ((t.array_size * 2) % UINT_RANGE) t'.array_size) ∧
    (autoresize_fires E t e = false → t'.array_size = t.array_size) ∧
    (t.flags &&& HT_NO_AUTORESIZE ≠ 0 → autoresize_fires E t e = false) := by
  unfold ht_he_insert_body at h
  unfold autoresize_fires
  cases hix : ht_index_ui E t e.pkey e.key_size with
  | none => rw [hix] at h; simp at h
  | some index =>
    rw [hix] at h
    simp only at h ⊢
    cases hb : t.pparray.getD index [] with
    | nil =>
      rw [hb] at h
      simp only [Option.some.injEq] at h
      subst h
      simp
    | cons ptmp rest =>
      rw [hb] at h
      simp only at h ⊢
      by_cases hl : (he_insert_chain t.flags e ptmp rest).2 = false
      · rw [if_pos hl] at h
        simp only [Option.some.injEq] at h
        subst h
        simp [hl]
      · rw [if_neg hl] at h
        have hl2 : (he_insert_chain t.flags e ptmp rest).2 = true := by
          simpa using hl
        have hclf : (ht_he_insert_linked E t index (he_insert_chain t.flags e ptmp rest).1).current_load_factor
            = E.round_double (((t.collisions + 1) % UINT_RANGE : Nat) / (t.array_size : ℚ)) := rfl
        have hfl : (ht_he_insert_linked E t index (he_insert_chain t.flags e ptmp rest).1).flags
            = t.flags := rfl
        have hmlf : (ht_he_insert_linked E t index (he_insert_chain t.flags e ptmp rest).1).max_load_factor
            = t.max_load_factor := rfl
        have hsz : (ht_he_insert_linked E t index (he_insert_chain t.flags e ptmp rest).1).array_size
            = t.array_size := rfl
        rw [hclf, hfl, hmlf, hsz] at h
        by_cases hc : t.flags &&& HT_NO_AUTORESIZE = 0 ∧
            E.round_double (((t.collisions + 1) % UINT_RANGE : Nat) / (t.array_size : ℚ))
              > t.max_load_factor
        · rw [if_pos hc] at h
          cases hrs : resize (ht_he_insert_linked E t index (he_insert_chain t.flags e ptmp rest).1)
              ((t.array_size * 2) % UINT_RANGE) with
          | none => rw [hrs] at h; simp at h
          | some t2 =>
            rw [hrs] at h
            simp only [Option.some.injEq] at h
            subst h
            obtain ⟨h1, h2, h3, _⟩ := hr _ _ _ hrs
            refine ⟨h1, h2, fun _ => h3, ?_, ?_⟩
            · intro hf
              simp [hl2, hc] at hf
            · intro hflag
              exact absurd hc.1 hflag
        · rw [if_neg hc] at h
          simp only [Option.some.injEq] at h
          subst h
          refine ⟨rfl, rfl, ?_, fun _ => rfl, ?_⟩
          · intro hf
            simp only [hl2, Bool.true_and, decide_eq_true_eq] at hf
            exact absurd hf hc
          · intro _
            simp only [hl2, Bool.true_and, decide_eq_false_iff_not]
            exact hc

theorem body_inscap (E : Env) (resize : hash_table → Nat → Option hash_table)
    (hr : ResizeCap resize) : InsCap (ht_he_insert_body E resize) := by
  intro t e t' h
  obtain ⟨h1, h2, h3, h4, h5⟩ := body_cap E resize hr t e t' h
  refine ⟨h1, h2, ?_, fun hflag => h4 (h5 hflag)⟩
  cases hf : autoresize_fires E t e with
  | true => exact Doubled.trans (Doubled.step Doubled.refl) (h3 hf)
  | false => rw [h4 hf]; exact Doubled.refl

theorem chain_cap (ins : hash_table → hash_entry → Option hash_table) (hi : InsCap ins) :
    ∀ (c : List hash_entry) (nt nt' : hash_table), c.foldlM ins nt = some nt' →
      nt'.flags = nt.flags ∧ nt'.max_load_factor = nt.max_load_factor ∧
      Doubled nt.array_size nt'.array_size ∧
      (nt.flags &&& HT_NO_AUTORESIZE ≠ 0 → nt'.array_size = nt.array_size) := by
  intro c
  induction c with
  | nil =>
    intro nt nt' h
    simp only [List.foldlM, Option.pure_def, Option.some.injEq] at h
    subst h
    exact ⟨rfl, rfl, Doubled.refl, fun _ => rfl⟩
  | cons x xs ih =>
    intro nt nt' h
    simp only [List.foldlM, Option.bind_eq_bind] at h
    cases h1 : ins nt x with
    | none => rw [h1] at h; simp at h
    | some nt1 =>
      rw [h1] at h
      simp only [Option.some_bind] at h
      obtain ⟨a1, a2, a3, a4⟩ := hi _ _ _ h1
      obtain ⟨b1, b2, b3, b4⟩ := ih _ _ h
      refine ⟨b1.trans a1, b2.trans a2, Doubled.trans a3 b3, fun hflag => ?_⟩
      rw [b4 (by rw [a1]; exact hflag), a4 hflag]

theorem buckets_cap (ins : hash_table → hash_entry → Option hash_table) (hi : InsCap ins)
    (chain_of : Nat → List hash_entry) :
    ∀ (l : List Nat) (nt nt' : hash_table),
      l.foldlM (fun nt i => (chain_of i).foldlM ins nt) nt = some nt' →
      nt'.flags = nt.flags ∧ nt'.max_load_factor = nt.max_load_factor ∧
      Doubled nt.array_size nt'.array_size ∧
      (nt.flags &&& HT_NO_AUTORESIZE ≠ 0 → nt'.array_size = nt.array_size) := by
  intro l
  induction l with
  | nil =>
    intro nt nt' h
    simp only [List.foldlM, Option.pure_def, Option.some.injEq] at h
    subst h
    exact ⟨rfl, rfl, Doubled.refl, fun _ => rfl⟩
  | cons x xs ih =>
    intro nt nt' h
    simp only [List.foldlM, Option.bind_eq_bind] at h
    cases h1 : (chain_of x).foldlM ins nt with
    | none => rw [h1] at h; simp at h
    | some nt1 =>
      rw [h1] at h
      simp only [Option.some_bind] at h
      obtain ⟨a1, a2, a3, a4⟩ := chain_cap ins hi _ _ _ h1
      obtain ⟨b1, b2, b3, b4⟩ := ih _ _ h
      refine ⟨b1.trans a1, b2.trans a2, Doubled.trans a3 b3, fun hflag => ?_⟩
      rw [b4 (by rw [a1]; exact hflag), a4 hflag]

theorem resize_body_cap (ins : hash_table → hash_entry → Option hash_table)
    (hi : InsCap ins) : ResizeCap (ht_resize_body ins) := by
  intro t n t' h
  unfold ht_resize_body at h
  cases hf : (List.range t.array_size).foldlM
      (fun nt i => (t.pparray.getD i []).foldlM ins nt) (ht_resize_new_table t n) with
  | none => rw [hf] at h; simp at h
  | some nt =>
    rw [hf] at h
    simp only [Option.some.injEq] at h
    subst h
    obtain ⟨_, _, a3, a4⟩ := buckets_cap ins hi (fun i => t.pparray.getD i []) _ _ _ hf
    exact ⟨rfl, rfl, a3, fun hflag => a4 hflag⟩

theorem ins_cap (E : Env) : ∀ fuel, InsCap (ht_he_insert E fuel) := by
  intro fuel
  induction fuel with
  | zero =>
    intro t e t' h
    simp [ht_he_insert] at h
  | succ fuel ih =>
    show InsCap (ht_he_insert_body E (ht_resize_body (ht_he_insert E fuel)))
    exact body_inscap E _ (resize_body_cap _ ih)

theorem ht_resize_cap (E : Env) (fuel : Nat) : ResizeCap (ht_resize E fuel) :=
  resize_body_cap _ (ins_cap E fuel)

theorem remove_cap (E : Env) (t : hash_table) (k : List Nat) (n : Nat) (t' : hash_table)
    (h : ht_remove E t k n = some t') :
    t'.flags = t.flags ∧ t'.max_load_factor = t.max_load_factor ∧
    t'.array_size = t.array_size ∧ t'.phashfunc_x86_32 = t.phashfunc_x86_32 ∧
    t'.current_load_factor = t.current_load_factor := by
  unfold ht_remove at h
  cases hix : ht_index_ui E t k n with
  | none => rw [hix] at h; simp at h
  | some index =>
    rw [hix] at h
    simp only at h
    cases hw : ht_remove_walk (tmp_entry k n) false (t.pparray.getD index []) with
    | none =>
      rw [hw] at h
      simp only [Option.some.injEq] at h
      subst h
      exact ⟨rfl, rfl, rfl, rfl, rfl⟩
    | some r =>
      rw [hw] at h
      simp only [Option.some.injEq] at h
      subst h
      exact ⟨rfl, rfl, rfl, rfl, rfl⟩

theorem run_ops_cap (E : Env) (fuel : Nat) :
    ∀ (ops : List table_op) (t t' : hash_table), t.flags &&& HT_NO_AUTORESIZE ≠ 0 →
      run_ops E fuel t ops = some t' → t'.array_size = t.array_size := by
  intro ops
  induction ops with
  | nil =>
    intro t t' _ h
    simp only [run_ops, List.foldlM, Option.pure_def, Option.some.injEq] at h
    subst h
    rfl
  | cons op ops ih =>
    intro t t' hflag h
    simp only [run_ops, List.foldlM, Option.bind_eq_bind] at h
    cases h1 : apply_op E fuel t op with
    | none => rw [h1] at h; simp at h
    | some t1 =>
      rw [h1] at h
      simp only [Option.some_bind] at h
      have key : t1.flags = t.flags ∧ t1.array_size = t.array_size := by
        cases op with
        | insert k v =>
          obtain ⟨a1, _, _, a4⟩ := ins_cap E fuel _ _ _ h1
          exact ⟨a1, a4 hflag⟩
        | remove k =>
          obtain ⟨a1, _, a3, _⟩ := remove_cap E _ _ _ _ h1
          exact ⟨a1, a3⟩
      rw [ih t1 t' (by rw [key.1]; exact hflag) h, key.2]

/-! ## Calls that return when autoresize is disabled -/

theorem body_noauto_returns (E : Env) (resize : hash_table → Nat → Option hash_table)
    (t : hash_table) (e : hash_entry) (hus : usable t)
    (hflag : t.flags &&& HT_NO_AUTORESIZE ≠ 0) :
    ∃ t', ht_he_insert_body E resize t e = some t' ∧ t'.flags = t.flags ∧
      t'.array_size = t.array_size ∧ t'.phashfunc_x86_32 = t.phashfunc_x86_32 := by
  obtain ⟨index, hix⟩ := usable_index E t hus e.pkey e.key_size
  unfold ht_he_insert_body
  rw [hix]
  simp only
  cases hb : t.pparray.getD index [] with
  | nil => exact ⟨_, rfl, rfl, rfl, rfl⟩
  | cons ptmp rest =>
    simp only
    by_cases hl : (he_insert_chain t.flags e ptmp rest).2 = false
    · rw [if_pos hl]
      exact ⟨_, rfl, rfl, rfl, rfl⟩
    · rw [if_neg hl]
      have hfl : (ht_he_insert_linked E t index (he_insert_chain t.flags e ptmp rest).1).flags
          = t.flags := rfl
      rw [hfl, if_neg (fun hc => hflag hc.1)]
      exact ⟨_, rfl, rfl, rfl, rfl⟩

theorem insert_noauto_returns (E : Env) (fuel : Nat) (t : hash_table) (e : hash_entry)
    (hus : usable t) (hflag : t.flags &&& HT_NO_AUTORESIZE ≠ 0) :
    ∃ t', ht_he_insert E (fuel + 1) t e = some t' ∧ t'.flags = t.flags ∧
      t'.array_size = t.array_size ∧ t'.phashfunc_x86_32 = t.phashfunc_x86_32 :=
  body_noauto_returns E _ t e hus hflag

theorem chain_noauto_returns (E : Env) (fuel : Nat) :
    ∀ (c : List hash_entry) (nt : hash_table), usable nt →
      nt.flags &&& HT_NO_AUTORESIZE ≠ 0 →
      ∃ nt', c.foldlM (ht_he_insert E (fuel + 1)) nt = some nt' ∧ nt'.flags = nt.flags ∧
        nt'.array_size = nt.array_size ∧ nt'.phashfunc_x86_32 = nt.phashfunc_x86_32 := by
  intro c
  induction c with
  | nil => intro nt _ _; exact ⟨nt, rfl, rfl, rfl, rfl⟩
  | cons x xs ih =>
    intro nt hus hflag
    obtain ⟨nt1, h1, a1, a2, a3⟩ := insert_noauto_returns E fuel nt x hus hflag
    obtain ⟨nt2, h2, b1, b2, b3⟩ :=
      ih nt1 ⟨by rw [a3]; exact hus.1, by rw [a2]; exact hus.2⟩ (by rw [a1]; exact hflag)
    refine ⟨nt2, ?_, b1.trans a1, b2.trans a2, b3.trans a3⟩
    rw [List.foldlM_cons, h1]
    exact h2

theorem resize_noauto_returns (E : Env) (fuel : Nat) (t : hash_table) (n : Nat)
    (hf : t.phashfunc_x86_32 ≠ none) (hn : n ≠ 0)
    (hflag : t.flags &&& HT_NO_AUTORESIZE ≠ 0) :
    ∃ t', ht_resize E (fuel + 1) t n = some t' ∧ t'.array_size = n := by
  unfold ht_resize ht_resize_body
  rw [foldlM_chains _ (fun i => t.pparray.getD i []) (List.range t.array_size)]
  obtain ⟨nt, h, _, a2, _⟩ := chain_noauto_returns E fuel
    ((List.range t.array_size).map (fun i => t.pparray.getD i [])).flatten
    (ht_resize_new_table t n) ⟨hf, hn⟩ hflag
  rw [h]
  exact ⟨_, rfl, a2⟩

theorem run_ops_noauto_returns (E : Env) (fuel : Nat) :
    ∀ (ops : List table_op) (t : hash_table), usable t →
      t.flags &&& HT_NO_AUTORESIZE ≠ 0 →
      ∃ t', run_ops E (fuel + 1) t ops = some t' := by
  intro ops
  induction ops with
  | nil => intro t _ _; exact ⟨t, rfl⟩
  | cons op ops ih =>
    intro t hus hflag
    have key : ∃ t1, apply_op E (fuel + 1) t op = some t1 ∧ usable t1 ∧
        t1.flags &&& HT_NO_AUTORESIZE ≠ 0 := by
      cases op with
      | insert k v =>
        obtain ⟨t1, h1, a1, a2, a3⟩ := insert_noauto_returns E fuel t
          (he_create_p t.flags k k.length v v.length) hus hflag
        exact ⟨t1, h1, ⟨by rw [a3]; exact hus.1, by rw [a2]; exact hus.2⟩,
          by rw [a1]; exact hflag⟩
      | remove k =>
        obtain ⟨t1, h1⟩ := remove_returns E t hus k k.length
        obtain ⟨a1, _, a3, a4, _⟩ := remove_cap E _ _ _ _ h1
        exact ⟨t1, h1, ⟨by rw [a4]; exact hus.1, by rw [a3]; exact hus.2⟩,
          by rw [a1]; exact hflag⟩
    obtain ⟨t1, h1, hus1, hflag1⟩ := key
    obtain ⟨t2, h2⟩ := ih t1 hus1 hflag1
    refine ⟨t2, ?_⟩
    simp only [run_ops, List.foldlM_cons] at h2 ⊢
    rw [h1]
    exact h2

theorem insert_none_of_unbound (E : Env) (fuel : Nat) (t : hash_table) (e : hash_entry)
    (h : t.phashfunc_x86_32 = none) : ht_he_insert E fuel t e = none := by
  cases fuel with
  | zero => rfl
  | succ fuel =>
    show ht_he_insert_body E _ t e = none
    unfold ht_he_insert_body
    have : ht_index_ui E t e.pkey e.key_size = none := by
      unfold ht_index_ui
      rw [h]
    rw [this]

theorem Reachable.murmur {E : Env} {t : hash_table} (h : Reachable E t)
    (hw : E.with_murmur = true) :
    t.phashfunc_x86_32 = some E.MurmurHash3_x86_32 ∧
    t.phashfunc_x86_128 = some E.MurmurHash3_x86_128 ∧
    t.phashfunc_x64_128 = some E.MurmurHash3_x64_128 := by
  induction h with
  | init flags mlf f32 f128 f64 => simp [ht_init, hw]
  | insert fuel k v ht hins ih =>
    obtain ⟨_, _, a, b, c⟩ := (insert_spec E fuel _ _ k v ht.wf hins).2.1
    exact ⟨a.trans ih.1, b.trans ih.2.1, c.trans ih.2.2⟩
  | he_insert fuel e ht he hins ih =>
    obtain ⟨_, _, a, b, c⟩ := (ins_spec E fuel _ e _ ht.wf he hins).2.1
    exact ⟨a.trans ih.1, b.trans ih.2.1, c.trans ih.2.2⟩
  | remove k ht hrem ih =>
    obtain ⟨_, _, a, b, c⟩ := (remove_spec E _ _ k ht.wf hrem).2.1
    exact ⟨a.trans ih.1, b.trans ih.2.1, c.trans ih.2.2⟩
  | resize fuel n ht hres ih =>
    obtain ⟨_, _, a, b, c⟩ := (ht_resize_spec E fuel _ n _ ht.wf hres).2.1
    exact ⟨a.trans ih.1, b.trans ih.2.1, c.trans ih.2.2⟩
  | clear _ _ => simp [ht_clear, ht_init, hw]

theorem keys_of_count (t : hash_table) (hcount : t.key_count = total t)
    (hlt : t.key_count < UINT_RANGE) :
    ht_keys_pp t = some (((chains t).flatten).map hash_entry.pkey, t.key_count) := by
  have hlen : ((chains t).flatten).length = total t := by
    rw [List.length_flatten]
    rfl
  unfold ht_keys_pp
  by_cases hz : t.key_count = 0
  · rw [if_pos hz]
    have h0 : (chains t).flatten = [] := by
      apply List.length_eq_zero.1
      rw [hlen, ← hcount, hz]
    rw [h0, hz]
    rfl
  · rw [if_neg hz, foldlM_chains _ (fun i => t.pparray.getD i []) (List.range t.array_size)]
    show ((chains t).flatten).foldlM _ _ = _
    rw [keys_fold t.key_count hlt _ [] 0 (by rw [hlen, hcount]; omega)]
    simp [hlen, hcount]

theorem one_bucket_remove_second (E : Env) (g : HashFunc) (g2 g3 : Option HashFunc)
    (mlf clf : ℚ) :
    ht_remove E
        (one_bucket g g2 g3 mlf clf 2 1 [⟨[1], 1, [10], 1⟩, ⟨[2], 1, [20], 1⟩]) [2] 1
      = some (one_bucket g g2 g3 mlf clf 1 0 [⟨[1], 1, [10], 1⟩]) := by
  unfold ht_remove
  rw [index_one E _ g rfl rfl]
  simp only [one_bucket, List.getD_cons_zero, List.set_cons_zero, ht_remove_walk, tmp_entry,
    he_key_compare_i, UINT_RANGE]
  have hm : ¬ memcmp [1] [2] 1 = 0 := by decide
  have hm2 : memcmp [2] [2] 1 = 0 := by decide
  simp [hm, hm2]

/-- An explicit `ht_resize` leaves the stored load factor as it was: the table
`demo_pair64` has one collision in 64 buckets and the load factor 1/64; resized
to 128 buckets it has no collision and still the load factor 1/64. -/
theorem demo_resize_stale :
    ht_resize demo_env 1 demo_pair64 128 = some demo_pair128 ∧
    demo_pair64.collisions = 1 ∧ demo_pair64.current_load_factor = 1 / 64 ∧
    demo_pair128.collisions = 0 ∧ demo_pair128.array_size = 128 ∧
    demo_pair128.current_load_factor = 1 / 64 :=
  ⟨some_getD_of_isSome _ _ (by decide!), by decide!, by decide!, by decide!, by decide!,
    by decide!⟩

/-! ## The walk of `ht_remove`, without any assumption -/

theorem remove_walk_split (tmp : hash_entry) :
    ∀ (c : List hash_entry) (has_prev : Bool), ht_contains_walk tmp c = 1 →
      ∃ pre e post, c = pre ++ e :: post ∧
        (∀ x ∈ pre, he_key_compare_i x tmp = 0) ∧ he_key_compare_i e tmp ≠ 0 ∧
        ht_remove_walk tmp has_prev c = some (pre ++ post, has_prev || !pre.isEmpty) := by
  intro c
  induction c with
  | nil =>
    intro _ h
    simp [ht_contains_walk] at h
  | cons x xs ih =>
    intro hp h
    by_cases hc : he_key_compare_i x tmp ≠ 0
    · refine ⟨[], x, xs, rfl, ?_, hc, ?_⟩
      · intro y hy
        simp at hy
      · rw [ht_remove_walk, if_pos hc]
        simp
    · rw [ht_contains_walk, if_neg hc] at h
      obtain ⟨pre, e, post, h1, h2, h3, h4⟩ := ih true h
      refine ⟨x :: pre, e, post, by rw [h1]; rfl, ?_, h3, ?_⟩
      · intro y hy
        rcases List.mem_cons.1 hy with hy | hy
        · rw [hy]
          exact not_not.1 hc
        · exact h2 y hy
      · rw [ht_remove_walk, if_neg hc, h4]
        simp

theorem insert_returns_usable (E : Env) (fuel : Nat) (t : hash_table) (e : hash_entry)
    (t' : hash_table) (h : ht_he_insert E fuel t e = some t') : usable t := by
  cases fuel with
  | zero => simp [ht_he_insert] at h
  | succ fuel =>
    have h' : ht_he_insert_body E (ht_resize_body (ht_he_insert E fuel)) t e = some t' := h
    unfold ht_he_insert_body at h'
    cases hix : ht_index_ui E t e.pkey e.key_size with
    | none => rw [hix] at h'; simp at h'
    | some i => exact ht_index_ui_usable E t _ _ i hix

/-! ## An insertion that never returns -/

theorem stuck_index (t : hash_table) (h : Stuck t) (hn : t.array_size ≠ 0) (k : List Nat)
    (n : Nat) : ht_index_ui stuck_env t k n = some 0 := by
  unfold ht_index_ui
  rw [h.1]
  simp [hn, stuck_digest]

theorem stuck_first (fuel : Nat) (t nt : hash_table) (m : Nat)
    (h1 : t.phashfunc_x86_32 = some stuck_digest) (h2 : t.flags = 0)
    (h3 : t.max_load_factor = 1 / 8589934592) (hm : m < UINT_RANGE)
    (hins : ht_he_insert stuck_env fuel (ht_resize_new_table t m) ⟨[1], 1, [10], 1⟩ = some nt) :
    Stuck nt := by
  cases fuel with
  | zero => simp [ht_he_insert] at hins
  | succ fuel =>
    have hins' : ht_he_insert_body stuck_env (ht_resize_body (ht_he_insert stuck_env fuel))
        (ht_resize_new_table t m) ⟨[1], 1, [10], 1⟩ = some nt := hins
    unfold ht_he_insert_body at hins'
    by_cases hz : m = 0
    · have : ht_index_ui stuck_env (ht_resize_new_table t m) [1] 1 = none := by
        unfold ht_index_ui
        simp [ht_resize_new_table, h1, hz]
      rw [this] at hins'
      simp at hins'
    · have hix : ht_index_ui stuck_env (ht_resize_new_table t m) [1] 1 = some 0 := by
        unfold ht_index_ui
        simp [ht_resize_new_table, h1, hz, stuck_digest]
      rw [hix] at hins'
      have hb : (ht_resize_new_table t m).pparray.getD 0 [] = [] := getD_replicate_nil m 0
      simp only at hins'
      rw [hb] at hins'
      simp only [Option.some.injEq] at hins'
      subst hins'
      refine ⟨h1, h2, h3, hm, rfl, ?_, ?_⟩
      · simp [ht_resize_new_table]
      · show ((List.replicate m ([] : List hash_entry)).set 0 _).getD 0 [] = _
        rw [getD_set_chain]
        simp [Nat.pos_of_ne_zero hz]

theorem stuck_insert : ∀ (fuel : Nat) (t : hash_table), Stuck t →
    ht_he_insert stuck_env fuel t ⟨[2], 1, [20], 1⟩ = none := by
  intro fuel
  induction fuel with
  | zero => intro t _; rfl
  | succ fuel ih =>
    intro t h
    show ht_he_insert_body stuck_env (ht_resize_body (ht_he_insert stuck_env fuel)) t
      ⟨[2], 1, [20], 1⟩ = none
    obtain ⟨h1, h2, h3, h4, h5, h6, h7⟩ := h
    unfold ht_he_insert_body
    by_cases hz : t.array_size = 0
    · have : ht_index_ui stuck_env t [2] 1 = none := by
        unfold ht_index_ui
        simp [h1, hz]
      rw [this]
    · rw [stuck_index t ⟨h1, h2, h3, h4, h5, h6, h7⟩ hz]
      simp only
      rw [h7]
      have hm : ¬ memcmp [1] [2] 1 = 0 := by decide
      have hchain : he_insert_chain t.flags ⟨[2], 1, [20], 1⟩ ⟨[1], 1, [10], 1⟩ []
          = ([⟨[1], 1, [10], 1⟩, ⟨[2], 1, [20], 1⟩], true) := by
        simp [he_insert_chain, he_key_compare_i, hm]
      simp only [hchain]
      have hpos : (0 : ℚ) < (t.array_size : ℚ) := by
        exact_mod_cast Nat.pos_of_ne_zero hz
      have hlt : (t.array_size : ℚ) < 8589934592 := by
        have : t.array_size < 8589934592 := by
          simp only [UINT_RANGE] at h4
          omega
        exact_mod_cast this
      have hfire : (ht_he_insert_linked stuck_env t 0
            [⟨[1], 1, [10], 1⟩, ⟨[2], 1, [20], 1⟩]).flags &&& HT_NO_AUTORESIZE = 0 ∧
          (ht_he_insert_linked stuck_env t 0
            [⟨[1], 1, [10], 1⟩, ⟨[2], 1, [20], 1⟩]).current_load_factor
            > (ht_he_insert_linked stuck_env t 0
              [⟨[1], 1, [10], 1⟩, ⟨[2], 1, [20], 1⟩]).max_load_factor := by
        constructor
        · show t.flags &&& HT_NO_AUTORESIZE = 0
          rw [h2]
          rfl
        · show stuck_env.round_double (((t.collisions + 1) % UINT_RANGE : Nat) / (t.array_size : ℚ))
            > t.max_load_factor
          rw [h3, h5]
          show (1 : ℚ) / 8589934592 < (((0 + 1) % UINT_RANGE : Nat) : ℚ) / (t.array_size : ℚ)
          have : ((0 + 1) % UINT_RANGE : Nat) = 1 := by decide
          rw [this]
          rw [div_lt_div_iff₀ (by norm_num) hpos]
          push_cast
          linarith
      rw [if_neg (by simp), if_pos hfire]
      have hres : ht_resize_body (ht_he_insert stuck_env fuel)
          (ht_he_insert_linked stuck_env t 0 [⟨[1], 1, [10], 1⟩, ⟨[2], 1, [20], 1⟩])
          ((ht_he_insert_linked stuck_env t 0
            [⟨[1], 1, [10], 1⟩, ⟨[2], 1, [20], 1⟩]).array_size * 2 % UINT_RANGE) = none := by
        unfold ht_resize_body
        rw [foldlM_chains _ _ (List.range _)]
        obtain ⟨n, hn⟩ := Nat.exists_eq_succ_of_ne_zero hz
        have harr : (ht_he_insert_linked stuck_env t 0
            [⟨[1], 1, [10], 1⟩, ⟨[2], 1, [20], 1⟩]).array_size = n + 1 := hn
        have hget : (ht_he_insert_linked stuck_env t 0
            [⟨[1], 1, [10], 1⟩, ⟨[2], 1, [20], 1⟩]).pparray.getD 0 []
            = [⟨[1], 1, [10], 1⟩, ⟨[2], 1, [20], 1⟩] := by
          show (t.pparray.set 0 _).getD 0 [] = _
          rw [getD_set_chain]
          simp [h6, Nat.pos_of_ne_zero hz]
        rw [harr, List.range_succ_eq_map, List.map_cons, List.flatten_cons, hget]
        simp only [List.cons_append, List.nil_append, List.foldlM_cons]
        cases h1st : ht_he_insert stuck_env fuel
            (ht_resize_new_table
              (ht_he_insert_linked stuck_env t 0 [⟨[1], 1, [10], 1⟩, ⟨[2], 1, [20], 1⟩])
              ((n + 1) * 2 % UINT_RANGE)) ⟨[1], 1, [10], 1⟩ with
        | none => rfl
        | some nt =>
          have hst : Stuck nt := stuck_first fuel _ nt _ h1 h2 h3
            (Nat.mod_lt _ (by decide)) h1st
          simp only [Option.bind_eq_bind, Option.some_bind]
          rw [ih nt hst]
          rfl
      rw [hres]

/-! ## Insertions and resizes that return -/

theorem linked_wf (E : Env) (t : hash_table) (e : hash_entry) (index : Nat) (p : hash_entry)
    (rest : List hash_entry) (hwf : WF E t) (he : wf_entry e)
    (hix : ht_index_ui E t e.pkey e.pkey.length = some index)
    (hb : t.pparray.getD index [] = p :: rest)
    (hr : (he_insert_chain t.flags e p rest).2 = true) :
    WF E (ht_he_insert_linked E t index (he_insert_chain t.flags e p rest).1) ∧
    total (ht_he_insert_linked E t index (he_insert_chain t.flags e p rest).1)
      = total t + 1 := by
  have hp : ∀ x ∈ p :: rest, wf_entry x := by
    intro x hx
    exact hwf.entries index x (by rw [hb]; exact hx)
  obtain ⟨i1, i2, i3, i4⟩ := he_insert_chain_spec t.flags e he rest p hp
  have key := insert_update E t
    (ht_he_insert_linked E t index (he_insert_chain t.flags e p rest).1)
    e index (he_insert_chain t.flags e p rest).1 true hwf hix
    rfl rfl rfl i3 (by rw [hb, i2, hr]) (by rw [hb, ← i1, hr])
    (by intro k; rw [hb]; exact i4 k) rfl
  refine ⟨key.1, ?_⟩
  rw [key.2.2.2]
  have : lookup E t e.pkey = none := by
    simp only [lookup, hix, hb, Option.map_eq_none', cfind_eq_none_iff]
    exact i1.1 hr
  rw [if_pos this]

theorem key_count_le_total (E : Env) (t : hash_table) (hwf : WF E t) :
    t.key_count ≤ total t := by
  rw [hwf.count]
  exact Nat.mod_le _ _

theorem term_body (E : Env) (mlf : ℚ) (G B : Nat) (hG : G < UINT_RANGE)
    (hB : (B : ℚ) ≤ mlf * (G : ℚ)) (hBR : B < UINT_RANGE) (hround : ∀ q : ℚ, q ≤ mlf → E.round_double q ≤ mlf)
    (resize : hash_table → Nat → Option hash_table) (i : Nat)
    (hres : ∀ i0, i = i0 + 1 → ∀ t1 n, WF E t1 → t1.phashfunc_x86_32 ≠ none →
      t1.max_load_factor = mlf → total t1 ≤ B → n * 2 ^ i0 = G → n ≠ 0 →
      ∃ t2 i', i' ≤ i0 ∧ resize t1 n = some t2 ∧ t2.collisions ≤ t2.key_count ∧
        t2.array_size * 2 ^ i' = G)
    (t : hash_table) (e : hash_entry) (hpre : TermPre E mlf G t i) (he : wf_entry e)
    (htot : total t + 1 ≤ B) :
    ∃ t' i', i' ≤ i ∧ ht_he_insert_body E resize t e = some t' ∧
      t'.collisions ≤ t'.key_count ∧ t'.array_size * 2 ^ i' = G := by
  obtain ⟨hwf, hus, hck, hmlf, hcap⟩ := hpre
  obtain ⟨index, hix⟩ := usable_index E t hus e.pkey e.key_size
  have hix' : ht_index_ui E t e.pkey e.pkey.length = some index := by
    rw [← he.1]; exact hix
  have hkc : t.key_count + 1 < UINT_RANGE := by
    have := key_count_le_total E t hwf
    omega
  have hkc' : (t.key_count + 1) % UINT_RANGE = t.key_count + 1 := Nat.mod_eq_of_lt hkc
  have hc' : (t.collisions + 1) % UINT_RANGE = t.collisions + 1 :=
    Nat.mod_eq_of_lt (by omega)
  unfold ht_he_insert_body
  rw [hix]
  simp only
  cases hb : t.pparray.getD index [] with
  | nil =>
    refine ⟨_, i, le_refl _, rfl, ?_, hcap⟩
    show t.collisions ≤ (t.key_count + 1) % UINT_RANGE
    rw [hkc']
    omega
  | cons p rest =>
    simp only
    by_cases hl : (he_insert_chain t.flags e p rest).2 = false
    · rw [if_pos hl]
      exact ⟨_, i, le_refl _, rfl, hck, hcap⟩
    · rw [if_neg hl]
      have hl2 : (he_insert_chain t.flags e p rest).2 = true := by simpa using hl
      have hclf : (ht_he_insert_linked E t index (he_insert_chain t.flags e p rest).1).current_load_factor
          = E.round_double (((t.collisions + 1) % UINT_RANGE : Nat) / (t.array_size : ℚ)) := rfl
      have hfl : (ht_he_insert_linked E t index (he_insert_chain t.flags e p rest).1).flags
          = t.flags := rfl
      have hmlf1 : (ht_he_insert_linked E t index (he_insert_chain t.flags e p rest).1).max_load_factor
          = t.max_load_factor := rfl
      have hsz : (ht_he_insert_linked E t index (he_insert_chain t.flags e p rest).1).array_size
          = t.array_size := rfl
      have hI : (ht_he_insert_linked E t index (he_insert_chain t.flags e p rest).1).collisions
          ≤ (ht_he_insert_linked E t index (he_insert_chain t.flags e p rest).1).key_count := by
        show (t.collisions + 1) % UINT_RANGE ≤ (t.key_count + 1) % UINT_RANGE
        rw [hkc', hc']
        omega
      rw [hclf, hfl, hmlf1, hsz]
      by_cases hc : t.flags &&& HT_NO_AUTORESIZE = 0 ∧
          E.round_double (((t.collisions + 1) % UINT_RANGE : Nat) / (t.array_size : ℚ))
            > t.max_load_factor
      · rw [if_pos hc]
        cases i with
        | zero =>
          exfalso
          have hG : t.array_size = G := by simpa using hcap
          have hpos : (0 : ℚ) < (t.array_size : ℚ) := by
            exact_mod_cast Nat.pos_of_ne_zero hus.2
          have hle : (((t.collisions + 1) % UINT_RANGE : Nat) : ℚ) / (t.array_size : ℚ) ≤ mlf := by
            rw [div_le_iff₀ hpos, hG]
            have h1 : (((t.collisions + 1) % UINT_RANGE : Nat) : ℚ) ≤ (B : ℚ) := by
              have : (t.collisions + 1) % UINT_RANGE ≤ B := by
                rw [hc']
                have := key_count_le_total E t hwf
                omega
              exact_mod_cast this
            linarith
          have := hround _ hle
          rw [hmlf] at hc
          exact absurd hc.2 (not_lt.2 this)
        | succ i0 =>
          obtain ⟨hwf1, htot1⟩ := linked_wf E t e index p rest hwf he hix' hb hl2
          have h2n : t.array_size * 2 < UINT_RANGE := by
            have h1 : t.array_size * 2 ≤ t.array_size * 2 ^ (i0 + 1) := by
              apply Nat.mul_le_mul_left
              calc 2 = 2 ^ 1 := rfl
                _ ≤ 2 ^ (i0 + 1) := Nat.pow_le_pow_right (by decide) (by omega)
            omega
          have hmod : t.array_size * 2 % UINT_RANGE = t.array_size * 2 := Nat.mod_eq_of_lt h2n
          rw [hmod]
          obtain ⟨t2, i', hi', hrs, hI2, hcap2⟩ := hres i0 rfl
            (ht_he_insert_linked E t index (he_insert_chain t.flags e p rest).1)
            (t.array_size * 2) hwf1 hus.1 hmlf (by rw [htot1]; exact htot)
            (by rw [← hcap, pow_succ]; ring) (by have := hus.2; omega)
          rw [hrs]
          exact ⟨_, i', by omega, rfl, hI2, hcap2⟩
      · rw [if_neg hc]
        exact ⟨_, i, le_refl _, rfl, hI, hcap⟩

theorem term_fold (E : Env) (mlf : ℚ) (G B : Nat)
    (ins : hash_table → hash_entry → Option hash_table) (i : Nat)
    (hins : ∀ nt e i', i' ≤ i → TermPre E mlf G nt i' → wf_entry e → total nt + 1 ≤ B →
      ∃ nt' i'', i'' ≤ i' ∧ ins nt e = some nt' ∧ TermPre E mlf G nt' i'' ∧
        total nt' ≤ total nt + 1) :
    ∀ (L : List hash_entry) (nt : hash_table) (i' : Nat), i' ≤ i → TermPre E mlf G nt i' →
      (∀ e ∈ L, wf_entry e) → total nt + L.length ≤ B →
      ∃ nt' i'', i'' ≤ i' ∧ L.foldlM ins nt = some nt' ∧ TermPre E mlf G nt' i'' := by
  intro L
  induction L with
  | nil =>
    intro nt i' _ hpre _ _
    exact ⟨nt, i', le_refl _, rfl, hpre⟩
  | cons x xs ih =>
    intro nt i' hi' hpre hL htot
    simp only [List.length_cons] at htot
    obtain ⟨nt1, i1, hi1, h1, hpre1, htot1⟩ :=
      hins nt x i' hi' hpre (hL x (List.mem_cons_self _ _)) (by omega)
    obtain ⟨nt2, i2, hi2, h2, hpre2⟩ := ih nt1 i1 (by omega) hpre1
      (fun e he => hL e (List.mem_cons_of_mem _ he)) (by omega)
    refine ⟨nt2, i2, by omega, ?_, hpre2⟩
    rw [List.foldlM_cons, h1]
    exact h2

theorem term_resize (E : Env) (mlf : ℚ) (G B : Nat)
    (ins : hash_table → hash_entry → Option hash_table) (i : Nat)
    (hins : ∀ nt e i', i' ≤ i → TermPre E mlf G nt i' → wf_entry e → total nt + 1 ≤ B →
      ∃ nt' i'', i'' ≤ i' ∧ ins nt e = some nt' ∧ TermPre E mlf G nt' i'' ∧
        total nt' ≤ total nt + 1)
    (t : hash_table) (n : Nat) (hwf : WF E t) (hf : t.phashfunc_x86_32 ≠ none)
    (hmlf : t.max_load_factor = mlf) (htot : total t ≤ B) (hcap : n * 2 ^ i = G)
    (hn : n ≠ 0) :
    ∃ t' i', i' ≤ i ∧ ht_resize_body ins t n = some t' ∧ t'.collisions ≤ t'.key_count ∧
      t'.array_size * 2 ^ i' = G := by
  unfold ht_resize_body
  rw [foldlM_chains ins (fun i => t.pparray.getD i []) (List.range t.array_size)]
  have hch : (List.range t.array_size).map (fun i => t.pparray.getD i []) = t.pparray :=
    chains_eq t hwf.size
  rw [hch]
  have hget : ∀ j, (ht_resize_new_table t n).pparray.getD j [] = [] :=
    fun j => getD_replicate_nil n j
  have hsz : (ht_resize_new_table t n).pparray.length = (ht_resize_new_table t n).array_size := by
    simp [ht_resize_new_table]
  have hpre0 : TermPre E mlf G (ht_resize_new_table t n) i :=
    ⟨WF_empty E _ hsz hget rfl, ⟨hf, hn⟩, le_refl _, hmlf, hcap⟩
  obtain ⟨nt, i', hi', hfold, hpre⟩ := term_fold E mlf G B ins i hins t.pparray.flatten
    (ht_resize_new_table t n) i (le_refl _) hpre0 hwf.entries_flatten
    (by rw [total_empty _ hsz hget, ← hwf.total_flatten]; omega)
  rw [hfold]
  exact ⟨_, i', hi', rfl, hpre.2.2.1, hpre.2.2.2.2⟩

theorem term_ins (E : Env) (mlf : ℚ) (G B : Nat) (hG : G < UINT_RANGE)
    (hB : (B : ℚ) ≤ mlf * (G : ℚ)) (hBR : B < UINT_RANGE)
    (hround : ∀ q : ℚ, q ≤ mlf → E.round_double q ≤ mlf) :
    ∀ (f : Nat) (t : hash_table) (e : hash_entry) (i : Nat), i ≤ f → TermPre E mlf G t i →
      wf_entry e → total t + 1 ≤ B →
      ∃ t' i', i' ≤ i ∧ ht_he_insert E (f + 1) t e = some t' ∧ TermPre E mlf G t' i' ∧
        total t' ≤ total t + 1 := by
  intro f
  induction f with
  | zero =>
    intro t e i hi hpre he htot
    obtain ⟨t', i', hi', h, hI, hcap⟩ := term_body E mlf G B hG hB hBR hround
      (ht_resize_body (ht_he_insert E 0)) i (fun i0 h0 => by omega) t e hpre he htot
    have h' : ht_he_insert E (0 + 1) t e = some t' := h
    obtain ⟨s1, s2, s3, _, s5⟩ := ins_spec E (0 + 1) t e t' hpre.1 he h'
    refine ⟨t', i', hi', h', ⟨s1, s3, hI, by rw [s2.2.1]; exact hpre.2.2.2.1, hcap⟩, ?_⟩
    rw [s5]
    split <;> omega
  | succ f ih =>
    intro t e i hi hpre he htot
    obtain ⟨t', i', hi', h, hI, hcap⟩ := term_body E mlf G B hG hB hBR hround
      (ht_resize_body (ht_he_insert E (f + 1))) i
      (fun i0 h0 t1 n hwf1 hf1 hmlf1 htot1 hcap1 hn1 =>
        term_resize E mlf G B (ht_he_insert E (f + 1)) i0
          (fun nt e2 i2 hi2 hpre2 he2 htot2 => ih nt e2 i2 (by omega) hpre2 he2 htot2)
          t1 n hwf1 hf1 hmlf1 htot1 hcap1 hn1)
      t e hpre he htot
    have h' : ht_he_insert E (f + 1 + 1) t e = some t' := h
    obtain ⟨s1, s2, s3, _, s5⟩ := ins_spec E (f + 1 + 1) t e t' hpre.1 he h'
    refine ⟨t', i', hi', h', ⟨s1, s3, hI, by rw [s2.2.1]; exact hpre.2.2.2.1, hcap⟩, ?_⟩
    rw [s5]
    split <;> omega

theorem le_of_mul_pow_eq (a i G : Nat) (h : a * 2 ^ i = G) (hG : 0 < G) : 1 ≤ a ∧ a ≤ G := by
  have hp : 0 < 2 ^ i := Nat.pow_pos (by decide)
  constructor
  · rcases Nat.eq_zero_or_pos a with h0 | h0
    · rw [h0] at h
      omega
    · exact h0
  · rw [← h]
    exact Nat.le_mul_of_pos_right a hp

theorem memcmp_single_ne (x y : Nat) (h : x ≠ y) : ¬ memcmp [x] [y] 1 = 0 := by
  rw [memcmp_eq_zero_iff_take]
  simpa using h

theorem memcmp_single_self (x : Nat) : memcmp [x] [x] 1 = 0 := by
  rw [memcmp_eq_zero_iff_take]

theorem one_bucket_append (E : Env) (g : HashFunc) (g2 g3 : Option HashFunc) (mlf clf : ℚ)
    (c x y u v : Nat) (hxy : x ≠ y) :
    ht_insert E 1 (one_bucket g g2 g3 mlf clf 1 c [⟨[x], 1, [u], 1⟩]) [y] [y].length [v]
        [v].length
      = some (one_bucket g g2 g3 mlf
          (E.round_double (((c + 1) % UINT_RANGE : Nat) / ((1 : Nat) : ℚ)))
          2 ((c + 1) % UINT_RANGE) [⟨[x], 1, [u], 1⟩, ⟨[y], 1, [v], 1⟩]) := by
  unfold ht_insert ht_he_insert ht_he_insert_body
  rw [index_one E _ g rfl rfl]
  simp only [one_bucket, List.getD_cons_zero, List.set_cons_zero, he_create_p, HT_KEY_CONST,
    HT_VALUE_CONST, HT_NO_AUTORESIZE, UINT_RANGE, he_insert_chain, he_key_compare_i,
    ht_he_insert_linked, List.length_singleton]
  have hm := memcmp_single_ne x y hxy
  simp [hm]

theorem one_bucket_remove_first (E : Env) (g : HashFunc) (g2 g3 : Option HashFunc)
    (mlf clf : ℚ) (c x y u v : Nat) :
    ht_remove E (one_bucket g g2 g3 mlf clf 2 c [⟨[x], 1, [u], 1⟩, ⟨[y], 1, [v], 1⟩]) [x]
        [x].length
      = some (one_bucket g g2 g3 mlf clf 1 c [⟨[y], 1, [v], 1⟩]) := by
  unfold ht_remove
  rw [index_one E _ g rfl rfl]
  simp only [one_bucket, List.getD_cons_zero, List.set_cons_zero, ht_remove_walk, tmp_entry,
    he_key_compare_i, UINT_RANGE, List.length_singleton]
  have hm := memcmp_single_self x
  simp [hm]

theorem one_bucket_remove_last (E : Env) (g : HashFunc) (g2 g3 : Option HashFunc)
    (mlf clf : ℚ) (c x y u v : Nat) (hxy : x ≠ y) :
    ht_remove E (one_bucket g g2 g3 mlf clf 2 c [⟨[x], 1, [u], 1⟩, ⟨[y], 1, [v], 1⟩]) [y]
        [y].length
      = some (one_bucket g g2 g3 mlf clf 1 ((c + UINT_RANGE - 1) % UINT_RANGE)
          [⟨[x], 1, [u], 1⟩]) := by
  unfold ht_remove
  rw [index_one E _ g rfl rfl]
  simp only [one_bucket, List.getD_cons_zero, List.set_cons_zero, ht_remove_walk, tmp_entry,
    he_key_compare_i, List.length_singleton]
  have hm := memcmp_single_ne x y hxy
  have hm2 := memcmp_single_self y
  simp [hm, hm2]
  decide

/-- One insertion of a second key into the bucket followed by the removal of
the chain head leaves a one-entry chain and `collisions` one higher. -/
theorem churn_step (E : Env) (g : HashFunc) (g2 g3 : Option HashFunc) (mlf clf : ℚ)
    (c x y u v : Nat) (hxy : x ≠ y)
    (h : Reachable E (one_bucket g g2 g3 mlf clf 1 c [⟨[x], 1, [u], 1⟩])) :
    ∃ clf', Reachable E
      (one_bucket g g2 g3 mlf clf' 1 ((c + 1) % UINT_RANGE) [⟨[y], 1, [v], 1⟩]) :=
  ⟨_, Reachable.remove [x]
    (Reachable.insert 1 [y] [v] h (one_bucket_append E g g2 g3 mlf clf c x y u v hxy))
    (one_bucket_remove_first E g g2 g3 mlf _ _ x y u v)⟩

theorem churn (E : Env) (g : HashFunc) (g2 g3 : Option HashFunc) (mlf clf0 : ℚ)
    (h0 : Reachable E (one_bucket g g2 g3 mlf clf0 1 0 [⟨[1], 1, [10], 1⟩])) :
    ∀ m : Nat, ∃ clf x y u, x ≠ y ∧
      Reachable E (one_bucket g g2 g3 mlf clf 1 (m % UINT_RANGE) [⟨[x], 1, [u], 1⟩]) := by
  intro m
  induction m with
  | zero => exact ⟨clf0, 1, 2, 10, by decide, h0⟩
  | succ m ih =>
    obtain ⟨clf, x, y, u, hxy, hr⟩ := ih
    obtain ⟨clf', hr'⟩ := churn_step E g g2 g3 mlf clf (m % UINT_RANGE) x y u 0 hxy hr
    refine ⟨clf', y, x, 0, fun h => hxy h.symm, ?_⟩
    have : (m % UINT_RANGE + 1) % UINT_RANGE = (m + 1) % UINT_RANGE := by
      simp [Nat.add_mod]
    rw [← this]
    exact hr'

/-! ## The count of collisions through insertions, resizes and removals -/

theorem sum_map_set (f : List hash_entry → Nat) (l : List (List hash_entry)) (j : Nat)
    (c : List hash_entry) (hj : j < l.length) :
    ((l.set j c).map f).sum + f (l.getD j []) = (l.map f).sum + f c := by
  induction l generalizing j with
  | nil => simp at hj
  | cons a l ih =>
    cases j with
    | zero => simp; omega
    | succ j =>
      have := ih j (by simpa using hj)
      simp only [List.set_cons_succ, List.map_cons, List.sum_cons, List.getD_cons_succ]
      omega

theorem non_head_eq (t : hash_table) (h : t.pparray.length = t.array_size) :
    non_head t = (t.pparray.map (fun c => c.length - 1)).sum := by
  unfold non_head
  rw [chains_eq t h]

theorem non_head_update (t t' : hash_table) (index : Nat) (c : List hash_entry)
    (hs : t.pparray.length = t.array_size) (hi : index < t.array_size)
    (hp : t'.pparray = t.pparray.set index c) (hn : t'.array_size = t.array_size) :
    non_head t' + ((t.pparray.getD index []).length - 1) = non_head t + (c.length - 1) := by
  have hs' : t'.pparray.length = t'.array_size := by rw [hp, hn, List.length_set, hs]
  rw [non_head_eq t hs, non_head_eq t' hs', hp]
  exact sum_map_set (fun c => c.length - 1) _ _ _ (by rw [hs]; exact hi)

theorem non_head_congr (t t' : hash_table)
    (hp : t'.pparray = t.pparray) (hn : t'.array_size = t.array_size) :
    non_head t' = non_head t := by
  unfold non_head chains
  rw [hp, hn]

theorem non_head_le_total (t : hash_table) : non_head t ≤ total t := by
  unfold non_head total
  generalize chains t = l
  induction l with
  | nil => simp
  | cons a l ih =>
    simp only [List.map_cons, List.sum_cons]
    omega

theorem he_insert_chain_length (flags : Nat) (e : hash_entry) :
    ∀ (rest : List hash_entry) (p : hash_entry),
      (he_insert_chain flags e p rest).1.length
        = (p :: rest).length + (if (he_insert_chain flags e p rest).2 then 1 else 0) := by
  intro rest
  induction rest with
  | nil =>
    intro p
    by_cases h : he_key_compare_i p e ≠ 0
    · rw [he_insert_chain_nil_pos flags e p h]
      simp
    · rw [he_insert_chain_nil_neg flags e p h]
      simp
  | cons q rest ih =>
    intro p
    by_cases h : he_key_compare_i p e ≠ 0
    · rw [he_insert_chain_cons_pos flags e p q rest h]
      simp
    · rw [he_insert_chain_cons_neg flags e p q rest h]
      simp only [List.length_cons]
      rw [ih q]
      simp only [List.length_cons]
      omega

theorem body_exact (E : Env) (resize : hash_table → Nat → Option hash_table)
    (hres : ResExact E resize) : InsExact E (ht_he_insert_body E resize) := by
  intro t e t' hwf he h
  unfold ht_he_insert_body at h
  cases hix : ht_index_ui E t e.pkey e.key_size with
  | none => rw [hix] at h; simp at h
  | some index =>
    have hi : index < t.array_size := ht_index_ui_lt E t _ _ _ hix
    have hix' : ht_index_ui E t e.pkey e.pkey.length = some index := by
      rw [← he.1]; exact hix
    rw [hix] at h
    simp only at h
    cases hb : t.pparray.getD index [] with
    | nil =>
      rw [hb] at h
      simp only [Option.some.injEq] at h
      subst h
      right; left
      refine ⟨rfl, rfl, ?_⟩
      have := non_head_update t
        { t with pparray := t.pparray.set index [e]
                 key_count := (t.key_count + 1) % UINT_RANGE } index [e] hwf.size hi rfl rfl
      rw [hb] at this
      simpa using this
    | cons p rest =>
      rw [hb] at h
      simp only at h
      have hlen := he_insert_chain_length t.flags e rest p
      by_cases hl : (he_insert_chain t.flags e p rest).2 = false
      · rw [if_pos hl] at h
        simp only [Option.some.injEq] at h
        subst h
        right; left
        refine ⟨rfl, rfl, ?_⟩
        have := non_head_update t
          { t with pparray := t.pparray.set index (he_insert_chain t.flags e p rest).1 }
          index (he_insert_chain t.flags e p rest).1 hwf.size hi rfl rfl
        rw [hb, hlen, hl] at this
        simp only [Bool.false_eq_true, if_false, Nat.add_zero] at this
        omega
      · rw [if_neg hl] at h
        have hl2 : (he_insert_chain t.flags e p rest).2 = true := by simpa using hl
        have hnh : non_head (ht_he_insert_linked E t index (he_insert_chain t.flags e p rest).1)
            = non_head t + 1 := by
          have := non_head_update t
            (ht_he_insert_linked E t index (he_insert_chain t.flags e p rest).1)
            index (he_insert_chain t.flags e p rest).1 hwf.size hi rfl rfl
          rw [hb, hlen, hl2] at this
          simp only [if_true, List.length_cons] at this
          omega
        split at h
        · cases hrs : resize (ht_he_insert_linked E t index (he_insert_chain t.flags e p rest).1)
              ((ht_he_insert_linked E t index (he_insert_chain t.flags e p rest).1).array_size * 2
                % UINT_RANGE) with
          | none => rw [hrs] at h; simp at h
          | some t2 =>
            rw [hrs] at h
            simp only [Option.some.injEq] at h
            subst h
            left
            have h2 := hres _ _ t2 (linked_wf E t e index p rest hwf he hix' hb hl2).1 hrs
            show t2.collisions = _
            rw [h2]
            congr 1
        · simp only [Option.some.injEq] at h
          subst h
          right; right
          exact ⟨rfl, rfl, hnh⟩

theorem counted_exact (t t' : hash_table) (h : counted t t')
    (hex : t.collisions = non_head t % UINT_RANGE) :
    t'.collisions = non_head t' % UINT_RANGE := by
  rcases h with h | ⟨_, h2, h3⟩ | ⟨_, h2, h3⟩
  · exact h
  · rw [h2, h3, hex]
  · rw [h2, h3, hex]
    simp [Nat.add_mod]

theorem fold_exact (E : Env) (ins : hash_table → hash_entry → Option hash_table)
    (hs : InsSpec E ins) (hi : InsExact E ins) :
    ∀ (L : List hash_entry) (nt nt' : hash_table), WF E nt → (∀ e ∈ L, wf_entry e) →
      nt.collisions = non_head nt % UINT_RANGE → L.foldlM ins nt = some nt' →
      nt'.collisions = non_head nt' % UINT_RANGE := by
  intro L
  induction L with
  | nil =>
    intro nt nt' _ _ hex h
    simp only [List.foldlM, Option.pure_def, Option.some.injEq] at h
    subst h
    exact hex
  | cons x xs ih =>
    intro nt nt' hwf hL hex h
    simp only [List.foldlM, Option.bind_eq_bind] at h
    cases h1 : ins nt x with
    | none => rw [h1] at h; simp at h
    | some nt1 =>
      rw [h1] at h
      simp only [Option.some_bind] at h
      have hx := hL x (List.mem_cons_self _ _)
      exact ih nt1 nt' (hs _ _ _ hwf hx h1).1 (fun e he => hL e (List.mem_cons_of_mem _ he))
        (counted_exact nt nt1 (hi _ _ _ hwf hx h1) hex) h

theorem non_head_empty (t : hash_table) (hs : t.pparray.length = t.array_size)
    (h : ∀ i, t.pparray.getD i [] = []) : non_head t = 0 := by
  have := non_head_le_total t
  rw [total_empty t hs h] at this
  omega

theorem resize_exact (E : Env) (ins : hash_table → hash_entry → Option hash_table)
    (hs : InsSpec E ins) (hi : InsExact E ins) : ResExact E (ht_resize_body ins) := by
  intro t n t' hwf h
  unfold ht_resize_body at h
  rw [foldlM_chains ins (fun i => t.pparray.getD i []) (List.range t.array_size)] at h
  have hch : (List.range t.array_size).map (fun i => t.pparray.getD i []) = t.pparray :=
    chains_eq t hwf.size
  rw [hch] at h
  have hget : ∀ i, (ht_resize_new_table t n).pparray.getD i [] = [] :=
    fun i => getD_replicate_nil n i
  have hsz : (ht_resize_new_table t n).pparray.length = (ht_resize_new_table t n).array_size := by
    simp [ht_resize_new_table]
  cases hfold : t.pparray.flatten.foldlM ins (ht_resize_new_table t n) with
  | none => rw [hfold] at h; simp at h
  | some nt =>
    rw [hfold] at h
    simp only [Option.some.injEq] at h
    subst h
    have := fold_exact E ins hs hi _ _ nt (WF_empty E _ hsz hget rfl) hwf.entries_flatten
      (by rw [non_head_empty _ hsz hget]; rfl) hfold
    show nt.collisions = _
    rw [this]
    congr 1

theorem ins_exact (E : Env) : ∀ fuel, InsExact E (ht_he_insert E fuel) := by
  intro fuel
  induction fuel with
  | zero =>
    intro t e t' _ _ h
    simp [ht_he_insert] at h
  | succ fuel ih =>
    show InsExact E (ht_he_insert_body E (ht_resize_body (ht_he_insert E fuel)))
    exact body_exact E _ (resize_exact E _ (ins_spec E fuel) ih)

theorem ht_resize_exact (E : Env) (fuel : Nat) : ResExact E (ht_resize E fuel) :=
  resize_exact E _ (ins_spec E fuel) (ins_exact E fuel)

/-- What `ht_remove` does to the capacity, to `collisions` and to the number
of entries that are not chain heads. -/
theorem remove_counted (E : Env) (t t' : hash_table) (k : List Nat) (n : Nat)
    (hwf : WF E t) (h : ht_remove E t k n = some t') :
    t'.array_size = t.array_size ∧
    ((t'.collisions = t.collisions ∧ non_head t' ≤ non_head t) ∨
     (t'.collisions = (t.collisions + UINT_RANGE - 1) % UINT_RANGE ∧
       non_head t' + 1 = non_head t)) := by
  unfold ht_remove at h
  cases hix : ht_index_ui E t k n with
  | none => rw [hix] at h; simp at h
  | some index =>
    have hi : index < t.array_size := ht_index_ui_lt E t _ _ _ hix
    rw [hix] at h
    simp only at h
    cases hc : ht_contains_walk (tmp_entry k n) (t.pparray.getD index []) with
    | zero =>
      rw [remove_walk_none_of_contains_zero _ _ false hc] at h
      simp only [Option.some.injEq] at h
      subst h
      exact ⟨rfl, Or.inl ⟨rfl, le_refl _⟩⟩
    | succ m =>
      have hc1 : ht_contains_walk (tmp_entry k n) (t.pparray.getD index []) = 1 := by
        rw [contains_walk_eq_get_walk] at hc ⊢
        by_cases hg : (ht_get_walk (tmp_entry k n) (t.pparray.getD index [])).isSome = true
        · rw [if_pos hg]
        · rw [if_neg hg] at hc
          omega
      obtain ⟨pre, e, post, h1, _, _, h4⟩ := remove_walk_split (tmp_entry k n) _ false hc1
      rw [h4] at h
      simp only [Option.some.injEq] at h
      subst h
      refine ⟨rfl, ?_⟩
      have hnh := non_head_update t
        { t with
          pparray := t.pparray.set index (pre ++ post)
          key_count := (t.key_count + UINT_RANGE - 1) % UINT_RANGE
          collisions := if (false || !pre.isEmpty) then
            (t.collisions + UINT_RANGE - 1) % UINT_RANGE else t.collisions }
        index (pre ++ post) hwf.size hi rfl rfl
      rw [h1] at hnh
      simp only [List.length_append, List.length_cons] at hnh
      cases pre with
      | nil =>
        left
        refine ⟨by simp, ?_⟩
        simp only [List.length_nil] at hnh
        omega
      | cons x xs =>
        right
        refine ⟨by simp, ?_⟩
        simp only [List.length_cons] at hnh
        omega

/-! ## Tables with fewer than 2^32 entries -/

theorem ReachableSmall.reachable {E : Env} {t : hash_table} (h : ReachableSmall E t) :
    Reachable E t := by
  induction h with
  | init flags mlf f32 f128 f64 => exact Reachable.init flags mlf f32 f128 f64
  | insert fuel k v _ hins _ ih => exact Reachable.insert fuel k v ih hins
  | he_insert fuel e _ he hins _ ih => exact Reachable.he_insert fuel e ih he hins
  | remove k _ hrem ih => exact Reachable.remove k ih hrem
  | resize fuel n _ hres ih => exact Reachable.resize fuel n ih hres
  | clear _ ih => exact Reachable.clear ih

theorem ReachableSmall.total_lt {E : Env} {t : hash_table} (h : ReachableSmall E t) :
    total t < UINT_RANGE := by
  induction h with
  | init flags mlf f32 f128 f64 =>
    rw [total_empty _ (by simp [ht_init]) (fun i => getD_replicate_nil _ i)]
    decide
  | insert fuel k v _ _ hlt _ => exact hlt
  | he_insert fuel e _ _ _ hlt _ => exact hlt
  | remove k ht hrem ih =>
    have := (remove_spec E _ _ k ht.reachable.wf hrem).2.2.2.2
    omega
  | resize fuel n ht hres ih =>
    rw [(ht_resize_spec E fuel _ n _ ht.reachable.wf hres).2.2.2.1]
    exact ih
  | @clear t _ _ =>
    rw [total_empty _ (by simp [ht_clear, ht_init]) (fun i => clear_getD E t i)]
    decide

theorem demo_reachable_small2 : ReachableSmall demo_env demo_t2 :=
  ReachableSmall.insert 2 [64] [8]
    (ReachableSmall.insert 1 [0] [7] (ReachableSmall.init 0 (1 / 100) none none none)
      demo_insert1 (by decide!))
    demo_insert2 (by decide!)

/-! ## Bulk insertion: when it returns and what it leaves -/

theorem stuck_murmur_insert_eq : ∀ (fuel : Nat),
    ht_he_insert stuck_murmur_env fuel = ht_he_insert stuck_env fuel := by
  intro fuel
  induction fuel with
  | zero => rfl
  | succ fuel ih =>
    show ht_he_insert_body stuck_murmur_env (ht_resize_body (ht_he_insert stuck_murmur_env fuel))
      = ht_he_insert_body stuck_env (ht_resize_body (ht_he_insert stuck_env fuel))
    rw [ih]
    rfl

/-- Two keys with the same digest, inserted into an empty table of the shape
`ht_resize` builds, with autoresize enabled and threshold 2^-33: no recursion
depth makes the second insertion return. -/
theorem stuck_pair_none (fuel : Nat) (t : hash_table) (m : Nat)
    (h1 : t.phashfunc_x86_32 = some stuck_digest) (h2 : t.flags = 0)
    (h3 : t.max_load_factor = 1 / 8589934592) (hm : m < UINT_RANGE) :
    (stuck_pairs.map pair_entry).foldlM (ht_he_insert stuck_env fuel)
      (ht_resize_new_table t m) = none := by
  show ([⟨[1], 1, [10], 1⟩, ⟨[2], 1, [20], 1⟩] : List hash_entry).foldlM
    (ht_he_insert stuck_env fuel) (ht_resize_new_table t m) = none
  rw [List.foldlM_cons]
  cases h1st : ht_he_insert stuck_env fuel (ht_resize_new_table t m) ⟨[1], 1, [10], 1⟩ with
  | none => rfl
  | some nt =>
    have hst : Stuck nt := stuck_first fuel t nt m h1 h2 h3 hm h1st
    simp only [Option.bind_eq_bind, Option.some_bind]
    rw [List.foldlM_cons, stuck_insert fuel nt hst]
    rfl

/-- What a bulk insertion into a fresh table leaves when it returns. -/
theorem bulk_insert_spec (E : Env) (fuel flags : Nat) (mlf : ℚ) (f32 f128 f64 : Option HashFunc)
    (pairs : List (List Nat × List Nat)) (t' : hash_table)
    (hnd : (pairs.map Prod.fst).Nodup) (hlen : pairs.length < UINT_RANGE)
    (h : ht_insert_all E fuel (ht_init E flags mlf f32 f128 f64) pairs = some t') :
    (∀ p ∈ pairs, ht_contains_i E t' p.1 p.1.length = some 1 ∧
      ht_get_p E t' p.1 p.1.length = some (some (p.2, p.2.length))) ∧
    ht_size_ui t' = pairs.length := by
  rw [insert_all_eq] at h
  have hkeys : (pairs.map pair_entry).map hash_entry.pkey = pairs.map Prod.fst := by
    rw [List.map_map]; rfl
  obtain ⟨b1, _, b3, b4, b5⟩ := fold_spec E _ (ins_spec E fuel) (pairs.map pair_entry) _ t'
    (WF_init E flags mlf f32 f128 f64)
    (by
      intro e he
      obtain ⟨p, _, hp⟩ := List.mem_map.1 he
      rw [← hp]
      exact ⟨rfl, rfl⟩)
    (by rw [hkeys]; exact hnd)
    (fun e _ => lookup_empty E _ (fun i => getD_replicate_nil _ i) e.pkey) h
  rw [total_empty (ht_init E flags mlf f32 f128 f64) (by simp [ht_init])
    (fun i => getD_replicate_nil _ i), Nat.zero_add, List.length_map] at b4
  refine ⟨?_, ?_⟩
  · intro p hp
    have hne : pairs.map pair_entry ≠ [] := by
      intro hh
      rw [List.map_eq_nil_iff] at hh
      rw [hh] at hp
      simp at hp
    have hus := b5 hne
    have hc : cfind p.1 (pairs.map pair_entry) = some (pair_entry p) :=
      cfind_of_mem _ (by rw [hkeys]; exact hnd) (pair_entry p) (List.mem_map_of_mem _ hp)
    have hl : lookup E t' p.1 = some (p.2, p.2.length) := by
      rw [b3 p.1, hc]
      rfl
    rw [get_eq_lookup E t' b1 hus, contains_eq_lookup E t' b1 hus, hl]
    exact ⟨rfl, rfl⟩
  · unfold ht_size_ui
    rw [b1.count, b4, Nat.mod_eq_of_lt hlen]

/-- A bulk insertion returns when some capacity `G` below 2^32, reached from
the capacity of the table by `J` doublings, is large enough for the threshold
with all the entries. -/
theorem insert_all_fits (E : Env) (mlf : ℚ) (G B J : Nat) (hG : G < UINT_RANGE)
    (hB : (B : ℚ) ≤ mlf * (G : ℚ)) (hBR : B < UINT_RANGE)
    (hround : ∀ q : ℚ, q ≤ mlf → E.round_double q ≤ mlf)
    (t : hash_table) (pairs : List (List Nat × List Nat)) (hpre : TermPre E mlf G t J)
    (htot : total t + pairs.length ≤ B) :
    ∃ t', ht_insert_all E (J + 1) t pairs = some t' ∧ 1 ≤ t'.array_size ∧
      t'.array_size ≤ G := by
  obtain ⟨t', i', _, h, hpre'⟩ := term_fold E mlf G B (ht_he_insert E (J + 1)) J
    (fun nt e i hi hp he ht => term_ins E mlf G B hG hB hBR hround J nt e i hi hp he ht)
    (pairs.map pair_entry) t J (le_refl _) hpre
    (by
      intro e he
      obtain ⟨p, _, hp⟩ := List.mem_map.1 he
      rw [← hp]
      exact ⟨rfl, rfl⟩)
    (by rw [List.length_map]; exact htot)
  refine ⟨t', by rw [insert_all_eq]; exact h, ?_⟩
  have hcap := hpre'.2.2.2.2
  have hpos : 0 < t'.array_size := Nat.pos_of_ne_zero hpre'.2.1.2
  exact le_of_mul_pow_eq _ _ _ hcap (by rw [← hcap]; exact Nat.mul_pos hpos (Nat.pow_pos (by decide)))

theorem insert_all_noauto_returns (E : Env) (fuel : Nat) (t : hash_table)
    (pairs : List (List Nat × List Nat)) (hus : usable t)
    (hflag : t.flags &&& HT_NO_AUTORESIZE ≠ 0) :
    ∃ t', ht_insert_all E (fuel + 1) t pairs = some t' := by
  obtain ⟨t', h, _⟩ := chain_noauto_returns E fuel (pairs.map pair_entry) t hus hflag
  exact ⟨t', by rw [insert_all_eq]; exact h⟩

/-- What the removal of every key leaves after `ht_clear`, `ht_resize` and a
bulk insertion that returned. -/
theorem clear_insert_remove (E : Env) (fuel1 fuel2 : Nat) (t t1 t2 : hash_table)
    (n : Nat) (pairs : List (List Nat × List Nat))
    (h1 : ht_resize E fuel1 (ht_clear E t) n = some t1)
    (h2 : ht_insert_all E fuel2 t1 pairs = some t2) :
    ∃ t3, ht_remove_all E t2 (pairs.map Prod.fst) = some t3 ∧
      ht_size_ui t3 = 0 ∧ ∀ c ∈ chains t3, c = [] := by
  obtain ⟨r1, _, r3, _⟩ := ht_resize_spec E fuel1 _ n t1 (WF_clear E t) h1
  obtain ⟨i1, _, i3⟩ := insert_all_spec E fuel2 pairs t1 t2 r1 h2
  obtain ⟨t3, h3⟩ := remove_all_returns E (pairs.map Prod.fst) t2 (by
    intro hne
    apply insert_all_usable E fuel2 pairs t1 t2 r1 h2
    intro hp
    exact hne (by rw [hp]; rfl))
  obtain ⟨m1, _, _, m4⟩ := remove_all_spec E (pairs.map Prod.fst) t2 t3 i1 h3
  refine ⟨t3, h3, ?_⟩
  apply no_entries_of_lookup_none E t3 m1
  intro k
  rw [m4 k]
  by_cases hk : k ∈ pairs.map Prod.fst
  · rw [if_pos hk]
  · rw [if_neg hk]
    by_contra hne
    rcases i3 k hne with h | h
    · exact hk h
    · rw [r3 k, lookup_empty E _ (clear_getD E t) k] at h
      exact h rfl

/-- The cleared table resized to `n` buckets: what `ht_resize` returns and what
the termination argument knows of it. -/
theorem clear_resize_pre (E : Env) (fuel : Nat) (t : hash_table) (n J : Nat) (hn : 1 ≤ n)
    (hbound : (ht_clear E t).phashfunc_x86_32 ≠ none) :
    ∃ t1, ht_resize E fuel (ht_clear E t) n = some t1 ∧
      TermPre E t.max_load_factor (n * 2 ^ J) t1 J ∧ total t1 = 0 ∧ t1.flags = t.flags := by
  have hr := resize_empty (ht_he_insert E fuel) (ht_clear E t) n (clear_getD E t)
  refine ⟨_, hr, ?_, ?_, rfl⟩
  · refine ⟨WF_empty E _ (by simp) (fun i => getD_replicate_nil n i) rfl,
      ⟨hbound, by show n ≠ 0; omega⟩, le_refl _, rfl, rfl⟩
  · exact total_empty _ (by simp) (fun i => getD_replicate_nil n i)

/-! ## The load factor as the code compares it, over the calls of a program -/

theorem round_zero_le_of_ratio_under (E : Env) (hmono : rounding_monotone E) (t : hash_table)
    (h : ratio_under E t) : E.round_double 0 ≤ t.max_load_factor := by
  have h0 : (0 : ℚ) ≤ (t.collisions : ℚ) / (t.array_size : ℚ) := by positivity
  exact le_trans (hmono _ _ h0) h

theorem body_ratio (E : Env) (hmono : rounding_monotone E)
    (resize : hash_table → Nat → Option hash_table)
    (hr : ResRatio E resize) : InsRatio E (ht_he_insert_body E resize) := by
  intro t e t' hflag hJ h
  unfold ht_he_insert_body at h
  cases hix : ht_index_ui E t e.pkey e.key_size with
  | none => rw [hix] at h; simp at h
  | some index =>
    rw [hix] at h
    simp only at h
    cases hb : t.pparray.getD index [] with
    | nil =>
      rw [hb] at h
      simp only [Option.some.injEq] at h
      subst h
      exact hJ
    | cons ptmp rest =>
      rw [hb] at h
      simp only at h
      by_cases hl : (he_insert_chain t.flags e ptmp rest).2 = false
      · rw [if_pos hl] at h
        simp only [Option.some.injEq] at h
        subst h
        exact hJ
      · rw [if_neg hl] at h
        have hclf : (ht_he_insert_linked E t index (he_insert_chain t.flags e ptmp rest).1).current_load_factor
            = E.round_double (((t.collisions + 1) % UINT_RANGE : Nat) / (t.array_size : ℚ)) := rfl
        have hfl : (ht_he_insert_linked E t index (he_insert_chain t.flags e ptmp rest).1).flags
            = t.flags := rfl
        have hmlf : (ht_he_insert_linked E t index (he_insert_chain t.flags e ptmp rest).1).max_load_factor
            = t.max_load_factor := rfl
        have hsz : (ht_he_insert_linked E t index (he_insert_chain t.flags e ptmp rest).1).array_size
            = t.array_size := rfl
        rw [hclf, hfl, hmlf, hsz] at h
        by_cases hc : t.flags &&& HT_NO_AUTORESIZE = 0 ∧
            E.round_double (((t.collisions + 1) % UINT_RANGE : Nat) / (t.array_size : ℚ))
              > t.max_load_factor
        · rw [if_pos hc] at h
          cases hrs : resize (ht_he_insert_linked E t index (he_insert_chain t.flags e ptmp rest).1)
              ((t.array_size * 2) % UINT_RANGE) with
          | none => rw [hrs] at h; simp at h
          | some t2 =>
            rw [hrs] at h
            simp only [Option.some.injEq] at h
            subst h
            have h2 : ratio_under E t2 :=
              hr (ht_he_insert_linked E t index (he_insert_chain t.flags e ptmp rest).1) _ t2
                hflag (round_zero_le_of_ratio_under E hmono t hJ) hrs
            exact h2
        · rw [if_neg hc] at h
          simp only [Option.some.injEq] at h
          subst h
          show E.round_double
              (((t.collisions + 1) % UINT_RANGE : Nat) / (t.array_size : ℚ))
              ≤ t.max_load_factor
          by_contra hcon
          exact hc ⟨hflag, not_le.1 hcon⟩

theorem fold_ratio (E : Env) (ins : hash_table → hash_entry → Option hash_table)
    (hi : InsRatio E ins) (hc : InsCap ins) :
    ∀ (L : List hash_entry) (nt nt' : hash_table), nt.flags &&& HT_NO_AUTORESIZE = 0 →
      ratio_under E nt → L.foldlM ins nt = some nt' →
      ratio_under E nt' ∧ nt'.max_load_factor = nt.max_load_factor := by
  intro L
  induction L with
  | nil =>
    intro nt nt' _ hJ h
    simp only [List.foldlM, Option.pure_def, Option.some.injEq] at h
    subst h
    exact ⟨hJ, rfl⟩
  | cons x xs ih =>
    intro nt nt' hflag hJ h
    simp only [List.foldlM, Option.bind_eq_bind] at h
    cases h1 : ins nt x with
    | none => rw [h1] at h; simp at h
    | some nt1 =>
      rw [h1] at h
      simp only [Option.some_bind] at h
      obtain ⟨a1, a2, _, _⟩ := hc _ _ _ h1
      obtain ⟨b1, b2⟩ := ih nt1 nt' (by rw [a1]; exact hflag) (hi _ _ _ hflag hJ h1) h
      exact ⟨b1, b2.trans a2⟩

theorem resize_ratio (E : Env) (ins : hash_table → hash_entry → Option hash_table)
    (hi : InsRatio E ins) (hc : InsCap ins) : ResRatio E (ht_resize_body ins) := by
  intro t n t' hflag h0 h
  unfold ht_resize_body at h
  rw [foldlM_chains ins (fun i => t.pparray.getD i []) (List.range t.array_size)] at h
  cases hf : ((List.range t.array_size).map (fun i => t.pparray.getD i [])).flatten.foldlM ins
      (ht_resize_new_table t n) with
  | none => rw [hf] at h; simp at h
  | some nt =>
    rw [hf] at h
    simp only [Option.some.injEq] at h
    subst h
    have hJ0 : ratio_under E (ht_resize_new_table t n) := by
      show E.round_double (((0 : Nat) : ℚ) / (n : ℚ)) ≤ t.max_load_factor
      simpa using h0
    obtain ⟨b1, b2⟩ := fold_ratio E ins hi hc _ (ht_resize_new_table t n) nt hflag hJ0 hf
    show E.round_double ((nt.collisions : ℚ) / (nt.array_size : ℚ)) ≤ t.max_load_factor
    have : nt.max_load_factor = t.max_load_factor := b2
    rw [← this]
    exact b1

theorem ins_ratio (E : Env) (hmono : rounding_monotone E) :
    ∀ fuel, InsRatio E (ht_he_insert E fuel) := by
  intro fuel
  induction fuel with
  | zero =>
    intro t e t' _ _ h
    simp [ht_he_insert] at h
  | succ fuel ih =>
    show InsRatio E (ht_he_insert_body E (ht_resize_body (ht_he_insert E fuel)))
    exact body_ratio E hmono _ (resize_ratio E _ ih (ins_cap E fuel))

theorem ht_resize_ratio (E : Env) (hmono : rounding_monotone E) (fuel : Nat) :
    ResRatio E (ht_resize E fuel) :=
  resize_ratio E _ (ins_ratio E hmono fuel) (ins_cap E fuel)

theorem RatioInv_empty (E : Env) (t : hash_table) (hs : t.pparray.length = t.array_size)
    (h : ∀ i, t.pparray.getD i [] = []) (hc : t.collisions = 0)
    (h0 : E.round_double 0 ≤ t.max_load_factor) : RatioInv E t := by
  refine ⟨by rw [hc]; decide, ?_, Or.inl (by rw [non_head_empty t hs h]; omega)⟩
  unfold ratio_under
  rw [hc]
  simpa using h0

theorem ratio_le_of_lt (E : Env) (hmono : rounding_monotone E) (c N : Nat) (mlf : ℚ)
    (hc : c < UINT_RANGE)
    (h : E.round_double (((UINT_RANGE : ℚ) - 1) / (N : ℚ)) ≤ mlf) :
    E.round_double ((c : ℚ) / (N : ℚ)) ≤ mlf := by
  refine le_trans (hmono _ _ ?_) h
  have hN : (0 : ℚ) ≤ (N : ℚ) := Nat.cast_nonneg _
  have hcq : (c : ℚ) ≤ (UINT_RANGE : ℚ) - 1 := by
    have : c + 1 ≤ UINT_RANGE := hc
    have h2 : ((c + 1 : Nat) : ℚ) ≤ ((UINT_RANGE : Nat) : ℚ) := by exact_mod_cast this
    push_cast at h2
    linarith
  exact div_le_div_of_nonneg_right hcq hN

theorem RatioInv_insert (E : Env) (hmono : rounding_monotone E) (fuel : Nat)
    (t t' : hash_table) (e : hash_entry)
    (hwf : WF E t) (he : wf_entry e) (h : ht_he_insert E fuel t e = some t')
    (hlt : total t' < UINT_RANGE) (hflag : t.flags &&& HT_NO_AUTORESIZE = 0)
    (hinv : RatioInv E t) : RatioInv E t' := by
  obtain ⟨hc, hJ, hD⟩ := hinv
  have hJ' := ins_ratio E hmono fuel t e t' hflag hJ h
  have hmlf := (ins_cap E fuel t e t' h).2.1
  have hnh' : non_head t' < UINT_RANGE := lt_of_le_of_lt (non_head_le_total t') hlt
  rcases ins_exact E fuel t e t' hwf he h with h1 | ⟨h1, h2, h3⟩ | ⟨h1, h2, h3⟩
  · rw [Nat.mod_eq_of_lt hnh'] at h1
    exact ⟨by rw [h1]; exact hnh', hJ', Or.inl (by rw [h1])⟩
  · refine ⟨by rw [h2]; exact hc, hJ', ?_⟩
    rcases hD with hD | hD
    · exact Or.inl (by rw [h2, h3]; exact hD)
    · exact Or.inr (by rw [hmlf, h1]; exact hD)
  · refine ⟨by rw [h2]; exact Nat.mod_lt _ (by decide), hJ', ?_⟩
    rcases hD with hD | hD
    · by_cases hw : t.collisions + 1 < UINT_RANGE
      · left
        rw [h2, h3, Nat.mod_eq_of_lt hw]
        omega
      · right
        rw [hmlf, h1]
        have hceq : t.collisions = UINT_RANGE - 1 := by omega
        unfold ratio_under at hJ
        rw [hceq] at hJ
        have : ((UINT_RANGE - 1 : Nat) : ℚ) = (UINT_RANGE : ℚ) - 1 := by
          simp [UINT_RANGE]
          norm_num
        rw [this] at hJ
        exact hJ
    · exact Or.inr (by rw [hmlf, h1]; exact hD)

theorem RatioInv_remove (E : Env) (hmono : rounding_monotone E) (t t' : hash_table)
    (k : List Nat) (n : Nat)
    (hwf : WF E t) (h : ht_remove E t k n = some t') (hinv : RatioInv E t) :
    RatioInv E t' := by
  obtain ⟨hc, hJ, hD⟩ := hinv
  obtain ⟨_, hmlf, _, _, _⟩ := remove_cap E t k n t' h
  obtain ⟨hN, hcase⟩ := remove_counted E t t' k n hwf h
  unfold ratio_under at hJ
  rcases hcase with ⟨h2, h3⟩ | ⟨h2, h3⟩
  · refine ⟨by rw [h2]; exact hc, ?_, ?_⟩
    · unfold ratio_under
      rw [h2, hmlf, hN]
      exact hJ
    · rcases hD with hD | hD
      · exact Or.inl (by rw [h2]; omega)
      · exact Or.inr (by rw [hmlf, hN]; exact hD)
  · by_cases hz : t.collisions = 0
    · have hD2 : E.round_double (((UINT_RANGE : ℚ) - 1) / (t.array_size : ℚ))
          ≤ t.max_load_factor := by
        rcases hD with hD | hD
        · omega
        · exact hD
      have hc' : t'.collisions < UINT_RANGE := by
        rw [h2]
        exact Nat.mod_lt _ (by decide)
      refine ⟨hc', ?_, Or.inr (by rw [hmlf, hN]; exact hD2)⟩
      unfold ratio_under
      rw [hmlf, hN]
      exact ratio_le_of_lt E hmono _ _ _ hc' hD2
    · have hc' : t'.collisions + 1 = t.collisions := by
        rw [h2]
        simp only [UINT_RANGE] at hc ⊢
        omega
      refine ⟨by omega, ?_, ?_⟩
      · unfold ratio_under
        rw [hmlf, hN]
        refine le_trans (hmono _ _ ?_) hJ
        have hN0 : (0 : ℚ) ≤ (t.array_size : ℚ) := Nat.cast_nonneg _
        have hle : (t'.collisions : ℚ) ≤ (t.collisions : ℚ) := by
          have : t'.collisions ≤ t.collisions := by omega
          exact_mod_cast this
        exact div_le_div_of_nonneg_right hle hN0
      · rcases hD with hD | hD
        · exact Or.inl (by omega)
        · exact Or.inr (by rw [hmlf, hN]; exact hD)

theorem ReachableSmall.ratio {E : Env} (hmono : rounding_monotone E) {t : hash_table}
    (h : ReachableSmall E t) :
    t.flags &&& HT_NO_AUTORESIZE = 0 → E.round_double 0 ≤ t.max_load_factor →
    RatioInv E t := by
  induction h with
  | init flags mlf f32 f128 f64 =>
    intro _ h0
    exact RatioInv_empty E _ (by simp [ht_init]) (fun i => getD_replicate_nil _ i) rfl h0
  | @insert t t' fuel k v ht hins hlt ih =>
    intro hflag h0
    rw [ht_insert_eq] at hins
    obtain ⟨a1, a2, _, _⟩ := ins_cap E fuel _ _ _ hins
    rw [a1] at hflag
    rw [a2] at h0
    exact RatioInv_insert E hmono fuel t t' _ ht.reachable.wf ⟨rfl, rfl⟩ hins hlt hflag
      (ih hflag h0)
  | @he_insert t t' fuel e ht he hins hlt ih =>
    intro hflag h0
    obtain ⟨a1, a2, _, _⟩ := ins_cap E fuel _ _ _ hins
    rw [a1] at hflag
    rw [a2] at h0
    exact RatioInv_insert E hmono fuel t t' e ht.reachable.wf he hins hlt hflag (ih hflag h0)
  | @remove t t' k ht hrem ih =>
    intro hflag h0
    obtain ⟨a1, a2, _, _, _⟩ := remove_cap E _ _ _ _ hrem
    rw [a1] at hflag
    rw [a2] at h0
    exact RatioInv_remove E hmono t t' k k.length ht.reachable.wf hrem (ih hflag h0)
  | @resize t t' fuel n ht hres ih =>
    intro hflag h0
    obtain ⟨a1, a2, _, _⟩ := ht_resize_cap E fuel _ _ _ hres
    rw [a1] at hflag
    rw [a2] at h0
    have hJ := ht_resize_ratio E hmono fuel t n t' hflag h0 hres
    have hx := ht_resize_exact E fuel t n t' ht.reachable.wf hres
    have hlt : total t' < UINT_RANGE :=
      (ReachableSmall.resize fuel n ht hres).total_lt
    have hnh' : non_head t' < UINT_RANGE := lt_of_le_of_lt (non_head_le_total t') hlt
    rw [Nat.mod_eq_of_lt hnh'] at hx
    exact ⟨by rw [hx]; exact hnh', hJ, Or.inl (by rw [hx])⟩
  | @clear t ht ih =>
    intro _ h0
    exact RatioInv_empty E _ (by simp [ht_clear, ht_init]) (fun i => clear_getD E t i) rfl h0

theorem round_third_le (q : ℚ) : round_third q ≤ q := by
  unfold round_third
  split
  · rename_i h
    exact h.1
  · exact le_refl _

theorem round_third_mono : rounding_monotone third_env := by
  intro q r hqr
  show round_third q ≤ round_third r
  unfold round_third
  by_cases hq : third_down ≤ q ∧ q ≤ 1 / 3
  · rw [if_pos hq]
    by_cases hr : third_down ≤ r ∧ r ≤ 1 / 3
    · rw [if_pos hr]
    · rw [if_neg hr]
      exact le_trans hq.1 hqr
  · rw [if_neg hq]
    by_cases hr : third_down ≤ r ∧ r ≤ 1 / 3
    · rw [if_pos hr]
      by_contra hcon
      exact hq ⟨le_of_lt (not_le.1 hcon), le_trans hqr hr.2⟩
    · rw [if_neg hr]
      exact hqr

theorem third_resize : ht_resize third_env 1 third_t0 3 = some third_t1 :=
  some_getD_of_isSome _ _ (by decide!)

theorem third_insert1 :
    ht_insert third_env 1 third_t1 [0] [0].length [7] [7].length = some third_t2 :=
  some_getD_of_isSome _ _ (by decide!)

theorem third_insert2 :
    ht_insert third_env 1 third_t2 [3] [3].length [8] [8].length = some third_t3 :=
  some_getD_of_isSome _ _ (by decide!)

theorem third_reachable : ReachableSmall third_env third_t3 :=
  ReachableSmall.insert 1 [3] [8]
    (ReachableSmall.insert 1 [0] [7]
      (ReachableSmall.resize 1 3
        (ReachableSmall.init 0 third_down (some demo_digest) (some demo_digest)
          (some demo_digest))
        third_resize)
      third_insert1 (by decide!))
    third_insert2 (by decide!)

/-! ## Example runs -/

theorem demo_reachable2 : Reachable demo_env demo_t2 :=
  Reachable.insert 2 [64] [8]
    (Reachable.insert 1 [0] [7] (Reachable.init 0 (1 / 100) none none none) demo_insert1)
    demo_insert2

theorem demo_resize_shrink : ht_resize demo_env 1 demo_t2 3 = some demo_shrunk :=
  some_getD_of_isSome _ _ (by decide!)

theorem demo_insert_bulk :
    ht_insert_all demo_env 2 (ht_init demo_env 0 (1 / 100) none none none) demo_pairs
      = some demo_bulk :=
  some_getD_of_isSome _ _ (by decide!)

theorem demo_clear_resize :
    ht_resize demo_env 1 (ht_clear demo_env demo_t2) 2 = some demo_small :=
  some_getD_of_isSome _ _ (by decide!)

theorem demo_fill : ht_insert_all demo_env 8 demo_small demo_pairs3 = some demo_filled :=
  some_getD_of_isSome _ _ (by decide!)

/-! ## Claims -/

/-- C1. Round trip: after `ht_insert(k, v)` returns on a well-formed table (any
flags, any threshold, an autoresize or none, nested or not), `ht_get_p(k)` finds
the bytes `v` with size `len(v)` and `ht_contains_i(k)` is 1. -/
theorem C1_insert_then_get (E : Env) (fuel : Nat) (t t' : hash_table) (k v : List Nat)
    (hwf : WF E t) (h : ht_insert E fuel t k k.length v v.length = some t') :
    ht_get_p E t' k k.length = some (some (v, v.length)) ∧
    ht_contains_i E t' k k.length = some 1 := by
  obtain ⟨h1, _, h3, h4, _⟩ := insert_spec E fuel t t' k v hwf h
  have hl : lookup E t' k = some (v, v.length) := by rw [h4, if_pos rfl]
  rw [get_eq_lookup E t' h1 h3, contains_eq_lookup E t' h1 h3, hl]
  exact ⟨rfl, rfl⟩

/-- C1, at an insertion that doubles the capacity from 64 to 128. -/
theorem C1_insert_then_get_witness :
    demo_t1.array_size = 64 ∧ demo_t2.array_size = 128 ∧
    ht_get_p demo_env demo_t2 [64] [64].length = some (some ([8], [8].length)) ∧
    ht_contains_i demo_env demo_t2 [64] [64].length = some 1 :=
  ⟨by decide!, by decide!,
    C1_insert_then_get demo_env 2 demo_t1 demo_t2 [64] [8] demo_wf1 demo_insert2⟩

/-- C3. Removal of a present key: on a well-formed table with fewer than
`2 ^ 32` entries on which `ht_contains_i(k)` is 1, `ht_remove(k)` returns,
after it `ht_contains_i(k)` is 0 and `ht_get_p(k)` reports not-found, and
`ht_size_ui` is exactly one less than before. -/
theorem C3_remove_present (E : Env) (t : hash_table) (k : List Nat) (hwf : WF E t)
    (hlt : total t < UINT_RANGE) (hpre : ht_contains_i E t k k.length = some 1) :
    ∃ t', ht_remove E t k k.length = some t' ∧
      ht_contains_i E t' k k.length = some 0 ∧
      ht_get_p E t' k k.length = some none ∧
      ht_size_ui t' + 1 = ht_size_ui t := by
  have hus : usable t := by
    by_contra hn
    rw [(get_none_of_not_usable E t hn k k.length).2] at hpre
    simp at hpre
  obtain ⟨t', ht'⟩ := remove_returns E t hus k k.length
  obtain ⟨r1, r2, r3, r4, r5⟩ := remove_spec E t t' k hwf ht'
  have hus' : usable t' := ⟨by rw [r2.2.2.1]; exact hus.1, by rw [r3]; exact hus.2⟩
  have hl : lookup E t k ≠ none := by
    rw [contains_eq_lookup E t hwf hus] at hpre
    intro hh
    rw [hh] at hpre
    simp at hpre
  have hl' : lookup E t' k = none := by rw [r4, if_pos rfl]
  rw [if_neg hl] at r5
  refine ⟨t', ht', ?_, ?_, ?_⟩
  · rw [contains_eq_lookup E t' r1 hus', hl']; rfl
  · rw [get_eq_lookup E t' r1 hus', hl']
  · unfold ht_size_ui
    rw [r1.count, hwf.count, Nat.mod_eq_of_lt hlt, Nat.mod_eq_of_lt (by omega)]
    exact r5

/-- C3, at the scenario of the test: the one key of the table is removed. -/
theorem C3_remove_present_witness :
    total demo_t1 < UINT_RANGE ∧ ht_contains_i demo_env demo_t1 [0] [0].length = some 1 ∧
    ∃ t', ht_remove demo_env demo_t1 [0] [0].length = some t' ∧
      ht_contains_i demo_env t' [0] [0].length = some 0 ∧
      ht_get_p demo_env t' [0] [0].length = some none ∧
      ht_size_ui t' + 1 = ht_size_ui demo_t1 :=
  ⟨by decide!, by decide!,
    C3_remove_present demo_env demo_t1 [0] demo_wf1 (by decide!) (by decide!)⟩

/-- C5. A table built by `ht_init` (autoresize disabled, any threshold, any
digest functions, either build), `ht_resize` to one bucket, the insertion of
the keys `[1]` and `[2]` and the removal of `[1]`, the head of their common
chain: before the removal `collisions` is 1 and one entry is not a chain head;
after it one entry is left, it is the head of its chain, and `collisions` is
still 1. -/
theorem C5_collisions_after_head_removal (E : Env) (mlf : ℚ) (f : HashFunc) :
    ∃ t1 t2 t3 t4,
      ht_resize E 1 (ht_init E HT_NO_AUTORESIZE mlf (some f) (some f) (some f)) 1 = some t1 ∧
      ht_insert E 1 t1 [1] [1].length [10] [10].length = some t2 ∧
      ht_insert E 1 t2 [2] [2].length [20] [20].length = some t3 ∧
      ht_remove E t3 [1] [1].length = some t4 ∧
      Reachable E t4 ∧
      t3.collisions = 1 ∧ non_head t3 = 1 ∧
      t4.collisions = 1 ∧ non_head t4 = 0 ∧ total t4 = 1 := by
  obtain ⟨g, g2, g3, clf, h1⟩ := init_resize_one E mlf f
  have h2 := one_bucket_insert_first E g g2 g3 mlf clf
  have h3 := one_bucket_insert_second E g g2 g3 mlf clf
  have h4 := one_bucket_remove_head E g g2 g3 mlf
    (E.round_double (((0 + 1) % UINT_RANGE : Nat) / ((1 : Nat) : ℚ)))
  refine ⟨_, _, _, _, h1, h2, h3, h4, ?_, rfl, rfl, rfl, rfl, rfl⟩
  exact Reachable.remove [1]
    (Reachable.insert 1 [2] [20]
      (Reachable.insert 1 [1] [10]
        (Reachable.resize 1 1 (Reachable.init _ _ _ _ _) h1) h2) h3) h4

/-- C6. Resize preserves contents: when `ht_resize(new_capacity)` returns on a
well-formed table of capacity at least 1, with `new_capacity` at least 1
(larger or smaller than the capacity), `ht_get_p` and `ht_contains_i` give for
every key what they gave before (present keys keep their value bytes and size,
absent keys stay absent) and `key_count` is unchanged. -/
theorem C6_resize_preserves_contents (E : Env) (fuel : Nat) (t t' : hash_table) (n : Nat)
    (hwf : WF E t) (hcap : 0 < t.array_size) (hn : 1 ≤ n)
    (h : ht_resize E fuel t n = some t') :
    (∀ k, ht_get_p E t' k k.length = ht_get_p E t k k.length ∧
      ht_contains_i E t' k k.length = ht_contains_i E t k k.length) ∧
    t'.key_count = t.key_count := by
  obtain ⟨r1, r2, r3, r4, r5, r6⟩ := ht_resize_spec E fuel t n t' hwf h
  have hsz : t'.array_size ≠ 0 := by
    by_cases hz : total t = 0
    · rw [r6 hz]; omega
    · exact (r5 (Nat.pos_of_ne_zero hz)).2
  refine ⟨?_, by rw [r1.count, hwf.count, r4]⟩
  intro k
  by_cases hf : t.phashfunc_x86_32 = none
  · have h1 : ¬ usable t := fun hu => hu.1 hf
    have h2 : ¬ usable t' := fun hu => hu.1 (by rw [r2.2.2.1]; exact hf)
    rw [(get_none_of_not_usable E t h1 k k.length).1, (get_none_of_not_usable E t h1 k k.length).2,
      (get_none_of_not_usable E t' h2 k k.length).1, (get_none_of_not_usable E t' h2 k k.length).2]
    exact ⟨rfl, rfl⟩
  · have h1 : usable t := ⟨hf, by omega⟩
    have h2 : usable t' := ⟨by rw [r2.2.2.1]; exact hf, hsz⟩
    rw [get_eq_lookup E t hwf h1, get_eq_lookup E t' r1 h2, contains_eq_lookup E t hwf h1,
      contains_eq_lookup E t' r1 h2, r3 k]
    exact ⟨rfl, rfl⟩

/-- C6, at a shrink of the two-key table `demo_t2` from 128 buckets to 3. -/
theorem C6_resize_preserves_contents_witness :
    demo_t2.array_size = 128 ∧ demo_shrunk.array_size = 3 ∧
    (∀ k, ht_get_p demo_env demo_shrunk k k.length = ht_get_p demo_env demo_t2 k k.length ∧
      ht_contains_i demo_env demo_shrunk k k.length
        = ht_contains_i demo_env demo_t2 k k.length) ∧
    demo_shrunk.key_count = demo_t2.key_count :=
  ⟨by decide!, by decide!,
    C6_resize_preserves_contents demo_env 1 demo_t2 demo_shrunk 3 demo_wf2 (by decide!)
      (by decide) demo_resize_shrink⟩

/-- C7. No duplicate keys: in every table built by `ht_init` and any returning
calls of `ht_insert`, `ht_he_insert`, `ht_remove`, `ht_resize` and `ht_clear`
under one seed, no two entries, in one chain or in two, have keys that
`he_key_compare_i` finds equal (in either argument order). -/
theorem C7_no_duplicate_keys (E : Env) (t : hash_table) (h : Reachable E t) :
    (chains t).flatten.Pairwise
      (fun a b => he_key_compare_i a b = 0 ∧ he_key_compare_i b a = 0) := by
  have hwf := h.wf
  rw [chains_eq t hwf.size]
  have hnd := hwf.nodup_flatten
  unfold List.Nodup at hnd
  rw [List.pairwise_map] at hnd
  refine hnd.imp_of_mem ?_
  intro a b ha hb hab
  have hwa := hwf.entries_flatten a ha
  have hwb := hwf.entries_flatten b hb
  constructor
  · by_contra hc
    exact hab ((compare_iff a b hwa hwb).1 hc)
  · by_contra hc
    exact hab ((compare_iff b a hwb hwa).1 hc).symm

/-- C7, at the two-key table `demo_t2`. -/
theorem C7_no_duplicate_keys_witness :
    (chains demo_t2).flatten.length = 2 ∧
    (chains demo_t2).flatten.Pairwise
      (fun a b => he_key_compare_i a b = 0 ∧ he_key_compare_i b a = 0) :=
  ⟨by decide!, C7_no_duplicate_keys demo_env demo_t2 demo_reachable2⟩

/-- C8, the claim as stated fails: a freshly initialised table with autoresize
enabled and threshold 2^-33, bound to a digest that gives the two distinct
keys `[1]` and `[2]` the same value; the insertion of the two pairs returns at
no recursion depth, because the second key collides with the first at every
capacity until the doubled capacity wraps to 0. -/
theorem C8_bulk_insert_counterexample :
    (stuck_pairs.map Prod.fst).Nodup ∧
    (ht_init stuck_env 0 (1 / 8589934592) (some stuck_digest) (some stuck_digest)
      (some stuck_digest)).flags &&& HT_NO_AUTORESIZE = 0 ∧
    ∀ fuel, ht_insert_all stuck_env fuel
      (ht_init stuck_env 0 (1 / 8589934592) (some stuck_digest) (some stuck_digest)
        (some stuck_digest)) stuck_pairs = none := by
  refine ⟨by decide, by decide, ?_⟩
  intro fuel
  rw [insert_all_eq]
  exact stuck_pair_none fuel stuck_t0 64 rfl rfl rfl (by decide)

/-- C8, amended. Bulk insert: the pairs of a list with pairwise distinct keys
(fewer than `2 ^ 32` of them) are inserted one after another with `ht_insert`
into a freshly initialised table. Whenever the calls return, every inserted
key has `ht_contains_i` = 1, `ht_get_p` returns the value it was inserted
with, and `ht_size_ui` is the number of pairs. The calls do return, within
recursion depth `J + 1` and with a capacity of at most `64 * 2 ^ J`, when a
digest function is bound and the capacity `64 * 2 ^ J` is below 2^32 and large
enough for the threshold with all the pairs. -/
theorem C8_bulk_insert (E : Env) (flags : Nat) (mlf : ℚ) (f32 f128 f64 : Option HashFunc)
    (pairs : List (List Nat × List Nat))
    (hnd : (pairs.map Prod.fst).Nodup) (hlen : pairs.length < UINT_RANGE) :
    (∀ fuel t', ht_insert_all E fuel (ht_init E flags mlf f32 f128 f64) pairs = some t' →
      (∀ p ∈ pairs, ht_contains_i E t' p.1 p.1.length = some 1 ∧
        ht_get_p E t' p.1 p.1.length = some (some (p.2, p.2.length))) ∧
      ht_size_ui t' = pairs.length) ∧
    (∀ J, (ht_init E flags mlf f32 f128 f64).phashfunc_x86_32 ≠ none →
      (∀ q : ℚ, q ≤ mlf → E.round_double q ≤ mlf) →
      HT_INITIAL_SIZE * 2 ^ J < UINT_RANGE →
      (pairs.length : ℚ) ≤ mlf * ((HT_INITIAL_SIZE * 2 ^ J : Nat) : ℚ) →
      ∃ t', ht_insert_all E (J + 1) (ht_init E flags mlf f32 f128 f64) pairs = some t' ∧
        (∀ p ∈ pairs, ht_contains_i E t' p.1 p.1.length = some 1 ∧
          ht_get_p E t' p.1 p.1.length = some (some (p.2, p.2.length))) ∧
        ht_size_ui t' = pairs.length ∧
        1 ≤ t'.array_size ∧ t'.array_size ≤ HT_INITIAL_SIZE * 2 ^ J) := by
  refine ⟨?_, ?_⟩
  · intro fuel t' h
    exact bulk_insert_spec E fuel flags mlf f32 f128 f64 pairs t' hnd hlen h
  · intro J hbound hround hG hB
    have hpre : TermPre E mlf (HT_INITIAL_SIZE * 2 ^ J) (ht_init E flags mlf f32 f128 f64) J :=
      ⟨WF_init E flags mlf f32 f128 f64,
        ⟨hbound, by show HT_INITIAL_SIZE ≠ 0; decide⟩, le_refl _, rfl, rfl⟩
    have htot : total (ht_init E flags mlf f32 f128 f64) = 0 :=
      total_empty _ (by simp [ht_init]) (fun i => getD_replicate_nil _ i)
    obtain ⟨t', h, c1, c2⟩ := insert_all_fits E mlf (HT_INITIAL_SIZE * 2 ^ J) pairs.length J
      hG hB hlen hround _ pairs hpre (by rw [htot]; omega)
    obtain ⟨b1, b2⟩ := bulk_insert_spec E (J + 1) flags mlf f32 f128 f64 pairs t' hnd hlen h
    exact ⟨t', h, b1, b2, c1, c2⟩

/-- C8, amended, at two pairs whose keys share a bucket of the fresh table
(autoresize enabled, threshold 1/100), so that the second insertion doubles
the capacity: the run of recursion depth 2 that ends at 128 buckets, and the
run the capacity condition gives for the capacity 64 * 2 ^ 2 = 256. -/
theorem C8_bulk_insert_witness :
    (demo_bulk.array_size = 128 ∧
      (∀ p ∈ demo_pairs, ht_contains_i demo_env demo_bulk p.1 p.1.length = some 1 ∧
        ht_get_p demo_env demo_bulk p.1 p.1.length = some (some (p.2, p.2.length))) ∧
      ht_size_ui demo_bulk = demo_pairs.length) ∧
    ∃ t', ht_insert_all demo_env (2 + 1) (ht_init demo_env 0 (1 / 100) none none none)
        demo_pairs = some t' ∧
      (∀ p ∈ demo_pairs, ht_contains_i demo_env t' p.1 p.1.length = some 1 ∧
        ht_get_p demo_env t' p.1 p.1.length = some (some (p.2, p.2.length))) ∧
      ht_size_ui t' = demo_pairs.length ∧
      1 ≤ t'.array_size ∧ t'.array_size ≤ HT_INITIAL_SIZE * 2 ^ 2 :=
  ⟨⟨by decide!,
      (C8_bulk_insert demo_env 0 (1 / 100) none none none demo_pairs (by decide)
        (by decide!)).1 2 demo_bulk demo_insert_bulk⟩,
    (C8_bulk_insert demo_env 0 (1 / 100) none none none demo_pairs (by decide)
      (by decide!)).2 2 (by simp [ht_init, demo_env]) (fun _ h => h) (by decide) (by decide!)⟩

/-- C9, the claim as stated fails. In the build without `__WITH_MURMUR`, after
`ht_clear` and `ht_resize(64)` the insertion of the keys `[1]` and `[2]` returns
at no recursion depth (the cleared table has no digest function). In the build
with `__WITH_MURMUR`, with autoresize enabled, threshold 2^-33 and two keys
that MurmurHash3 gives the same digest, it returns at no recursion depth
either: the doubled capacity wraps to 0. -/
theorem C9_insert_all_remove_all_counterexample :
    (∃ t1, ht_resize stuck_env 1 (ht_clear stuck_env stuck_t0) 64 = some t1 ∧
      ∀ fuel, ht_insert_all stuck_env fuel t1 stuck_pairs = none) ∧
    (∃ t1, ht_resize stuck_murmur_env 1 (ht_clear stuck_murmur_env stuck_murmur_t0) 64
        = some t1 ∧
      ∀ fuel, ht_insert_all stuck_murmur_env fuel t1 stuck_pairs = none) := by
  refine ⟨⟨_, resize_empty _ _ 64 (clear_getD stuck_env stuck_t0), ?_⟩,
    ⟨_, resize_empty _ _ 64 (clear_getD stuck_murmur_env stuck_murmur_t0), ?_⟩⟩
  · intro fuel
    rw [insert_all_eq]
    show ([⟨[1], 1, [10], 1⟩, ⟨[2], 1, [20], 1⟩] : List hash_entry).foldlM
      (ht_he_insert stuck_env fuel) _ = none
    rw [List.foldlM_cons, insert_none_of_unbound stuck_env fuel _ _ rfl]
    rfl
  · intro fuel
    rw [insert_all_eq, stuck_murmur_insert_eq]
    exact stuck_pair_none fuel (ht_clear stuck_murmur_env stuck_murmur_t0) 64 rfl rfl rfl
      (by decide)

/-- C9, amended. Insert-all then remove-all, on a table whose digest binding
survives `ht_clear` (the build with `__WITH_MURMUR`): after `ht_clear` and an
explicit `ht_resize` to a capacity `n` of 1 or more, whenever the `ht_insert`
of every pair of a list has returned, the `ht_remove` of every key of the list
returns, and then `ht_size_ui` returns 0 and every bucket is empty. The
insertions do return when `HT_NO_AUTORESIZE` is set, and with autoresize
enabled when the capacity `n * 2 ^ J` is below 2^32 and large enough for the
threshold with all the pairs. -/
theorem C9_insert_all_remove_all (E : Env) (t : hash_table) (n : Nat)
    (pairs : List (List Nat × List Nat)) (hn : 1 ≤ n)
    (hbound : (ht_clear E t).phashfunc_x86_32 ≠ none) :
    (∀ fuel1 fuel2 t1 t2, ht_resize E fuel1 (ht_clear E t) n = some t1 →
      ht_insert_all E fuel2 t1 pairs = some t2 →
      ∃ t3, ht_remove_all E t2 (pairs.map Prod.fst) = some t3 ∧
        ht_size_ui t3 = 0 ∧ ∀ c ∈ chains t3, c = []) ∧
    (t.flags &&& HT_NO_AUTORESIZE ≠ 0 →
      ∃ t1 t2 t3, ht_resize E 1 (ht_clear E t) n = some t1 ∧
        ht_insert_all E 1 t1 pairs = some t2 ∧
        ht_remove_all E t2 (pairs.map Prod.fst) = some t3 ∧
        ht_size_ui t3 = 0 ∧ ∀ c ∈ chains t3, c = []) ∧
    (∀ J, (∀ q : ℚ, q ≤ t.max_load_factor → E.round_double q ≤ t.max_load_factor) →
      n * 2 ^ J < UINT_RANGE → pairs.length < UINT_RANGE →
      (pairs.length : ℚ) ≤ t.max_load_factor * ((n * 2 ^ J : Nat) : ℚ) →
      ∃ t1 t2 t3, ht_resize E 1 (ht_clear E t) n = some t1 ∧
        ht_insert_all E (J + 1) t1 pairs = some t2 ∧
        ht_remove_all E t2 (pairs.map Prod.fst) = some t3 ∧
        ht_size_ui t3 = 0 ∧ ∀ c ∈ chains t3, c = []) := by
  refine ⟨?_, ?_, ?_⟩
  · intro fuel1 fuel2 t1 t2 h1 h2
    exact clear_insert_remove E fuel1 fuel2 t t1 t2 n pairs h1 h2
  · intro hflag
    obtain ⟨t1, h1, hpre, _, hfl⟩ := clear_resize_pre E 1 t n 0 hn hbound
    obtain ⟨t2, h2⟩ := insert_all_noauto_returns E 0 t1 pairs hpre.2.1
      (by rw [hfl]; exact hflag)
    obtain ⟨t3, h3⟩ := clear_insert_remove E 1 1 t t1 t2 n pairs h1 h2
    exact ⟨t1, t2, t3, h1, h2, h3⟩
  · intro J hround hG hlen hB
    obtain ⟨t1, h1, hpre, htot, _⟩ := clear_resize_pre E 1 t n J hn hbound
    obtain ⟨t2, h2, _, _⟩ := insert_all_fits E t.max_load_factor (n * 2 ^ J) pairs.length J
      hG hB hlen hround t1 pairs hpre (by rw [htot]; omega)
    obtain ⟨t3, h3⟩ := clear_insert_remove E 1 (J + 1) t t1 t2 n pairs h1 h2
    exact ⟨t1, t2, t3, h1, h2, h3⟩

/-- C9, amended, at a cleared table resized to 2 buckets into which three pairs
are inserted (threshold 1/100) and whose keys are then removed: the run with
nested autoresizes that ends at 128 buckets, and the run the capacity
condition gives for the capacity 2 * 2 ^ 8 = 512. -/
theorem C9_insert_all_remove_all_witness :
    (demo_small.array_size = 2 ∧ demo_filled.array_size = 128 ∧
      ht_size_ui demo_filled = 2 ∧
      ∃ t3, ht_remove_all demo_env demo_filled (demo_pairs3.map Prod.fst) = some t3 ∧
        ht_size_ui t3 = 0 ∧ ∀ c ∈ chains t3, c = []) ∧
    ∃ t1 t2 t3, ht_resize demo_env 1 (ht_clear demo_env demo_t2) 2 = some t1 ∧
      ht_insert_all demo_env (8 + 1) t1 demo_pairs3 = some t2 ∧
      ht_remove_all demo_env t2 (demo_pairs3.map Prod.fst) = some t3 ∧
      ht_size_ui t3 = 0 ∧ ∀ c ∈ chains t3, c = [] :=
  ⟨⟨by decide!, by decide!, by decide!,
      (C9_insert_all_remove_all demo_env demo_t2 2 demo_pairs3 (by decide)
        (by simp [ht_clear, ht_init, demo_env])).1 1 8 demo_small demo_filled
        demo_clear_resize demo_fill⟩,
    (C9_insert_all_remove_all demo_env demo_t2 2 demo_pairs3 (by decide)
      (by simp [ht_clear, ht_init, demo_env])).2.2 8 (fun _ h => h) (by decide) (by decide)
      (by decide!)⟩

/-- C10. After `ht_clear`, `key_count` is 0, `collisions` is 0, every bucket is
empty and `ht_keys_pp` returns the empty sequence with count 0. In the
`__WITH_MURMUR` build `ht_contains_i` is then 0 for every key; in the other
build the cleared table has lost its digest functions and `ht_contains_i`
cannot compute an index. -/
theorem C10_clear_empties (E : Env) (t : hash_table) :
    (ht_clear E t).key_count = 0 ∧ (ht_clear E t).collisions = 0 ∧
    (∀ c ∈ chains (ht_clear E t), c = []) ∧
    ht_keys_pp (ht_clear E t) = some ([], 0) ∧
    (∀ k n, ht_contains_i E (ht_clear E t) k n = if E.with_murmur then some 0 else none) := by
  refine ⟨rfl, rfl, ?_, rfl, ?_⟩
  · intro c hc
    unfold chains at hc
    obtain ⟨i, _, hi⟩ := List.mem_map.1 hc
    rw [← hi]
    exact clear_getD E t i
  · intro k n
    cases hw : E.with_murmur
    · simp [ht_contains_i, ht_index_ui, ht_clear, ht_init, ht_destroy, hw]
    · have hix : ∃ i, ht_index_ui E (ht_clear E t) k n = some i := by
        simp [ht_index_ui, ht_clear, ht_init, ht_destroy, hw, HT_INITIAL_SIZE]
      obtain ⟨i, hi⟩ := hix
      unfold ht_contains_i
      rw [hi]
      simp only [clear_getD, ht_contains_walk, if_true]

/-- C11. After `ht_clear` the flags and `max_load_factor` are the ones before.
In the `__WITH_MURMUR` build the three digest bindings are the MurmurHash3
functions, which are the bindings of every table a program can build; in the
other build the three bindings are NULL, whatever they were before, and no
insertion into the cleared table can compute an index. -/
theorem C11_clear_configuration (E : Env) (t : hash_table) :
    (ht_clear E t).flags = t.flags ∧
    (ht_clear E t).max_load_factor = t.max_load_factor ∧
    (ht_clear E t).phashfunc_x86_32
      = (if E.with_murmur then some E.MurmurHash3_x86_32 else none) ∧
    (ht_clear E t).phashfunc_x86_128
      = (if E.with_murmur then some E.MurmurHash3_x86_128 else none) ∧
    (ht_clear E t).phashfunc_x64_128
      = (if E.with_murmur then some E.MurmurHash3_x64_128 else none) ∧
    (E.with_murmur = true → Reachable E t → frame t (ht_clear E t)) ∧
    (E.with_murmur = false →
      ∀ fuel k n v m, ht_insert E fuel (ht_clear E t) k n v m = none) := by
  have h32 : (ht_clear E t).phashfunc_x86_32
      = (if E.with_murmur then some E.MurmurHash3_x86_32 else none) := rfl
  have h128 : (ht_clear E t).phashfunc_x86_128
      = (if E.with_murmur then some E.MurmurHash3_x86_128 else none) := rfl
  have h64 : (ht_clear E t).phashfunc_x64_128
      = (if E.with_murmur then some E.MurmurHash3_x64_128 else none) := rfl
  refine ⟨rfl, rfl, h32, h128, h64, ?_, ?_⟩
  · intro hw hr
    obtain ⟨a, b, c⟩ := hr.murmur hw
    refine ⟨rfl, rfl, ?_, ?_, ?_⟩
    · rw [h32, a, hw]; rfl
    · rw [h128, b, hw]; rfl
    · rw [h64, c, hw]; rfl
  · intro hw fuel k n v m
    unfold ht_insert
    apply insert_none_of_unbound
    rw [h32, hw]
    rfl

/-- C12. Contains agrees with Get: for every table, key and key size,
`ht_contains_i` crashes exactly when `ht_get_p` does, returns 1 exactly when
`ht_get_p` finds an entry and returns 0 exactly when `ht_get_p` reports
not-found; both are functions of the table that return no table. -/
theorem C12_contains_agrees_with_get (E : Env) (t : hash_table) (k : List Nat) (n : Nat) :
    ht_contains_i E t k n
      = (ht_get_p E t k n).map (fun r => if r.isSome then 1 else 0) ∧
    (ht_contains_i E t k n = some 1 ↔ ∃ v s, ht_get_p E t k n = some (some (v, s))) ∧
    (ht_contains_i E t k n = some 0 ↔ ht_get_p E t k n = some none) := by
  have hmain : ht_contains_i E t k n
      = (ht_get_p E t k n).map (fun r => if r.isSome then 1 else 0) := by
    unfold ht_contains_i ht_get_p
    cases ht_index_ui E t k n with
    | none => rfl
    | some i =>
      show some _ = some _
      rw [contains_walk_eq_get_walk]
  refine ⟨hmain, ?_, ?_⟩
  · rw [hmain]
    cases hg : ht_get_p E t k n with
    | none => simp
    | some r =>
      cases r with
      | none => simp
      | some p => exact ⟨fun _ => ⟨p.1, p.2, rfl⟩, fun _ => by simp⟩
  · rw [hmain]
    cases hg : ht_get_p E t k n with
    | none => simp
    | some r =>
      cases r with
      | none => simp
      | some p => simp

/-- C13. Keys enumeration: on a table whose `key_count` is the number of its
entries, `ht_keys_pp` returns the keys of all entries, bucket by bucket from
index 0 up and head to tail within each chain; the reported count is
`ht_size_ui` and is the length of the returned sequence; a table with no
entries gives the empty sequence with count 0. -/
theorem C13_keys_enumeration (t : hash_table) (hcount : t.key_count = total t)
    (hlt : t.key_count < UINT_RANGE) :
    ht_keys_pp t = some (((chains t).flatten).map hash_entry.pkey, ht_size_ui t) ∧
    (((chains t).flatten).map hash_entry.pkey).length = ht_size_ui t ∧
    (total t = 0 → ht_keys_pp t = some ([], 0)) := by
  have hk := keys_of_count t hcount hlt
  have hlen : (((chains t).flatten).map hash_entry.pkey).length = t.key_count := by
    rw [List.length_map, List.length_flatten, hcount]
    rfl
  refine ⟨hk, hlen, ?_⟩
  intro h0
  unfold ht_keys_pp
  rw [if_pos (by rw [hcount, h0])]

theorem C13_keys_enumeration_witness :
    ht_keys_pp demo_t2 = some (((chains demo_t2).flatten).map hash_entry.pkey, ht_size_ui demo_t2) ∧
    (((chains demo_t2).flatten).map hash_entry.pkey).length = ht_size_ui demo_t2 ∧
    (total demo_t2 = 0 → ht_keys_pp demo_t2 = some ([], 0)) :=
  C13_keys_enumeration demo_t2 (by decide!) (by decide!)

/-- C16. Autoresize disabled: on a table whose flags contain
`HT_NO_AUTORESIZE`, a sequence of `ht_insert` and `ht_remove` calls that
returns leaves `array_size` unchanged, and `ht_resize(n)` that returns gives
capacity `n`; on such a table with a bound digest function every sequence of
calls returns when the capacity is not zero, and `ht_resize(n)` returns for
every `n` other than 0. -/
theorem C16_autoresize_disabled (E : Env) (fuel : Nat) (t : hash_table)
    (hflag : t.flags &&& HT_NO_AUTORESIZE ≠ 0) :
    (∀ ops t', run_ops E fuel t ops = some t' → t'.array_size = t.array_size) ∧
    (∀ n t', ht_resize E fuel t n = some t' → t'.array_size = n) ∧
    (usable t → ∀ ops, ∃ t', run_ops E (fuel + 1) t ops = some t') ∧
    (t.phashfunc_x86_32 ≠ none → ∀ n, n ≠ 0 → ∃ t', ht_resize E (fuel + 1) t n = some t') := by
  refine ⟨?_, ?_, ?_, ?_⟩
  · intro ops t' h
    exact run_ops_cap E fuel ops t t' hflag h
  · intro n t' h
    exact (ht_resize_cap E fuel t n t' h).2.2.2 hflag
  · intro hus ops
    exact run_ops_noauto_returns E fuel ops t hus hflag
  · intro hf n hn
    obtain ⟨t', h, _⟩ := resize_noauto_returns E fuel t n hf hn hflag
    exact ⟨t', h⟩

theorem C16_autoresize_disabled_witness :
    (run_ops demo_env 1 demo_noauto demo_ops = some demo_noauto_run ∧
      demo_noauto_run.collisions = 1 ∧ demo_noauto_run.array_size = 64) ∧
    (∀ ops t', run_ops demo_env 1 demo_noauto ops = some t' →
      t'.array_size = demo_noauto.array_size) ∧
    (∀ n t', ht_resize demo_env 1 demo_noauto n = some t' → t'.array_size = n) ∧
    (usable demo_noauto → ∀ ops, ∃ t', run_ops demo_env (1 + 1) demo_noauto ops = some t') ∧
    (demo_noauto.phashfunc_x86_32 ≠ none →
      ∀ n, n ≠ 0 → ∃ t', ht_resize demo_env (1 + 1) demo_noauto n = some t') :=
  ⟨⟨some_getD_of_isSome _ _ (by decide!), by decide!, by decide!⟩,
    C16_autoresize_disabled demo_env 1 demo_noauto (by decide)⟩

/-- C17. A table built by `ht_init` (autoresize disabled, any threshold, any
digest functions, either build), `ht_resize` to one bucket, the insertion of
the keys `[1]` and `[2]` and the removal of `[2]`, the second entry of their
common chain: after the second insertion `collisions` is 1 and the stored load
factor is the rounded quotient 1/1; the removal brings `collisions` to 0 and
leaves the stored load factor as it was, so it is no longer the quotient of
the two counters unless the rounding sends 0 and 1 to the same double. -/
theorem C17_load_factor_after_remove (E : Env) (mlf : ℚ) (f : HashFunc) :
    ∃ t1 t2 t3 t4,
      ht_resize E 1 (ht_init E HT_NO_AUTORESIZE mlf (some f) (some f) (some f)) 1 = some t1 ∧
      ht_insert E 1 t1 [1] [1].length [10] [10].length = some t2 ∧
      ht_insert E 1 t2 [2] [2].length [20] [20].length = some t3 ∧
      ht_remove E t3 [2] [2].length = some t4 ∧
      Reachable E t4 ∧
      t3.collisions = 1 ∧ t3.array_size = 1 ∧ load_factor_current E t3 ∧
      t4.collisions = 0 ∧ t4.array_size = 1 ∧
      t4.current_load_factor = E.round_double 1 ∧
      (E.round_double 1 ≠ E.round_double 0 → ¬ load_factor_current E t4) := by
  obtain ⟨g, g2, g3, clf, h1⟩ := init_resize_one E mlf f
  have h2 := one_bucket_insert_first E g g2 g3 mlf clf
  have h3 := one_bucket_insert_second E g g2 g3 mlf clf
  have h4 := one_bucket_remove_second E g g2 g3 mlf
    (E.round_double (((0 + 1) % UINT_RANGE : Nat) / ((1 : Nat) : ℚ)))
  have hq : E.round_double (((0 + 1) % UINT_RANGE : Nat) / ((1 : Nat) : ℚ))
      = E.round_double 1 := by
    norm_num [UINT_RANGE]
  refine ⟨_, _, _, _, h1, h2, h3, h4, ?_, rfl, rfl, ?_, rfl, rfl, ?_, ?_⟩
  · exact Reachable.remove [2]
      (Reachable.insert 1 [2] [20]
        (Reachable.insert 1 [1] [10]
          (Reachable.resize 1 1 (Reachable.init _ _ _ _ _) h1) h2) h3) h4
  · show E.round_double (((0 + 1) % UINT_RANGE : Nat) / ((1 : Nat) : ℚ))
      = E.round_double (((1 : Nat) : ℚ) / ((1 : Nat) : ℚ))
    rw [hq]
    norm_num
  · exact hq
  · intro hne hcur
    have h0 : E.round_double (((0 + 1) % UINT_RANGE : Nat) / ((1 : Nat) : ℚ))
        = E.round_double (((0 : Nat) : ℚ) / ((1 : Nat) : ℚ)) := hcur
    rw [hq] at h0
    apply hne
    rw [h0]
    norm_num

/-- C18. Index computation: on a table with a bound 32-bit digest function `f`
and `array_size >= 1`, `ht_index_ui` returns the 32-bit digest of the key under
the seed reduced modulo `array_size`, a value below `array_size`; a table with
the same binding and the same `array_size` gives the same index, whatever its
other fields; the function returns no table. -/
theorem C18_index_computation (E : Env) (t : hash_table) (f : HashFunc) (k : List Nat)
    (n : Nat) (hf : t.phashfunc_x86_32 = some f) (hcap : 1 ≤ t.array_size) :
    ht_index_ui E t k n = some ((f k n E.global_seed % UINT_RANGE) % t.array_size) ∧
    (f k n E.global_seed % UINT_RANGE) % t.array_size < t.array_size ∧
    (∀ t2 : hash_table, t2.phashfunc_x86_32 = some f → t2.array_size = t.array_size →
      ht_index_ui E t2 k n = ht_index_ui E t k n) := by
  have hz : ¬ t.array_size = 0 := by omega
  refine ⟨by simp [ht_index_ui, hf, hz], Nat.mod_lt _ (by omega), ?_⟩
  intro t2 h1 h2
  exact ht_index_ui_congr E t t2 (by rw [h1, hf]) h2 k n

theorem C18_index_computation_witness :
    ht_index_ui demo_env demo_t0 [64] 1
      = some ((demo_digest [64] 1 demo_env.global_seed % UINT_RANGE) % demo_t0.array_size) ∧
    (demo_digest [64] 1 demo_env.global_seed % UINT_RANGE) % demo_t0.array_size
      < demo_t0.array_size ∧
    (∀ t2 : hash_table, t2.phashfunc_x86_32 = some demo_digest →
      t2.array_size = demo_t0.array_size →
      ht_index_ui demo_env t2 [64] 1 = ht_index_ui demo_env demo_t0 [64] 1) :=
  C18_index_computation demo_env demo_t0 demo_digest [64] 1 rfl (by decide)

/-- C19. Key equality: `he_key_compare_i(a, b)` is 1 exactly when the key sizes
are equal and the keys agree on their first `key_size` bytes, position by
position, and 0 otherwise; entries with different key sizes are never equal;
the values and value sizes play no part. -/
theorem C19_key_equality (a b : hash_entry) :
    (he_key_compare_i a b = 1 ↔
      a.key_size = b.key_size ∧ ∀ i, i < a.key_size → a.pkey[i]? = b.pkey[i]?) ∧
    (he_key_compare_i a b = 0 ∨ he_key_compare_i a b = 1) ∧
    (a.key_size ≠ b.key_size → he_key_compare_i a b = 0) ∧
    (∀ v w s r, he_key_compare_i { a with pvalue := v, value_size := s }
        { b with pvalue := w, value_size := r } = he_key_compare_i a b) := by
  have htake : a.pkey.take a.key_size = b.pkey.take a.key_size ↔
      ∀ i, i < a.key_size → a.pkey[i]? = b.pkey[i]? := by
    constructor
    · intro h i hi
      have := congrArg (fun l => l[i]?) h
      simpa [List.getElem?_take, hi] using this
    · intro h
      apply List.ext_getElem?
      intro i
      by_cases hi : i < a.key_size
      · simp [List.getElem?_take, hi, h i hi]
      · simp [List.getElem?_take, hi]
  refine ⟨?_, he_key_compare_i_le_one a b, ?_, fun _ _ _ _ => rfl⟩
  · unfold he_key_compare_i
    by_cases hs : a.key_size = b.key_size
    · rw [if_neg (not_not.2 hs)]
      by_cases hm : memcmp a.pkey b.pkey a.key_size = 0
      · rw [if_pos hm]
        exact ⟨fun _ => ⟨hs, htake.1 ((memcmp_eq_zero_iff_take _ _ _).1 hm)⟩, fun _ => rfl⟩
      · rw [if_neg hm]
        refine ⟨fun h => absurd h (by decide), fun h => ?_⟩
        exact absurd ((memcmp_eq_zero_iff_take _ _ _).2 (htake.2 h.2)) hm
    · rw [if_pos hs]
      exact ⟨fun h => absurd h (by decide), fun h => absurd h.1 hs⟩
  · intro hs
    unfold he_key_compare_i
    rw [if_pos hs]

/-- C20. Removing an absent key is a no-op: when `ht_contains_i(k)` is 0,
`ht_remove(k)` returns the table it was given, every field of it unchanged. -/
theorem C20_remove_absent_is_noop (E : Env) (t : hash_table) (k : List Nat) (n : Nat)
    (h : ht_contains_i E t k n = some 0) : ht_remove E t k n = some t := by
  unfold ht_contains_i at h
  unfold ht_remove
  cases hix : ht_index_ui E t k n with
  | none => rw [hix] at h; simp at h
  | some i =>
    rw [hix] at h
    simp only [Option.some.injEq] at h
    show (match ht_remove_walk (tmp_entry k n) false (t.pparray.getD i []) with
      | none => some t
      | some r => _) = some t
    rw [remove_walk_none_of_contains_zero _ _ false h]

theorem C20_remove_absent_is_noop_witness :
    ht_contains_i demo_env demo_t1 [1] 1 = some 0 ∧
    ht_remove demo_env demo_t1 [1] 1 = some demo_t1 :=
  ⟨by decide!, C20_remove_absent_is_noop demo_env demo_t1 [1] 1 (by decide!)⟩

/-- C21. Remove's counter rule: when the key is present, the chain of its
bucket splits into the entries before the first match, the match, and the
entries after it; `ht_remove` returns the table whose chain in that bucket is
the entries before followed by the entries after, every other bucket as it
was; `collisions` goes down by 1 (as an unsigned int) when the match was not
the head of the chain and is unchanged when it was the head, whether or not
entries follow it. -/
theorem C21_remove_counter_rule (E : Env) (t : hash_table) (k : List Nat) (n : Nat)
    (h : ht_contains_i E t k n = some 1) :
    ∃ index pre e post t',
      ht_index_ui E t k n = some index ∧
      t.pparray.getD index [] = pre ++ e :: post ∧
      (∀ x ∈ pre, he_key_compare_i x (tmp_entry k n) = 0) ∧
      he_key_compare_i e (tmp_entry k n) ≠ 0 ∧
      ht_remove E t k n = some t' ∧
      t'.pparray = t.pparray.set index (pre ++ post) ∧
      t'.pparray.getD index [] = pre ++ post ∧
      (∀ i, i ≠ index → t'.pparray.getD i [] = t.pparray.getD i []) ∧
      (pre ≠ [] → t'.collisions = (t.collisions + UINT_RANGE - 1) % UINT_RANGE) ∧
      (pre ≠ [] → 0 < t.collisions → t.collisions < UINT_RANGE →
        t'.collisions + 1 = t.collisions) ∧
      (pre = [] → t'.collisions = t.collisions) := by
  unfold ht_contains_i at h
  cases hix : ht_index_ui E t k n with
  | none => rw [hix] at h; simp at h
  | some index =>
    rw [hix] at h
    simp only [Option.some.injEq] at h
    obtain ⟨pre, e, post, h1, h2, h3, h4⟩ := remove_walk_split (tmp_entry k n) _ false h
    have hlen : index < t.pparray.length := by
      by_contra hcon
      have : t.pparray.getD index [] = [] := by
        simp [List.getD_eq_getElem?_getD, List.getElem?_eq_none (Nat.le_of_not_lt hcon)]
      rw [this] at h1
      simp at h1
    have hrem : ht_remove E t k n = some
        { t with
          pparray := t.pparray.set index (pre ++ post)
          key_count := (t.key_count + UINT_RANGE - 1) % UINT_RANGE
          collisions := if (false || !pre.isEmpty) then
            (t.collisions + UINT_RANGE - 1) % UINT_RANGE else t.collisions } := by
      unfold ht_remove
      rw [hix]
      simp only
      rw [h4]
    refine ⟨index, pre, e, post, _, rfl, h1, h2, h3, hrem, rfl, ?_, ?_, ?_, ?_, ?_⟩
    · show (t.pparray.set index (pre ++ post)).getD index [] = pre ++ post
      rw [getD_set_chain]
      simp [hlen]
    · intro i hi
      show (t.pparray.set index (pre ++ post)).getD i [] = t.pparray.getD i []
      rw [getD_set_chain]
      simp [hi]
    · intro hpre
      have : pre.isEmpty = false := by
        cases pre with
        | nil => exact absurd rfl hpre
        | cons _ _ => rfl
      simp [this]
    · intro hpre hpos hlt
      have : pre.isEmpty = false := by
        cases pre with
        | nil => exact absurd rfl hpre
        | cons _ _ => rfl
      simp only [this, Bool.not_false, Bool.or_true, if_true]
      simp only [UINT_RANGE] at hlt ⊢
      omega
    · intro hpre
      subst hpre
      simp

/-- C21, at the removal of the second of two keys that share a bucket. -/
theorem C21_remove_counter_rule_witness :
    ∃ index pre e post t',
      ht_index_ui demo_env demo_pair64 [64] 1 = some index ∧
      demo_pair64.pparray.getD index [] = pre ++ e :: post ∧
      (∀ x ∈ pre, he_key_compare_i x (tmp_entry [64] 1) = 0) ∧
      he_key_compare_i e (tmp_entry [64] 1) ≠ 0 ∧
      ht_remove demo_env demo_pair64 [64] 1 = some t' ∧
      t'.pparray = demo_pair64.pparray.set index (pre ++ post) ∧
      t'.pparray.getD index [] = pre ++ post ∧
      (∀ i, i ≠ index → t'.pparray.getD i [] = demo_pair64.pparray.getD i []) ∧
      (pre ≠ [] → t'.collisions = (demo_pair64.collisions + UINT_RANGE - 1) % UINT_RANGE) ∧
      (pre ≠ [] → 0 < demo_pair64.collisions → demo_pair64.collisions < UINT_RANGE →
        t'.collisions + 1 = demo_pair64.collisions) ∧
      (pre = [] → t'.collisions = demo_pair64.collisions) :=
  C21_remove_counter_rule demo_env demo_pair64 [64] 1 (by decide!)

/-- C22. Insert does not disturb other keys: when `ht_insert(k, v)` returns on
a well-formed table (by a plain insertion, a replacement, or through one or
more autoresizes), `ht_get_p` and `ht_contains_i` give for every key other than
`k` what they gave before. -/
theorem C22_insert_keeps_other_keys (E : Env) (fuel : Nat) (t t' : hash_table)
    (k v k' : List Nat) (hwf : WF E t)
    (h : ht_insert E fuel t k k.length v v.length = some t') (hne : k' ≠ k) :
    ht_get_p E t' k' k'.length = ht_get_p E t k' k'.length ∧
    ht_contains_i E t' k' k'.length = ht_contains_i E t k' k'.length := by
  have hus : usable t := insert_returns_usable E fuel t _ t' h
  obtain ⟨hwf', _, hus', hlk, _⟩ := insert_spec E fuel t t' k v hwf h
  rw [get_eq_lookup E t' hwf' hus', get_eq_lookup E t hwf hus,
    contains_eq_lookup E t' hwf' hus', contains_eq_lookup E t hwf hus, hlk k', if_neg hne]
  exact ⟨rfl, rfl⟩

/-- C22, at an insertion that doubles the capacity from 64 to 128. -/
theorem C22_insert_keeps_other_keys_witness :
    ht_get_p demo_env demo_t2 [0] [0].length = ht_get_p demo_env demo_t1 [0] [0].length ∧
    ht_contains_i demo_env demo_t2 [0] [0].length
      = ht_contains_i demo_env demo_t1 [0] [0].length :=
  C22_insert_keeps_other_keys demo_env 2 demo_t1 demo_t2 [64] [8] [0] demo_wf1 demo_insert2
    (by decide)

/-- C23. Remove does not disturb other keys: on a well-formed table with a
bound digest function and capacity at least 1, `ht_remove(k)` returns, leaves
`array_size` unchanged, and `ht_get_p` and `ht_contains_i` give for every key
other than `k` what they gave before. -/
theorem C23_remove_keeps_other_keys (E : Env) (t : hash_table) (k : List Nat)
    (hwf : WF E t) (hus : usable t) :
    ∃ t', ht_remove E t k k.length = some t' ∧ t'.array_size = t.array_size ∧
      ∀ k', k' ≠ k →
        ht_get_p E t' k' k'.length = ht_get_p E t k' k'.length ∧
        ht_contains_i E t' k' k'.length = ht_contains_i E t k' k'.length := by
  obtain ⟨t', h⟩ := remove_returns E t hus k k.length
  obtain ⟨hwf', _, hsz, hlk, _⟩ := remove_spec E t t' k hwf h
  have hus' : usable t' := remove_keeps_usable E t t' k k.length h hus
  refine ⟨t', h, hsz, ?_⟩
  intro k' hne
  rw [get_eq_lookup E t' hwf' hus', get_eq_lookup E t hwf hus,
    contains_eq_lookup E t' hwf' hus', contains_eq_lookup E t hwf hus, hlk k', if_neg hne]
  exact ⟨rfl, rfl⟩

/-- C23, at a table of 128 buckets that holds the keys `[0]` and `[64]`. -/
theorem C23_remove_keeps_other_keys_witness :
    ∃ t', ht_remove demo_env demo_t2 [64] [64].length = some t' ∧
      t'.array_size = demo_t2.array_size ∧
      ∀ k', k' ≠ [64] →
        ht_get_p demo_env t' k' k'.length = ht_get_p demo_env demo_t2 k' k'.length ∧
        ht_contains_i demo_env t' k' k'.length = ht_contains_i demo_env demo_t2 k' k'.length :=
  C23_remove_keeps_other_keys demo_env demo_t2 [64] demo_wf2
    (insert_spec demo_env 2 demo_t1 demo_t2 [64] [8] demo_wf1 demo_insert2).2.2.1

/-- C25, the claim as stated fails: `ht_init` with autoresize enabled and the
threshold `(double)1/3`, `ht_resize(3)` and the insertion of two keys that
share a bucket. The load factor `(double)1/3` of one collision in 3 buckets is
the threshold itself, not above it, so no resize takes place; the threshold
is the double below 1/3, and `collisions` = 1 is above
`max_load_factor * array_size` = 1 - 2^-54. -/
theorem C25_under_threshold_counterexample :
    ReachableSmall third_env third_t3 ∧ third_t3.flags &&& HT_NO_AUTORESIZE = 0 ∧
    0 ≤ third_t3.max_load_factor ∧ third_t3.collisions = 1 ∧ third_t3.array_size = 3 ∧
    third_env.round_double (1 / 3) = third_t3.max_load_factor ∧
    ¬ ((third_t3.collisions : ℚ) ≤ third_t3.max_load_factor * (third_t3.array_size : ℚ)) :=
  ⟨third_reachable, by decide!, by decide!, by decide!, by decide!, by decide!, by decide!⟩

/-- C25, amended. Autoresize keeps the load factor at or below the threshold:
in every table built from `ht_init` by calls of `ht_insert`, `ht_he_insert`,
`ht_remove`, `ht_resize` and `ht_clear` that return (fewer than 2^32 entries
at every step), with autoresize enabled and a threshold that is not negative,
the load factor of the stored counters as the code computes it, the quotient
of `collisions` by `array_size` rounded to a double, is not above
`max_load_factor`. The rounding is taken to keep the order of the quotients
and to leave 0 as it is. -/
theorem C25_under_threshold (E : Env) (t : hash_table) (hr : ReachableSmall E t)
    (hflag : t.flags &&& HT_NO_AUTORESIZE = 0) (hmlf : 0 ≤ t.max_load_factor)
    (hmono : rounding_monotone E) (hzero : E.round_double 0 = 0) :
    E.round_double ((t.collisions : ℚ) / (t.array_size : ℚ)) ≤ t.max_load_factor :=
  (hr.ratio hmono hflag (by rw [hzero]; exact hmlf)).2.1

/-- C25, amended, at the table of the counterexample: one collision in 3
buckets, threshold `(double)1/3`, under the rounding that sends 1/3 to that
double. -/
theorem C25_under_threshold_witness :
    third_env.round_double ((third_t3.collisions : ℚ) / (third_t3.array_size : ℚ))
      ≤ third_t3.max_load_factor :=
  C25_under_threshold third_env third_t3 third_reachable (by decide!) (by decide!)
    round_third_mono (by decide!)

/-- C26. The counter `collisions` is the number of entries that are not chain
heads after `ht_init`, after `ht_clear` and, as an unsigned int, after every
`ht_resize` of a table a program can build. It does not stay at or above that
number: in a table built by `ht_init` (autoresize disabled, any threshold, any
digest functions, either build) and `ht_resize` to one bucket, 2^32 - 1 rounds
of inserting a second key behind the stored one and removing the chain head
leave one entry and `collisions` at 2^32 - 1; the next insertion appends a
second entry and wraps `collisions` to 0, below the one entry that is not a
chain head, and the removal of that entry decrements `collisions` from 0 to
2^32 - 1. -/
theorem C26_collisions_wraps (E : Env) (mlf : ℚ) (f : HashFunc) :
    (∀ flags m f32 f128 f64,
      (ht_init E flags m f32 f128 f64).collisions
        = non_head (ht_init E flags m f32 f128 f64)) ∧
    (∀ t, (ht_clear E t).collisions = non_head (ht_clear E t)) ∧
    (∀ t fuel n t', Reachable E t → ht_resize E fuel t n = some t' →
      t'.collisions = non_head t' % UINT_RANGE) ∧
    ∃ t t' k,
      Reachable E t ∧ t.collisions = 0 ∧ non_head t = 1 ∧ total t = 2 ∧
      ht_remove E t k k.length = some t' ∧ Reachable E t' ∧
      t'.collisions = UINT_RANGE - 1 ∧ non_head t' = 0 := by
  refine ⟨?_, ?_, ?_, ?_⟩
  · intro flags m f32 f128 f64
    rw [non_head_empty _ (by simp [ht_init]) (fun i => getD_replicate_nil _ i)]
    rfl
  · intro t
    rw [non_head_empty _ (by simp [ht_clear, ht_init]) (fun i => clear_getD E t i)]
    rfl
  · intro t fuel n t' hr h
    exact ht_resize_exact E fuel t n t' hr.wf h
  · obtain ⟨g, g2, g3, clf, h1⟩ := init_resize_one E mlf f
    have h2 := one_bucket_insert_first E g g2 g3 mlf clf
    have hr0 : Reachable E (one_bucket g g2 g3 mlf clf 1 0 [⟨[1], 1, [10], 1⟩]) :=
      Reachable.insert 1 [1] [10] (Reachable.resize 1 1 (Reachable.init _ _ _ _ _) h1) h2
    obtain ⟨clf1, x, y, u, hxy, hr⟩ := churn E g g2 g3 mlf clf hr0 (UINT_RANGE - 1)
    have hmod : (UINT_RANGE - 1) % UINT_RANGE = UINT_RANGE - 1 := by decide
    rw [hmod] at hr
    have h3 := one_bucket_append E g g2 g3 mlf clf1 (UINT_RANGE - 1) x y u 0 hxy
    have hwrap : (UINT_RANGE - 1 + 1) % UINT_RANGE = 0 := by decide
    rw [hwrap] at h3
    have h4 := one_bucket_remove_last E g g2 g3 mlf
      (E.round_double (((0 : Nat) : ℚ) / ((1 : Nat) : ℚ))) 0 x y u 0 hxy
    have hr3 := Reachable.insert 1 [y] [0] hr h3
    refine ⟨_, _, [y], hr3, rfl, rfl, rfl, h4, Reachable.remove [y] hr3 h4, ?_, rfl⟩
    show (0 + UINT_RANGE - 1) % UINT_RANGE = UINT_RANGE - 1
    decide

/-- C27. Bucket placement invariant: in every table a program can build from
`ht_init` by `ht_insert`, `ht_he_insert`, `ht_remove`, `ht_resize` and
`ht_clear` (seed and digest functions fixed), every entry of the chain of
bucket `i` has `ht_index_ui` of its key equal to `i`, which is below
`array_size`, and the scans of `ht_contains_i` and `ht_get_p` find it. -/
theorem C27_bucket_placement (E : Env) (t : hash_table) (hr : Reachable E t) :
    ∀ i e, e ∈ t.pparray.getD i [] →
      ht_index_ui E t e.pkey e.key_size = some i ∧ i < t.array_size ∧
      ht_contains_i E t e.pkey e.key_size = some 1 ∧
      ht_get_p E t e.pkey e.key_size = some (some (e.pvalue, e.value_size)) := by
  intro i e he
  have hwf := hr.wf
  have hks : e.key_size = e.pkey.length := (hwf.entries i e he).1
  have hix := hwf.placed i e he
  have hus : usable t := ht_index_ui_usable E t _ _ i hix
  have hlk : lookup E t e.pkey = some (e.pvalue, e.value_size) := by
    unfold lookup
    rw [hix]
    simp only
    rw [cfind_of_mem _ (hwf.nodup i) e he]
    rfl
  rw [hks]
  refine ⟨hix, ht_index_ui_lt E t _ _ i hix, ?_, ?_⟩
  · rw [contains_eq_lookup E t hwf hus, hlk]
    rfl
  · rw [get_eq_lookup E t hwf hus, hlk]

/-- C27, at the entry of the key `[0]` in a table built by two insertions and
one autoresize. -/
theorem C27_bucket_placement_witness :
    (⟨[0], 1, [7], 1⟩ : hash_entry) ∈ demo_t2.pparray.getD 53 [] ∧
    ht_index_ui demo_env demo_t2 [0] 1 = some 53 ∧ 53 < demo_t2.array_size ∧
    ht_contains_i demo_env demo_t2 [0] 1 = some 1 ∧
    ht_get_p demo_env demo_t2 [0] 1 = some (some ([7], 1)) :=
  ⟨by decide!,
    C27_bucket_placement demo_env demo_t2 demo_reachable2 53 ⟨[0], 1, [7], 1⟩ (by decide!)⟩

end Hashtable
